import Mathlib

/-!
Shallow embedding of the dungeon generator in `src/dungeon.rs` of the
repository `cosmobobak/dungeon`, together with theorems settling the
specification claims.

Machine-integer conventions: positions and dimensions are `i32` in the
source; they are modelled as `Int`.  The only place where 32-bit overflow
and the `as usize` cast are observable is the flattened index computation
of `Stage::set` / `Stage::get`, which is modelled with explicit
two's-complement wrapping (`wrap32`) and sign-extension (`i32ToUsize`).
All integer divisions in the source (`size / 2`, `(width - w) / 2`,
`(height - h) / 2`) act on a nonnegative operand or on an even operand,
where Rust's truncating division and Lean's Euclidean `Int` division
agree, so `/` is used directly.

Randomness: the source draws from `rand::thread_rng()`.  Each primitive
draw is modelled as consuming one value from an oracle stream `Rng`
(a function `Nat → Nat` plus a cursor); a claim quantified over "every
sequence of random draws" is quantified over every oracle.  `gen_range`
over an empty range, indexing `connectors[r % 0]`, and every other Rust
panic is modelled as `Option.none`; loops carry explicit fuel whose
exhaustion is also `none`.
-/

namespace Dungeon

/-- The tile enumeration (`enum Tile`). -/
inductive Tile where
  | Wall
  | OpenDoor
  | ClosedDoor
  | Floor
deriving DecidableEq, Repr

/-- Integer 2-vector (`struct Vector(i32, i32)`), used for positions and
directions. -/
structure Vector where
  x : Int
  y : Int
deriving DecidableEq, Repr

instance : Add Vector := ⟨fun a b => ⟨a.x + b.x, a.y + b.y⟩⟩

instance : Sub Vector := ⟨fun a b => ⟨a.x - b.x, a.y - b.y⟩⟩

instance : HMul Vector Int Vector := ⟨fun a k => ⟨a.x * k, a.y * k⟩⟩

/-- Manhattan magnitude (`Vector::abs`). -/
def Vector.abs (v : Vector) : Int := |v.x| + |v.y|

/-- The four cardinal direction vectors (`static CARDINALS`), in source
order: up, right, down, left. -/
def CARDINALS : List Vector := [⟨0, -1⟩, ⟨1, 0⟩, ⟨0, 1⟩, ⟨-1, 0⟩]

/-- Two's-complement wrap-around of a 32-bit signed integer operation. -/
def wrap32 (v : Int) : Int := (v + 2 ^ 31) % 2 ^ 32 - 2 ^ 31

/-- The `as usize` cast of an `i32` value: sign extension to 64 bits. -/
def i32ToUsize (v : Int) : Nat := (v % 2 ^ 64).toNat

/-- The grid (`struct Stage`): dimensions plus a row-major dense tile
store. -/
structure Stage where
  width : Int
  height : Int
  tiles : List Tile
deriving DecidableEq, Repr

/-- The flattened store index `(pos.1 * self.width + pos.0) as usize`
computed by `Stage::set` and `Stage::get`, with 32-bit wrapping
arithmetic and the sign-extending cast made explicit. -/
def Stage.flatIdx (s : Stage) (pos : Vector) : Nat :=
  i32ToUsize (wrap32 (wrap32 (pos.y * s.width) + pos.x))

/-- `Stage::set`: writes through `tiles.get_mut(idx)`, a no-op when the
flattened index is outside the store (`List.set` is a no-op there). -/
def Stage.set (s : Stage) (pos : Vector) (tile : Tile) : Stage :=
  { s with tiles := s.tiles.set (s.flatIdx pos) tile }

/-- `Stage::get`: reads `tiles.get(idx)`. -/
def Stage.get (s : Stage) (pos : Vector) : Option Tile :=
  s.tiles.get? (s.flatIdx pos)

/-- `Stage::contains`: the componentwise bounds check. -/
def Stage.contains (s : Stage) (pos : Vector) : Bool :=
  decide (0 ≤ pos.x) && decide (pos.x < s.width) &&
    decide (0 ≤ pos.y) && decide (pos.y < s.height)

/-- `Stage::new`: all cells initialized to `Wall`; the store size is
`(width * height) as usize`. -/
def Stage.new (width height : Int) : Stage :=
  ⟨width, height, List.replicate (i32ToUsize (wrap32 (width * height))) Tile.Wall⟩

/-- Axis-aligned room footprint (`struct Rectangle`). -/
structure Rectangle where
  x : Int
  y : Int
  w : Int
  h : Int
deriving DecidableEq, Repr

def Rectangle.top (r : Rectangle) : Int := r.y

def Rectangle.bottom (r : Rectangle) : Int := r.y + r.h

def Rectangle.left (r : Rectangle) : Int := r.x

def Rectangle.right (r : Rectangle) : Int := r.x + r.w

/-- The `vertical` component of `Rectangle::distance_to`. -/
def Rectangle.vdist (a b : Rectangle) : Int :=
  if a.top ≥ b.bottom then a.top - b.bottom
  else if a.bottom ≤ b.top then b.top - a.bottom
  else -1

/-- The `horizontal` component of `Rectangle::distance_to`. -/
def Rectangle.hdist (a b : Rectangle) : Int :=
  if a.left ≥ b.right then a.left - b.right
  else if a.right ≤ b.left then b.left - a.right
  else -1

/-- `Rectangle::distance_to`: the signed separation metric. -/
def Rectangle.distance_to (a b : Rectangle) : Int :=
  if a.vdist b = -1 ∧ a.hdist b = -1 then -1
  else if a.vdist b = -1 then a.hdist b
  else if a.hdist b = -1 then a.vdist b
  else a.vdist b + a.hdist b

/-- Oracle stream standing for `rand::thread_rng()`: an infinite sequence
of raw draws and a cursor. -/
structure Rng where
  draws : Nat → Nat
  idx : Nat

/-- Consume one raw draw. -/
def Rng.next (r : Rng) : Nat × Rng := (r.draws r.idx, ⟨r.draws, r.idx + 1⟩)

/-- `gen_range(lo..hi)`: panics (`none`) on an empty range, otherwise
yields a value in `[lo, hi)` determined by the next raw draw.  Any value
of the range is realizable and no other. -/
def genRange (lo hi : Int) (r : Rng) : Option (Int × Rng) :=
  if hi ≤ lo then none
  else
    let (d, r') := r.next
    some (lo + (d : Int) % (hi - lo), r')

/-- `gen_range(lo..=hi)` (inclusive). -/
def genRangeI (lo hi : Int) (r : Rng) : Option (Int × Rng) :=
  genRange lo (hi + 1) r

/-- `gen_bool(0.5)`: one raw draw, both outcomes realizable. -/
def genBool (r : Rng) : Bool × Rng :=
  let (d, r') := r.next
  (d % 2 == 0, r')

/-- `gen_ratio(1, n)` for a fixed nonzero `n`: one raw draw, `true` with
"probability" 1/n — both outcomes realizable. -/
def genRatio (n : Nat) (r : Rng) : Bool × Rng :=
  let (d, r') := r.next
  (d % n == 0, r')

/-- `rand::random::<usize>()`. -/
def randomUsize (r : Rng) : Nat × Rng := r.next

/-- Helper for `intRange`: `n` consecutive integers starting at `lo`. -/
def intRangeGo (lo : Int) : Nat → List Int
  | 0 => []
  | n + 1 => lo :: intRangeGo (lo + 1) n

/-- `[lo, hi)` as an ascending list of integers (a Rust `lo..hi` loop). -/
def intRange (lo hi : Int) : List Int := intRangeGo lo (hi - lo).toNat

/-- `(1..limit).step_by(2)`: the odd integers in `[1, limit)`, ascending. -/
def oddCoords (limit : Int) : List Int :=
  (intRange 1 limit).filter (fun v => v % 2 = 1)

/-- `Dungeon::EXTRA_CONNECTOR_CHANCE` (used as the `gen_ratio` denominator). -/
def EXTRA_CONNECTOR_CHANCE : Nat := 20

/-- `Dungeon::WINDING_PERCENT`. -/
def WINDING_PERCENT : Int := 0

/-- `Dungeon::ROOM_EXTRA_SIZE`. -/
def ROOM_EXTRA_SIZE : Int := 0

/-- The generator state (`struct Dungeon`).  The `regions` hash map is
modelled as a duplicate-key-free association list. -/
structure DState where
  n_room_tries : Nat
  rooms : List Rectangle
  regions : List (Vector × Int)
  curr_region : Int
  stage : Stage
deriving DecidableEq, Repr

/-- `HashMap::get` on the position-to-region map. -/
def rlookup (regions : List (Vector × Int)) (p : Vector) : Option Int :=
  (regions.find? (fun e => e.1 == p)).map (·.2)

/-- `HashMap::insert` on the position-to-region map (overwriting). -/
def rinsert (regions : List (Vector × Int)) (p : Vector) (i : Int) :
    List (Vector × Int) :=
  (p, i) :: regions.filter (fun e => e.1 != p)

/-- `HashMap::get` on the merge map. -/
def mlookup (merged : List (Int × Int)) (i : Int) : Option Int :=
  (merged.find? (fun e => e.1 == i)).map (·.2)

/-- `HashMap::insert` on the merge map (overwriting). -/
def minsert (merged : List (Int × Int)) (i v : Int) : List (Int × Int) :=
  (i, v) :: merged.filter (fun e => e.1 != i)

/-- `Dungeon::new`. -/
def DState.new (stage : Stage) : DState :=
  ⟨50, [], [], -1, stage⟩

/-- `Dungeon::get_tile`: `self.stage.get(pos).unwrap()`; the unwrap panic
is `none`. -/
def DState.getTile (d : DState) (p : Vector) : Option Tile := d.stage.get p

/-- `Dungeon::set_tile`. -/
def DState.setTile (d : DState) (p : Vector) (t : Tile) : DState :=
  { d with stage := d.stage.set p t }

/-- `Dungeon::start_region`. -/
def DState.startRegion (d : DState) : DState :=
  { d with curr_region := d.curr_region + 1 }

/-- `Dungeon::carve`: write the tile and record the current region for
the position. -/
def DState.carve (d : DState) (p : Vector) (t : Tile) : DState :=
  let d' := d.setTile p t
  { d' with regions := rinsert d'.regions p d'.curr_region }

/-- `Dungeon::can_carve`: the destination two steps away must still be
`Wall` and the cell three steps away must be in bounds. -/
def DState.canCarve (d : DState) (pos dir : Vector) : Option Bool :=
  if ¬ (d.stage.contains (pos + dir * (3 : Int)) = true) then some false
  else (d.getTile (pos + dir * (2 : Int))).map (· == Tile.Wall)

/-- The `unmade_cells` accumulation loop of `grow_maze`: the cardinal
directions (in order) that are carvable from `pos`. -/
def carvableDirs (d : DState) (pos : Vector) : List Vector → Option (List Vector)
  | [] => some []
  | dir :: rest =>
    (d.canCarve pos dir).bind fun b =>
      (carvableDirs d pos rest).map fun l => if b then dir :: l else l

/-- The direction-choice expression of `grow_maze` (dungeon.rs lines
247-254): continue straight when the previous direction is still
carvable and the winding roll exceeds `WINDING_PERCENT`, otherwise pick
a uniformly random carvable direction. -/
def chooseDir (r : Rng) (unmade : List Vector) (lastDir : Vector) :
    Option (Vector × Rng) :=
  if unmade.contains lastDir then
    (genRangeI 1 100 r).bind fun (roll, r') =>
      if roll > WINDING_PERCENT then some (lastDir, r')
      else
        let (u, r'') := randomUsize r'
        if unmade.length = 0 then none
        else some (unmade.getD (u % unmade.length) ⟨0, 0⟩, r'')
  else
    let (u, r') := randomUsize r
    if unmade.length = 0 then none
    else some (unmade.getD (u % unmade.length) ⟨0, 0⟩, r')

/-- Result of one iteration of the `grow_maze` while loop. -/
inductive GrowRes where
  | done : DState → Rng → GrowRes
  | cont : DState → Rng → List Vector → Vector → GrowRes

/-- One iteration of the `grow_maze` while loop: inspect the top of the
cell stack, backtrack when nothing is carvable, otherwise carve the
intermediate cell and the destination and push the destination. -/
def growStep (d : DState) (r : Rng) (cells : List Vector) (lastDir : Vector) :
    Option GrowRes :=
  match cells with
  | [] => some (GrowRes.done d r)
  | cell :: rest =>
    (carvableDirs d cell CARDINALS).bind fun unmade =>
      if unmade.isEmpty then some (GrowRes.cont d r rest ⟨0, 0⟩)
      else
        (chooseDir r unmade lastDir).bind fun (dir, r') =>
          if CARDINALS.contains dir then
            let d1 := d.carve (cell + dir) Tile.Floor
            let d2 := d1.carve (cell + dir * (2 : Int)) Tile.Floor
            some (GrowRes.cont d2 r' ((cell + dir * (2 : Int)) :: cell :: rest) dir)
          else none

/-- The `grow_maze` while loop, with fuel. -/
def growMazeLoop : Nat → DState → Rng → List Vector → Vector →
    Option (DState × Rng)
  | 0, _, _, _, _ => none
  | fuel + 1, d, r, cells, lastDir =>
    (growStep d r cells lastDir).bind fun res =>
      match res with
      | GrowRes.done d' r' => some (d', r')
      | GrowRes.cont d' r' cells' last' => growMazeLoop fuel d' r' cells' last'

/-- `Dungeon::grow_maze`. -/
def growMaze (fuel : Nat) (d : DState) (r : Rng) (start : Vector) :
    Option (DState × Rng) :=
  let d1 := d.startRegion
  let d2 := d1.carve start Tile.Floor
  growMazeLoop fuel d2 r [start] ⟨0, 0⟩

/-- The nested room-carving loops of `add_rooms`. -/
def carveRoom (d : DState) (room : Rectangle) : DState :=
  (intRange room.y (room.y + room.h)).foldl
    (fun d1 y =>
      (intRange room.x (room.x + room.w)).foldl
        (fun d2 x => d2.carve ⟨x, y⟩ Tile.Floor) d1)
    d

/-- One iteration of the `add_rooms` attempt loop: draw a candidate,
reject it when it touches or overlaps an accepted room, otherwise accept
and carve it under a fresh region. -/
def roomAttempt (d : DState) (r : Rng) : Option (DState × Rng) :=
  (genRangeI 1 (3 + ROOM_EXTRA_SIZE) r).bind fun (s0, r1) =>
    let size := s0 * 2 + 1
    (genRangeI 0 (1 + size / 2) r1).bind fun (re0, r2) =>
      let rectangularity := re0 * 2
      let (b, r3) := genBool r2
      let width := if b then size + rectangularity else size
      let height := if b then size else size + rectangularity
      (genRange 0 ((d.stage.width - width) / 2) r3).bind fun (x0, r4) =>
        let x := x0 * 2 + 1
        (genRange 0 ((d.stage.height - height) / 2) r4).bind fun (y0, r5) =>
          let y := y0 * 2 + 1
          let room : Rectangle := ⟨x, y, width, height⟩
          if d.rooms.any (fun other => room.distance_to other ≤ 0) then
            some (d, r5)
          else
            let d1 := { d with rooms := d.rooms ++ [room] }
            some (carveRoom d1.startRegion room, r5)

/-- The `add_rooms` attempt loop. -/
def addRoomsLoop : Nat → DState → Rng → Option (DState × Rng)
  | 0, d, r => some (d, r)
  | n + 1, d, r => (roomAttempt d r).bind fun (d', r') => addRoomsLoop n d' r'

/-- `Dungeon::add_rooms`. -/
def addRooms (d : DState) (r : Rng) : Option (DState × Rng) :=
  addRoomsLoop d.n_room_tries d r

/-- One step of the neighbor-region accumulation of `connect_regions`:
look up the region of `pos + dir` and append it if new. -/
def nrStep (d : DState) (pos : Vector) (acc : List Int) (dir : Vector) :
    List Int :=
  match rlookup d.regions (pos + dir) with
  | some reg => if acc.contains reg then acc else acc ++ [reg]
  | none => acc

/-- The distinct region ids among the four cardinal neighbors of `pos`
(in `CARDINALS` order, first occurrence kept), read from the
position-to-region map. -/
def neighborRegions (d : DState) (pos : Vector) : List Int :=
  CARDINALS.foldl (nrStep d pos) []

/-- The connector scan of `connect_regions`: every interior `Wall` cell
whose cardinal neighbors span at least two distinct regions, with its
region list, in row-major order. -/
def scanConnectors (d : DState) : Option (List (Vector × List Int)) :=
  (intRange 1 (d.stage.height - 1)).foldlM
    (fun acc y =>
      (intRange 1 (d.stage.width - 1)).foldlM
        (fun acc2 x =>
          let pos : Vector := ⟨x, y⟩
          (d.getTile pos).map fun t =>
            if t ≠ Tile.Wall then acc2
            else
              let regs := neighborRegions d pos
              if regs.length < 2 then acc2 else acc2 ++ [(pos, regs)])
        acc)
    []

/-- `Dungeon::add_junction`: the two-level probabilistic tile choice. -/
def addJunction (d : DState) (r : Rng) (pos : Vector) : DState × Rng :=
  let (b1, r1) := genRatio 4 r
  if b1 then
    let (b2, r2) := genRatio 3 r1
    (d.setTile pos (if b2 then Tile.OpenDoor else Tile.Floor), r2)
  else
    (d.setTile pos Tile.ClosedDoor, r1)

/-- The merge-map update loop of `connect_regions`: remap every region
whose representative is among `sources` to `dest`. -/
def mergeAll (curr : Int) (sources : List Int) (dest : Int)
    (merged : List (Int × Int)) : Option (List (Int × Int)) :=
  (intRange 0 (curr + 1)).foldlM
    (fun m i =>
      (mlookup m i).map fun mi =>
        if sources.contains mi then minsert m i dest else m)
    merged

/-- The body of the `connectors.retain` closure: report whether `pos` is
kept, carving an occasional extra junction along the way.  The closure
result is negated by the source (`!(..)()`), so `false` here means the
connector is dropped. -/
def retainStep (connector : Vector) (cr : List (Vector × List Int))
    (merged : List (Int × Int)) (d : DState) (r : Rng) (pos : Vector) :
    Option (Bool × DState × Rng) :=
  if (connector - pos).abs < 2 then some (false, d, r)
  else
    ((cr.find? (fun e => e.1 == pos)).bind fun entry =>
        entry.2.mapM (fun reg => mlookup merged reg)).bind fun resolved =>
      if 1 < resolved.dedup.length then some (true, d, r)
      else
        let (roll, r1) := genRatio EXTRA_CONNECTOR_CHANCE r
        if roll then
          let (d1, r2) := addJunction d r1 pos
          some (false, d1, r2)
        else some (false, d, r1)

/-- `connectors.retain(..)`: filter the candidate list in order, keeping
relative order, threading the occasional extra-junction carving. -/
def retainConnectors (connector : Vector) (cr : List (Vector × List Int))
    (merged : List (Int × Int)) :
    List Vector → DState → Rng → Option (List Vector × DState × Rng)
  | [], d, r => some ([], d, r)
  | pos :: rest, d, r =>
    (retainStep connector cr merged d r pos).bind fun (keep, d1, r1) =>
      (retainConnectors connector cr merged rest d1 r1).map fun (l, d2, r2) =>
        (if keep then pos :: l else l, d2, r2)

/-- The merging while loop of `connect_regions` (fuelled): pick a random
connector, carve a junction, merge the regions it spans, and filter the
candidate list. -/
def connectLoop (cr : List (Vector × List Int)) (curr : Int) :
    Nat → List Vector → List (Int × Int) → List Int → DState → Rng →
    Option (DState × Rng)
  | 0, _, _, _, _, _ => none
  | fuel + 1, connectors, merged, opens, d, r =>
    if opens.length ≤ 1 then some (d, r)
    else
      let (u, r1) := randomUsize r
      if connectors.length = 0 then none
      else
        let connector := connectors.getD (u % connectors.length) ⟨0, 0⟩
        let (d1, r2) := addJunction d r1 connector
        ((cr.find? (fun e => e.1 == connector)).bind fun entry =>
            entry.2.mapM (fun reg => mlookup merged reg)).bind fun resolved =>
          resolved.head?.bind fun dest =>
            let sources := resolved.tail
            (mergeAll curr sources dest merged).bind fun merged1 =>
              let opens1 := sources.foldl (fun o s => o.erase s) opens
              (retainConnectors connector cr merged1 connectors d1 r2).bind
                fun (connectors1, d2, r3) =>
                  connectLoop cr curr fuel connectors1 merged1 opens1 d2 r3

/-- `Dungeon::connect_regions`. -/
def connectRegions (fuel : Nat) (d : DState) (r : Rng) :
    Option (DState × Rng) :=
  (scanConnectors d).bind fun cr =>
    let connectors := cr.map (·.1)
    let merged :=
      (intRange 0 (d.curr_region + 1)).foldl (fun m i => minsert m i i) []
    let opens := intRange 0 (d.curr_region + 1)
    connectLoop cr d.curr_region fuel connectors merged opens d r

/-- The interior cells scanned by `remove_dead_ends` (and the same
row-major order as its nested loops). -/
def interiorCells (s : Stage) : List Vector :=
  (intRange 1 (s.height - 1)).flatMap fun y =>
    (intRange 1 (s.width - 1)).map fun x => (⟨x, y⟩ : Vector)

/-- The exit-counting loop of `remove_dead_ends` over a direction list:
each neighbor read goes through `get_tile`, whose unwrap panic is
`none`. -/
def countExitsGo (s : Stage) (pos : Vector) : List Vector → Nat → Option Nat
  | [], n => some n
  | dir :: rest, n =>
    (s.get (pos + dir)).bind fun t =>
      countExitsGo s pos rest (if t ≠ Tile.Wall then n + 1 else n)

/-- The exit count of a cell: cardinal neighbors that are not `Wall`. -/
def countExits (s : Stage) (pos : Vector) : Option Nat :=
  countExitsGo s pos CARDINALS 0

/-- One full-grid pass of `remove_dead_ends` over the given cell list:
wall off every non-`Wall` cell with exactly one exit, recording in the
flag whether any change was made. -/
def passCells : List Vector → Stage × Bool → Option (Stage × Bool)
  | [], acc => some acc
  | pos :: rest, (s, ch) =>
    (s.get pos).bind fun t =>
      if t = Tile.Wall then passCells rest (s, ch)
      else
        (countExits s pos).bind fun exits =>
          if exits ≠ 1 then passCells rest (s, ch)
          else passCells rest (s.set pos Tile.Wall, true)

/-- One iteration of the `remove_dead_ends` outer loop. -/
def deadEndPass (s : Stage) : Option (Stage × Bool) :=
  passCells (interiorCells s) (s, false)

/-- `Dungeon::remove_dead_ends` (fuelled): repeat full passes until one
makes no change. -/
def removeDeadEnds : Nat → Stage → Option Stage
  | 0, _ => none
  | fuel + 1, s =>
    (deadEndPass s).bind fun (s', changed) =>
      if changed then removeDeadEnds fuel s' else some s'

/-- The maze-filling loop of `generate`: grow a maze from every
odd-aligned cell that is still `Wall`. -/
def mazeFill (fuel : Nat) (d : DState) (r : Rng) : Option (DState × Rng) :=
  (oddCoords d.stage.height).foldlM
    (fun (acc : DState × Rng) y =>
      (oddCoords d.stage.width).foldlM
        (fun acc2 x =>
          let pos : Vector := ⟨x, y⟩
          (acc2.1.getTile pos).bind fun t =>
            if t ≠ Tile.Wall then some acc2
            else growMaze fuel acc2.1 acc2.2 pos)
        acc)
    (d, r)

/-- `Dungeon::generate` up to and including `connect_regions`: the odd
dimension assertion, the room phase, the maze phase, and region
connection. -/
def generateCore (fuel : Nat) (d : DState) (r : Rng) :
    Option (DState × Rng) :=
  if d.stage.width % 2 == 0 || d.stage.height % 2 == 0 then none
  else
    let d0 := { d with regions := [] }
    (addRooms d0 r).bind fun (d1, r1) =>
      (mazeFill fuel d1 r1).bind fun (d2, r2) =>
        connectRegions fuel d2 r2

/-- `Dungeon::generate`: the full pipeline, dead-end removal included. -/
def dgenerate (fuel : Nat) (d : DState) (r : Rng) : Option (DState × Rng) :=
  (generateCore fuel d r).bind fun (d3, r3) =>
    (removeDeadEnds fuel d3.stage).map fun st => ({ d3 with stage := st }, r3)

/-! ## General lemmas about the embedding -/

theorem mem_intRangeGo {v lo : Int} :
    ∀ {n : Nat}, v ∈ intRangeGo lo n ↔ lo ≤ v ∧ v < lo + n := by
  intro n
  induction n generalizing lo with
  | zero => simp [intRangeGo]
  | succ m ih =>
    simp only [intRangeGo, List.mem_cons, ih]
    omega

theorem mem_intRange {lo hi v : Int} : v ∈ intRange lo hi ↔ lo ≤ v ∧ v < hi := by
  rw [intRange, mem_intRangeGo]
  omega

theorem genRange_bounds {lo hi v : Int} {r r' : Rng}
    (h : genRange lo hi r = some (v, r')) : lo ≤ v ∧ v < hi := by
  unfold genRange at h
  split at h
  · exact absurd h (by simp)
  · rename_i hlt
    simp only [Rng.next, Option.some.injEq, Prod.mk.injEq] at h
    obtain ⟨rfl, -⟩ := h
    have h0 : (0 : Int) < hi - lo := by omega
    have := Int.emod_nonneg (r.draws r.idx : Int) (by omega : hi - lo ≠ 0)
    have := Int.emod_lt_of_pos (r.draws r.idx : Int) h0
    omega

theorem genRangeI_bounds {lo hi v : Int} {r r' : Rng}
    (h : genRangeI lo hi r = some (v, r')) : lo ≤ v ∧ v ≤ hi := by
  have := genRange_bounds h
  omega

theorem genRange_none {lo hi : Int} (r : Rng) (h : hi ≤ lo) :
    genRange lo hi r = none := by
  unfold genRange
  simp [h]

/-! ## Claim C3: bounds behavior of `Stage::get` / `Stage::set` -/

/-- C3 (counterexample): on a 5-by-3 grid the position `(5, 0)` is out of
bounds, yet `get` returns a tile (the store cell that `(0, 1)` also maps
to) rather than an empty result, and `set` at that position changes the
grid rather than being a no-op.  The flattened index `0 * 5 + 5 = 5` is
inside the store, so the claimed bounds checking does not happen. -/
theorem c3_counterexample :
    (Stage.new 5 3).contains ⟨5, 0⟩ = false ∧
      (Stage.new 5 3).get ⟨5, 0⟩ ≠ none ∧
      ((Stage.new 5 3).set ⟨5, 0⟩ Tile.Floor).tiles ≠ (Stage.new 5 3).tiles := by
  refine ⟨by decide, by decide, by decide⟩

/-- C3 (amended): `Stage::get` returns an empty result iff the flattened
row-major index `(y * width + x) as usize` falls outside the tile store,
and `Stage::set` is a no-op exactly under the same condition; an
out-of-bounds position whose flattened index lands inside the store
aliases the store cell at that index instead. -/
theorem c3_amended (s : Stage) (pos : Vector) (t : Tile) :
    (s.get pos = none ↔ s.tiles.length ≤ s.flatIdx pos) ∧
      (s.tiles.length ≤ s.flatIdx pos → s.set pos t = s) := by
  constructor
  · exact List.get?_eq_none
  · intro h
    unfold Stage.set
    rw [List.set_eq_of_length_le h]

/-- C3 (witness): the amended theorem applied at the out-of-store
position `(0, 7)` of a 5-by-3 grid. -/
theorem c3_witness : (Stage.new 5 3).set ⟨0, 7⟩ Tile.Floor = Stage.new 5 3 :=
  (c3_amended (Stage.new 5 3) ⟨0, 7⟩ Tile.Floor).2 (by decide)

/-! ## Claim C4: winding behavior of the maze walk -/

/-- C4 (counterexample): a direction-choice state (reached, e.g., at the
second step of `grow_maze` on an empty 7-by-7 grid) where the previous
direction right is still carvable and down is another carvable option,
yet the walk continues straight: with `WINDING_PERCENT = 0` the roll
`gen_range(1..=100) > 0` always succeeds, so the walk never turns while
straight is possible — the opposite of the claimed "always turn when
another option exists". -/
theorem c4_counterexample :
    ([⟨1, 0⟩, ⟨0, 1⟩] : List Vector).contains ⟨1, 0⟩ = true ∧
      ([⟨1, 0⟩, ⟨0, 1⟩] : List Vector).contains ⟨0, 1⟩ = true ∧
      (⟨0, 1⟩ : Vector) ≠ ⟨1, 0⟩ ∧
      (chooseDir ⟨fun _ => 0, 0⟩ [⟨1, 0⟩, ⟨0, 1⟩] ⟨1, 0⟩).map Prod.fst =
        some ⟨1, 0⟩ :=
  ⟨by decide, by decide, by decide, by rfl⟩

/-- C4 (amended): with the default winding parameter of 0, whenever the
previously carved direction is still carvable the walk always continues
straight, regardless of the winding roll and of any other carvable
options; it turns only when the previous direction is not carvable. -/
theorem c4_amended (r : Rng) (unmade : List Vector) (lastDir : Vector)
    (h : unmade.contains lastDir = true) :
    (chooseDir r unmade lastDir).map Prod.fst = some lastDir := by
  have hm : 0 ≤ (r.draws r.idx : Int) % (100 + 1 - 1) :=
    Int.emod_nonneg _ (by norm_num)
  unfold chooseDir genRangeI genRange
  rw [h]
  simp only [if_true, Rng.next, WINDING_PERCENT]
  rw [if_neg (by norm_num : ¬ ((100 : Int) + 1 ≤ 1))]
  simp only [Option.some_bind]
  rw [if_pos (by omega : (1 : Int) + (r.draws r.idx : Int) % (100 + 1 - 1) > 0)]
  rfl

/-- C4 (witness): the amended theorem applied at a concrete state. -/
theorem c4_witness :
    (chooseDir ⟨fun _ => 1, 0⟩ [⟨0, 1⟩] ⟨0, 1⟩).map Prod.fst = some ⟨0, 1⟩ :=
  c4_amended ⟨fun _ => 1, 0⟩ [⟨0, 1⟩] ⟨0, 1⟩ (by decide)

/-! ## Claim C5: generation on a minimal 1-by-1 grid -/

theorem genRangeI_some (lo hi : Int) (r : Rng) (h : lo ≤ hi) :
    ∃ v r', genRangeI lo hi r = some (v, r') ∧ lo ≤ v ∧ v ≤ hi := by
  unfold genRangeI genRange
  rw [if_neg (by omega : ¬ (hi + 1 ≤ lo))]
  refine ⟨_, _, rfl, ?_, ?_⟩ <;>
  · have h1 := Int.emod_nonneg (r.draws r.idx : Int)
      (show hi + 1 - lo ≠ 0 by omega)
    have h2 := Int.emod_lt_of_pos (r.draws r.idx : Int)
      (show 0 < hi + 1 - lo by omega)
    omega

/-- On a width-1 stage every room attempt draws `gen_range` over the
empty range `0..(1 - width) / 2` with a room width of at least 3, and
panics. -/
theorem roomAttempt_width_one_none (d : DState) (r : Rng)
    (hw : d.stage.width = 1) : roomAttempt d r = none := by
  obtain ⟨s0, r1, h1, hs1, hs2⟩ :=
    genRangeI_some 1 (3 + ROOM_EXTRA_SIZE) r (by norm_num [ROOM_EXTRA_SIZE])
  obtain ⟨re0, r2, h2, hre1, hre2⟩ :=
    genRangeI_some 0 (1 + (s0 * 2 + 1) / 2) r1 (by omega)
  obtain ⟨b, r3, h3⟩ : ∃ b r3, genBool r2 = (b, r3) := ⟨_, _, rfl⟩
  unfold roomAttempt
  rw [h1, Option.some_bind]
  dsimp only
  rw [h2, Option.some_bind]
  dsimp only
  rw [h3, hw]
  dsimp only
  rw [genRange_none r3
    (by split <;> omega :
      (1 - (if b = true then s0 * 2 + 1 + re0 * 2 else s0 * 2 + 1)) / 2 ≤ 0)]
  rfl

/-- C5: the claim that generation on a fresh 1-by-1 grid completes
without panicking is contradicted by the code: for every sequence of
random draws, the first room-placement attempt reaches
`gen_range(0..(width - room_width) / 2)` with `width = 1` and a room
width of at least 3, i.e. samples the empty range `0..-1`, which
panics, so `generate` never completes.  The spec's error taxonomy says
room placement fails softly, so this is a slip in the code. -/
theorem c5_generate_1x1_panics (fuel : Nat) (r : Rng) :
    dgenerate fuel (DState.new (Stage.new 1 1)) r = none := by
  have hloop : ∀ (n : Nat) (d : DState) (rr : Rng), d.stage.width = 1 →
      addRoomsLoop (n + 1) d rr = none := by
    intro n d rr hw
    unfold addRoomsLoop
    rw [roomAttempt_width_one_none d rr hw]
    rfl
  have hcore : generateCore fuel (DState.new (Stage.new 1 1)) r = none := by
    unfold generateCore
    rw [if_neg (by decide :
      ¬ (((DState.new (Stage.new 1 1)).stage.width % 2 == 0 ||
            (DState.new (Stage.new 1 1)).stage.height % 2 == 0) = true))]
    dsimp only
    rw [addRooms]
    dsimp only [DState.new]
    rw [hloop 49 ⟨50, [], [], -1, Stage.new 1 1⟩ r rfl]
    rfl
  unfold dgenerate
  rw [hcore]
  rfl

/-! ## Well-formed stages and the flattened index -/

/-- A well-formed stage: the shape every stage built by `Stage::new` with
nonnegative, non-overflowing dimensions has. -/
def Stage.WF (s : Stage) : Prop :=
  0 ≤ s.width ∧ 0 ≤ s.height ∧ s.width * s.height < 2 ^ 31 ∧
    s.tiles.length = (s.width * s.height).toNat

/-- The proposition behind `Stage::contains`. -/
def InBoundsP (s : Stage) (p : Vector) : Prop :=
  0 ≤ p.x ∧ p.x < s.width ∧ 0 ≤ p.y ∧ p.y < s.height

/-- Interior positions: at least one cell away from every border. -/
def InteriorP (s : Stage) (p : Vector) : Prop :=
  1 ≤ p.x ∧ p.x < s.width - 1 ∧ 1 ≤ p.y ∧ p.y < s.height - 1

theorem wrap32_eq_self {v : Int} (h0 : 0 ≤ v) (h1 : v < 2 ^ 31) :
    wrap32 v = v := by
  unfold wrap32
  rw [Int.emod_eq_of_lt (by omega) (by omega)]
  omega

theorem i32ToUsize_eq_toNat {v : Int} (h0 : 0 ≤ v) (h1 : v < 2 ^ 64) :
    i32ToUsize v = v.toNat := by
  unfold i32ToUsize
  rw [Int.emod_eq_of_lt h0 h1]

theorem flat_val_bounds {s : Stage} {p : Vector} (hwf : s.WF)
    (hb : InBoundsP s p) :
    0 ≤ p.y * s.width ∧ 0 ≤ p.y * s.width + p.x ∧
      p.y * s.width + p.x < s.width * s.height := by
  obtain ⟨hw, hh, hsz, hlen⟩ := hwf
  obtain ⟨hx0, hx1, hy0, hy1⟩ := hb
  have h1 : 0 ≤ p.y * s.width := mul_nonneg hy0 hw
  have h2 : p.y * s.width ≤ (s.height - 1) * s.width :=
    mul_le_mul_of_nonneg_right (by omega) hw
  have h3 : (s.height - 1) * s.width = s.height * s.width - s.width := by ring
  have h4 : s.width * s.height = s.height * s.width := mul_comm _ _
  refine ⟨h1, by omega, by omega⟩

theorem flatIdx_eq {s : Stage} {p : Vector} (hwf : s.WF) (hb : InBoundsP s p) :
    s.flatIdx p = (p.y * s.width + p.x).toNat := by
  obtain ⟨hyw, hv0, hv1⟩ := flat_val_bounds hwf hb
  have hsz := hwf.2.2.1
  unfold Stage.flatIdx
  rw [wrap32_eq_self hyw (by have := hb.1; omega)]
  rw [wrap32_eq_self hv0 (by omega)]
  exact i32ToUsize_eq_toNat hv0 (by omega)

theorem flatIdx_lt_length {s : Stage} {p : Vector} (hwf : s.WF)
    (hb : InBoundsP s p) : s.flatIdx p < s.tiles.length := by
  obtain ⟨hyw, hv0, hv1⟩ := flat_val_bounds hwf hb
  rw [flatIdx_eq hwf hb, hwf.2.2.2]
  omega

theorem get_some_of_inBounds {s : Stage} {p : Vector} (hwf : s.WF)
    (hb : InBoundsP s p) : ∃ t, s.get p = some t := by
  have hlt := flatIdx_lt_length hwf hb
  have : s.get p ≠ none := by
    rw [Stage.get, Ne, List.get?_eq_none]
    omega
  exact Option.ne_none_iff_exists'.mp this

theorem set_width (s : Stage) (p : Vector) (t : Tile) :
    (s.set p t).width = s.width := rfl

theorem set_height (s : Stage) (p : Vector) (t : Tile) :
    (s.set p t).height = s.height := rfl

theorem set_length (s : Stage) (p : Vector) (t : Tile) :
    (s.set p t).tiles.length = s.tiles.length := List.length_set _ _ _

theorem WF_set {s : Stage} (hwf : s.WF) (p : Vector) (t : Tile) :
    (s.set p t).WF := by
  obtain ⟨hw, hh, hsz, hlen⟩ := hwf
  exact ⟨hw, hh, hsz, by rw [set_length]; exact hlen⟩

/-! ## Dead-end removal: shared lemmas -/

/-- Number of non-`Wall` cells in the store. -/
def nonWallCount (s : Stage) : Nat :=
  s.tiles.countP (fun t => !(t == Tile.Wall))

theorem countP_set_wall_lt {l : List Tile} :
    ∀ {i : Nat} {t : Tile}, l.get? i = some t → t ≠ Tile.Wall →
      (l.set i Tile.Wall).countP (fun a => !(a == Tile.Wall)) <
        l.countP (fun a => !(a == Tile.Wall)) := by
  induction l with
  | nil => intro i t h; simp at h
  | cons a l ih =>
    intro i t h ht
    cases i with
    | zero =>
      simp only [List.get?] at h
      injection h with h
      subst h
      simp only [List.set, List.countP_cons]
      simp [ht]
    | succ j =>
      simp only [List.get?] at h
      simp only [List.set, List.countP_cons]
      have := ih h ht
      omega

theorem nonWallCount_set_wall_lt {s : Stage} {p : Vector} {t : Tile}
    (h : s.get p = some t) (ht : t ≠ Tile.Wall) :
    nonWallCount (s.set p Tile.Wall) < nonWallCount s :=
  countP_set_wall_lt h ht

theorem mem_interiorCells {s : Stage} {x y : Int} :
    (⟨x, y⟩ : Vector) ∈ interiorCells s ↔
      1 ≤ x ∧ x < s.width - 1 ∧ 1 ≤ y ∧ y < s.height - 1 := by
  unfold interiorCells
  simp only [List.mem_flatMap, List.mem_map]
  constructor
  · rintro ⟨y', hy', x', hx', he⟩
    injection he with he1 he2
    subst he1; subst he2
    have := mem_intRange.mp hy'
    have := mem_intRange.mp hx'
    omega
  · rintro ⟨hx1, hx2, hy1, hy2⟩
    exact ⟨y, mem_intRange.mpr ⟨hy1, hy2⟩, x, mem_intRange.mpr ⟨hx1, hx2⟩, rfl⟩

theorem interior_of_mem {s : Stage} {p : Vector} (h : p ∈ interiorCells s) :
    InteriorP s p := by
  obtain ⟨x, y⟩ := p
  exact mem_interiorCells.mp h

theorem vadd_x (a b : Vector) : (a + b).x = a.x + b.x := rfl

theorem vadd_y (a b : Vector) : (a + b).y = a.y + b.y := rfl

theorem inBounds_of_interior {s : Stage} {p : Vector} (h : InteriorP s p) :
    InBoundsP s p := by
  obtain ⟨h1, h2, h3, h4⟩ := h
  exact ⟨by omega, by omega, by omega, by omega⟩

theorem inBounds_of_interior_nb {s : Stage} {p dir : Vector}
    (h : InteriorP s p) (hd : dir ∈ CARDINALS) : InBoundsP s (p + dir) := by
  obtain ⟨h1, h2, h3, h4⟩ := h
  simp only [CARDINALS, List.mem_cons, List.not_mem_nil, or_false] at hd
  rcases hd with rfl | rfl | rfl | rfl <;>
    exact ⟨by simp [vadd_x]; omega, by simp [vadd_x]; omega,
      by simp [vadd_y]; omega, by simp [vadd_y]; omega⟩

theorem countExits_some {s : Stage} {p : Vector} (hwf : s.WF)
    (hb : InteriorP s p) : ∃ n, countExits s p = some n := by
  obtain ⟨t1, h1⟩ := get_some_of_inBounds hwf
    (inBounds_of_interior_nb hb (show (⟨0, -1⟩ : Vector) ∈ CARDINALS by decide))
  obtain ⟨t2, h2⟩ := get_some_of_inBounds hwf
    (inBounds_of_interior_nb hb (show (⟨1, 0⟩ : Vector) ∈ CARDINALS by decide))
  obtain ⟨t3, h3⟩ := get_some_of_inBounds hwf
    (inBounds_of_interior_nb hb (show (⟨0, 1⟩ : Vector) ∈ CARDINALS by decide))
  obtain ⟨t4, h4⟩ := get_some_of_inBounds hwf
    (inBounds_of_interior_nb hb (show (⟨-1, 0⟩ : Vector) ∈ CARDINALS by decide))
  unfold countExits CARDINALS
  rw [countExitsGo, h1, Option.some_bind, countExitsGo, h2, Option.some_bind,
    countExitsGo, h3, Option.some_bind, countExitsGo, h4, Option.some_bind,
    countExitsGo]
  exact ⟨_, rfl⟩

/-! ### The full-grid pass: flag monotonicity, fixed points, counting -/

theorem passCells_flag_mono :
    ∀ {L : List Vector} {s s' : Stage} {ch' : Bool},
      passCells L (s, true) = some (s', ch') → ch' = true := by
  intro L
  induction L with
  | nil =>
    intro s s' ch' h
    simp only [passCells, Option.some.injEq, Prod.mk.injEq] at h
    exact h.2.symm
  | cons p L ih =>
    intro s s' ch' h
    rw [passCells] at h
    cases hg : s.get p with
    | none => rw [hg] at h; exact absurd h (by simp)
    | some t =>
      rw [hg, Option.some_bind] at h
      split at h
      · exact ih h
      · cases hc : countExits s p with
        | none => rw [hc] at h; exact absurd h (by simp)
        | some e =>
          rw [hc, Option.some_bind] at h
          split at h
          · exact ih h
          · exact ih h

theorem passCells_no_change :
    ∀ {L : List Vector} {s s' : Stage},
      passCells L (s, false) = some (s', false) →
      s' = s ∧ ∀ p ∈ L, ∀ t, s.get p = some t → t ≠ Tile.Wall →
        countExits s p ≠ some 1 := by
  intro L
  induction L with
  | nil =>
    intro s s' h
    simp only [passCells, Option.some.injEq, Prod.mk.injEq] at h
    exact ⟨h.1.symm, by simp⟩
  | cons p L ih =>
    intro s s' h
    rw [passCells] at h
    cases hg : s.get p with
    | none => rw [hg] at h; exact absurd h (by simp)
    | some t =>
      rw [hg, Option.some_bind] at h
      split at h
      · rename_i htw
        obtain ⟨hs, hrest⟩ := ih h
        refine ⟨hs, ?_⟩
        intro q hq t' hg' ht'
        rcases List.mem_cons.mp hq with rfl | hq'
        · rw [hg] at hg'
          injection hg' with hg'
          subst hg'
          exact absurd htw ht'
        · exact hrest q hq' t' hg' ht'
      · rename_i htw
        cases hc : countExits s p with
        | none => rw [hc] at h; exact absurd h (by simp)
        | some e =>
          rw [hc, Option.some_bind] at h
          split at h
          · rename_i he
            obtain ⟨hs, hrest⟩ := ih h
            refine ⟨hs, ?_⟩
            intro q hq t' hg' ht'
            rcases List.mem_cons.mp hq with rfl | hq'
            · rw [hc]
              intro hx
              injection hx with hx
              exact he (by omega)
            · exact hrest q hq' t' hg' ht'
          · exact absurd (passCells_flag_mono h) (by simp)

theorem passCells_count_le :
    ∀ {L : List Vector} {s s' : Stage} {ch ch' : Bool},
      passCells L (s, ch) = some (s', ch') →
      nonWallCount s' ≤ nonWallCount s := by
  intro L
  induction L with
  | nil =>
    intro s s' ch ch' h
    simp only [passCells, Option.some.injEq, Prod.mk.injEq] at h
    rw [h.1]
  | cons p L ih =>
    intro s s' ch ch' h
    rw [passCells] at h
    cases hg : s.get p with
    | none => rw [hg] at h; exact absurd h (by simp)
    | some t =>
      rw [hg, Option.some_bind] at h
      split at h
      · exact ih h
      · rename_i htw
        cases hc : countExits s p with
        | none => rw [hc] at h; exact absurd h (by simp)
        | some e =>
          rw [hc, Option.some_bind] at h
          split at h
          · exact ih h
          · have hlt := nonWallCount_set_wall_lt hg htw
            have := ih h
            omega

theorem passCells_count_lt :
    ∀ {L : List Vector} {s s' : Stage},
      passCells L (s, false) = some (s', true) →
      nonWallCount s' < nonWallCount s := by
  intro L
  induction L with
  | nil =>
    intro s s' h
    simp only [passCells, Option.some.injEq, Prod.mk.injEq] at h
    exact absurd h.2 (by simp)
  | cons p L ih =>
    intro s s' h
    rw [passCells] at h
    cases hg : s.get p with
    | none => rw [hg] at h; exact absurd h (by simp)
    | some t =>
      rw [hg, Option.some_bind] at h
      split at h
      · exact ih h
      · rename_i htw
        cases hc : countExits s p with
        | none => rw [hc] at h; exact absurd h (by simp)
        | some e =>
          rw [hc, Option.some_bind] at h
          split at h
          · exact ih h
          · have hlt := nonWallCount_set_wall_lt hg htw
            have := passCells_count_le h
            omega

theorem interior_set {s : Stage} {p q : Vector} {t : Tile} :
    InteriorP (s.set p t) q ↔ InteriorP s q := by
  unfold InteriorP
  rw [set_width, set_height]

theorem passCells_total :
    ∀ {L : List Vector} {s : Stage} {ch : Bool}, s.WF →
      (∀ p ∈ L, InteriorP s p) →
      ∃ s' ch', passCells L (s, ch) = some (s', ch') ∧ s'.WF ∧
        s'.width = s.width ∧ s'.height = s.height := by
  intro L
  induction L with
  | nil => intro s ch hwf _; exact ⟨s, ch, rfl, hwf, rfl, rfl⟩
  | cons p L ih =>
    intro s ch hwf hint
    have hip : InteriorP s p := hint p (List.mem_cons_self p L)
    obtain ⟨t, hg⟩ := get_some_of_inBounds hwf (inBounds_of_interior hip)
    rw [passCells, hg, Option.some_bind]
    by_cases htw : t = Tile.Wall
    · rw [if_pos htw]
      exact ih hwf fun q hq => hint q (List.mem_cons_of_mem _ hq)
    · rw [if_neg htw]
      obtain ⟨e, hc⟩ := countExits_some hwf hip
      rw [hc, Option.some_bind]
      by_cases he : e ≠ 1
      · rw [if_pos he]
        exact ih hwf fun q hq => hint q (List.mem_cons_of_mem _ hq)
      · rw [if_neg he]
        obtain ⟨s', ch', hp, hwf', hW, hH⟩ :=
          ih (WF_set hwf p Tile.Wall)
            (fun q hq => interior_set.mpr (hint q (List.mem_cons_of_mem _ hq)))
        exact ⟨s', ch', hp, hwf',
          by rw [hW, set_width], by rw [hH, set_height]⟩

theorem removeDeadEnds_fixed :
    ∀ {fuel : Nat} {s s' : Stage}, removeDeadEnds fuel s = some s' →
      deadEndPass s' = some (s', false) := by
  intro fuel
  induction fuel with
  | zero => intro s s' h; exact absurd h (by simp [removeDeadEnds])
  | succ n ih =>
    intro s s' h
    rw [removeDeadEnds] at h
    cases hp : deadEndPass s with
    | none => rw [hp] at h; exact absurd h (by simp)
    | some pr =>
      obtain ⟨s0, ch⟩ := pr
      rw [hp, Option.some_bind] at h
      cases ch with
      | true => exact ih (by simpa using h)
      | false =>
        simp only [if_neg (by simp : ¬ (false = true)), Option.some.injEq] at h
        subst h
        obtain ⟨heq, -⟩ := passCells_no_change hp
        subst heq
        exact hp

theorem removeDeadEnds_total :
    ∀ (n : Nat) (s : Stage), s.WF → nonWallCount s ≤ n →
      (removeDeadEnds (n + 1) s).isSome = true := by
  intro n
  induction n with
  | zero =>
    intro s hwf hc
    obtain ⟨s0, ch, hp, hwf0, hW, hH⟩ :=
      @passCells_total _ _ false hwf fun p hp => interior_of_mem hp
    rw [removeDeadEnds, deadEndPass, hp, Option.some_bind]
    cases ch with
    | false => simp
    | true => exact absurd (passCells_count_lt hp) (by omega)
  | succ n ih =>
    intro s hwf hc
    obtain ⟨s0, ch, hp, hwf0, hW, hH⟩ :=
      @passCells_total _ _ false hwf fun p hp => interior_of_mem hp
    rw [removeDeadEnds, deadEndPass, hp, Option.some_bind]
    cases ch with
    | false => simp
    | true =>
      have hlt := passCells_count_lt hp
      simpa using ih s0 hwf0 (by omega)

/-! ## Claims C2, C7, C8: dead-end removal -/

/-- C2: when `remove_dead_ends` returns, no interior non-`Wall` cell has
exactly one non-`Wall` cardinal neighbor: the final pass of the loop
made zero changes, so every interior cell already fails the dead-end
test against the final grid. -/
theorem c2_no_dead_ends (fuel : Nat) (s s' : Stage)
    (h : removeDeadEnds fuel s = some s')
    (x y : Int) (hx1 : 1 ≤ x) (hx2 : x ≤ s'.width - 2)
    (hy1 : 1 ≤ y) (hy2 : y ≤ s'.height - 2)
    (t : Tile) (ht : s'.get ⟨x, y⟩ = some t) (htw : t ≠ Tile.Wall) :
    countExits s' ⟨x, y⟩ ≠ some 1 := by
  have hfix := removeDeadEnds_fixed h
  obtain ⟨-, hprop⟩ := passCells_no_change hfix
  exact hprop ⟨x, y⟩
    (mem_interiorCells.mpr ⟨hx1, by omega, hy1, by omega⟩) t ht htw

/-- A 5-by-5 stage holding a 2-by-2 block of floor: a dead-end-free
fixed point of the pruning pass, used as concrete witness input. -/
def blockStage : Stage :=
  ⟨5, 5,
    [Tile.Wall, Tile.Wall, Tile.Wall, Tile.Wall, Tile.Wall,
     Tile.Wall, Tile.Floor, Tile.Floor, Tile.Wall, Tile.Wall,
     Tile.Wall, Tile.Floor, Tile.Floor, Tile.Wall, Tile.Wall,
     Tile.Wall, Tile.Wall, Tile.Wall, Tile.Wall, Tile.Wall,
     Tile.Wall, Tile.Wall, Tile.Wall, Tile.Wall, Tile.Wall]⟩

/-- C2 (witness): the theorem applied to a concrete pruning run. -/
theorem c2_witness : countExits blockStage ⟨1, 1⟩ ≠ some 1 :=
  c2_no_dead_ends 1 blockStage blockStage (by decide) 1 1 (by decide)
    (by decide) (by decide) (by decide) Tile.Floor (by decide) (by decide)

/-- C7: `remove_dead_ends` terminates on every well-formed grid: each
cell conversion strictly decreases the non-`Wall` count, so a fuel
budget of one pass more than that count always suffices, and the loop
exits at the first zero-change pass. -/
theorem c7_termination (s : Stage) (h : s.WF) :
    (removeDeadEnds (nonWallCount s + 1) s).isSome = true :=
  removeDeadEnds_total (nonWallCount s) s h le_rfl

/-- C7 (witness): termination on the concrete block stage. -/
theorem c7_witness :
    (removeDeadEnds (nonWallCount blockStage + 1) blockStage).isSome = true :=
  c7_termination blockStage (by constructor <;> decide)

/-- C8: `remove_dead_ends` is idempotent: its result is a fixed point of
the full-grid pass, so a second run's first pass makes zero changes and
returns the grid unchanged, whatever its (positive) fuel. -/
theorem c8_idempotent (fuel : Nat) (s s' : Stage) (m : Nat)
    (h : removeDeadEnds fuel s = some s') :
    removeDeadEnds (m + 1) s' = some s' := by
  have hfix := removeDeadEnds_fixed h
  rw [removeDeadEnds, hfix]
  rfl

/-- C8 (witness): idempotence on a concrete pruning run. -/
theorem c8_witness : removeDeadEnds 1 blockStage = some blockStage :=
  c8_idempotent 1 blockStage blockStage 0 (by decide)

/-! ## Claim C6: accepted rooms stay pairwise separated -/

/-- A geometrically meaningful room footprint: positive extents (every
accepted room has width and height at least 3). -/
def RoomOK (rm : Rectangle) : Prop := 0 < rm.w ∧ 0 < rm.h

theorem vdist_comm {a b : Rectangle} (ha : 0 < a.h) (hb : 0 < b.h) :
    a.vdist b = b.vdist a := by
  unfold Rectangle.vdist Rectangle.top Rectangle.bottom
  split_ifs <;> omega

theorem hdist_comm {a b : Rectangle} (ha : 0 < a.w) (hb : 0 < b.w) :
    a.hdist b = b.hdist a := by
  unfold Rectangle.hdist Rectangle.left Rectangle.right
  split_ifs <;> omega

theorem distance_to_comm {a b : Rectangle} (ha : RoomOK a) (hb : RoomOK b) :
    a.distance_to b = b.distance_to a := by
  unfold Rectangle.distance_to
  rw [vdist_comm ha.2 hb.2, hdist_comm ha.1 hb.1]

theorem carveRow_rooms : ∀ (L : List Int) (d : DState) (y : Int),
    (L.foldl (fun d2 x => d2.carve ⟨x, y⟩ Tile.Floor) d).rooms = d.rooms := by
  intro L
  induction L with
  | nil => intros; rfl
  | cons a L ih => intro d y; rw [List.foldl_cons, ih]; rfl

theorem carveRoom_rooms (d : DState) (room : Rectangle) :
    (carveRoom d room).rooms = d.rooms := by
  unfold carveRoom
  generalize intRange room.y (room.y + room.h) = Ly
  induction Ly generalizing d with
  | nil => rfl
  | cons a L ih => rw [List.foldl_cons, ih, carveRow_rooms]

/-- The room invariant of `add_rooms`: every accepted room has positive
extents and every pair is strictly separated. -/
def RoomsInv (rooms : List Rectangle) : Prop :=
  (∀ rm ∈ rooms, RoomOK rm) ∧
    rooms.Pairwise (fun a b => 0 < a.distance_to b)

theorem roomAttempt_inv {d d' : DState} {r r' : Rng}
    (h : roomAttempt d r = some (d', r'))
    (hp : RoomsInv d.rooms) : RoomsInv d'.rooms := by
  unfold roomAttempt at h
  simp only [Option.bind_eq_some] at h
  obtain ⟨⟨s0, r1⟩, h1, h⟩ := h
  dsimp only at h
  obtain ⟨⟨re0, r2⟩, h2, h⟩ := h
  dsimp only at h
  rcases hgb : genBool r2 with ⟨b, r3⟩
  rw [hgb] at h
  dsimp only at h
  obtain ⟨⟨x0, r4⟩, h4, h⟩ := h
  dsimp only at h
  obtain ⟨⟨y0, r5⟩, h5, h⟩ := h
  dsimp only at h
  have hs0 := genRangeI_bounds h1
  have hre0 := genRangeI_bounds h2
  set W : Int := if b = true then s0 * 2 + 1 + re0 * 2 else s0 * 2 + 1 with hW
  set H : Int := if b = true then s0 * 2 + 1 else s0 * 2 + 1 + re0 * 2 with hH
  have hWpos : 0 < W := by rw [hW]; split <;> omega
  have hHpos : 0 < H := by rw [hH]; split <;> omega
  split at h
  · simp only [Option.some.injEq, Prod.mk.injEq] at h
    rw [← h.1]
    exact hp
  · rename_i hno
    simp only [Option.some.injEq, Prod.mk.injEq] at h
    rw [← h.1, carveRoom_rooms]
    dsimp only [DState.startRegion]
    set cand : Rectangle := ⟨x0 * 2 + 1, y0 * 2 + 1, W, H⟩ with hcand
    have hok : RoomOK cand := ⟨hWpos, hHpos⟩
    have hall : ∀ other ∈ d.rooms, 0 < cand.distance_to other := by
      intro other ho
      by_contra hle
      exact hno (List.any_eq_true.mpr ⟨other, ho, decide_eq_true (by omega)⟩)
    constructor
    · intro rm hm
      rcases List.mem_append.mp hm with hm | hm
      · exact hp.1 rm hm
      · simp only [List.mem_singleton] at hm
        subst hm
        exact hok
    · rw [List.pairwise_append]
      refine ⟨hp.2, by simp, ?_⟩
      intro a ha bb hb
      simp only [List.mem_singleton] at hb
      subst hb
      rw [distance_to_comm (hp.1 a ha) hok]
      exact hall a ha

theorem addRoomsLoop_inv :
    ∀ (n : Nat) {d d' : DState} {r r' : Rng},
      addRoomsLoop n d r = some (d', r') →
      RoomsInv d.rooms → RoomsInv d'.rooms := by
  intro n
  induction n with
  | zero =>
    intro d d' r r' h hp
    simp only [addRoomsLoop, Option.some.injEq, Prod.mk.injEq] at h
    rw [← h.1]
    exact hp
  | succ m ih =>
    intro d d' r r' h hp
    rw [addRoomsLoop] at h
    rw [Option.bind_eq_some] at h
    obtain ⟨⟨d1, r1⟩, hstep, h⟩ := h
    exact ih h (roomAttempt_inv hstep hp)

/-- C6: the accepted-rooms list keeps every pair of distinct rectangles
at strictly positive separation, at every point of the attempt loop:
starting from any state whose room list satisfies the invariant (in
particular the empty list), any number of attempts preserves it, because
a candidate whose separation to some accepted room is nonpositive is
skipped. -/
theorem c6_rooms_separated (n : Nat) (d d' : DState) (r r' : Rng)
    (h : addRoomsLoop n d r = some (d', r'))
    (hp : RoomsInv d.rooms) :
    d'.rooms.Pairwise
      (fun a b => 0 < a.distance_to b ∧ 0 < b.distance_to a) := by
  obtain ⟨hok, hpw⟩ := addRoomsLoop_inv n h hp
  refine hpw.imp_of_mem ?_
  intro a b ha hb hab
  exact ⟨hab, by rw [distance_to_comm (hok b hb) (hok a ha)]; exact hab⟩

/-- The result of one accepted room attempt on an empty 5-by-5 dungeon,
used as concrete witness input. -/
def c6res : DState × Rng :=
  (addRoomsLoop 1 (DState.new (Stage.new 5 5)) ⟨fun _ => 0, 0⟩).getD
    (DState.new (Stage.new 5 5), ⟨fun _ => 0, 0⟩)

/-- C6 (witness): the theorem applied to one concrete accepted room. -/
theorem c6_witness :
    c6res.1.rooms.Pairwise
      (fun a b => 0 < a.distance_to b ∧ 0 < b.distance_to a) :=
  c6_rooms_separated 1 (DState.new (Stage.new 5 5)) c6res.1
    ⟨fun _ => 0, 0⟩ c6res.2 rfl ⟨by simp [DState.new], by simp [DState.new]⟩

/-! ## Claim C9: alignment of maze-carved cells -/

/-- Odd-aligned position: both coordinates odd. -/
def OddCell (v : Vector) : Prop := v.x % 2 = 1 ∧ v.y % 2 = 1

instance (v : Vector) : Decidable (OddCell v) := by
  unfold OddCell; infer_instance

theorem vmul_x (a : Vector) (k : Int) : (a * k).x = a.x * k := rfl

theorem vmul_y (a : Vector) (k : Int) : (a * k).y = a.y * k := rfl

theorem Vector.eq_of {a b : Vector} (hx : a.x = b.x) (hy : a.y = b.y) :
    a = b := by
  cases a; cases b; simp_all

theorem add_mul_sub_cancel (cell dir : Vector) (k : Int) :
    (cell + dir * k) - cell = ⟨dir.x * k, dir.y * k⟩ :=
  Vector.eq_of (by show cell.x + dir.x * k - cell.x = _; ring)
    (by show cell.y + dir.y * k - cell.y = _; ring)

/-- C9 (counterexample): on an all-`Wall` 5-by-5 grid, `grow_maze` from
`(1, 1)` carves the intermediate cell `(2, 1)` to `Floor`, and `2` is
not odd — so not every cell carved to `Floor` during the maze phase
lies on odd-aligned coordinates. -/
theorem c9_counterexample :
    (Stage.new 5 5).get ⟨2, 1⟩ = some Tile.Wall ∧
      ((growMaze 100 (DState.new (Stage.new 5 5)) ⟨fun _ => 0, 0⟩ ⟨1, 1⟩).map
        (fun p => p.1.stage.get ⟨2, 1⟩)) = some (some Tile.Floor) ∧
      ¬ ((2 : Int) % 2 = 1) :=
  ⟨by decide, by decide, by decide⟩

/-- C9 (amended): the cells pushed on the maze walk's stack — the seed
and every link destination — are always odd-aligned (each walk step
preserves odd alignment of the whole stack), and each pushed destination
is exactly 2 away from the top-of-stack cell it links to; the
intermediate cell also carved by the step lies strictly between the two
and has one even coordinate, so it is not odd-aligned. -/
theorem c9_amended (d : DState) (r : Rng) (cells : List Vector)
    (lastDir : Vector) (d' : DState) (r' : Rng) (cells' : List Vector)
    (last' : Vector)
    (hodd : ∀ c ∈ cells, OddCell c)
    (h : growStep d r cells lastDir = some (GrowRes.cont d' r' cells' last')) :
    (∀ c ∈ cells', OddCell c) ∧
      (cells' = cells.tail ∨
        ∃ cell rest dir, cells = cell :: rest ∧ dir ∈ CARDINALS ∧
          cells' = (cell + dir * (2 : Int)) :: cells ∧
          ((cell + dir * (2 : Int)) - cell).abs = 2) := by
  cases cells with
  | nil => exact absurd h (by simp [growStep])
  | cons cell rest =>
    rw [growStep] at h
    cases hcd : carvableDirs d cell CARDINALS with
    | none => rw [hcd] at h; exact absurd h (by simp)
    | some unmade =>
      rw [hcd, Option.some_bind] at h
      split at h
      · simp only [Option.some.injEq, GrowRes.cont.injEq] at h
        obtain ⟨-, -, hc, -⟩ := h
        subst hc
        exact ⟨fun c hc => hodd c (List.mem_cons_of_mem _ hc), Or.inl rfl⟩
      · cases hch : chooseDir r unmade lastDir with
        | none => rw [hch] at h; exact absurd h (by simp)
        | some pr =>
          obtain ⟨dir, r2⟩ := pr
          rw [hch, Option.some_bind] at h
          dsimp only at h
          by_cases hdir : CARDINALS.contains dir = true
          · rw [if_pos hdir] at h
            simp only [Option.some.injEq, GrowRes.cont.injEq] at h
            obtain ⟨-, -, hc, -⟩ := h
            subst hc
            have hmem : dir ∈ CARDINALS := List.mem_of_elem_eq_true hdir
            obtain ⟨hcx, hcy⟩ : OddCell cell := hodd cell (List.mem_cons_self _ _)
            constructor
            · intro c hc
              rcases List.mem_cons.mp hc with rfl | hc
              · refine ⟨?_, ?_⟩
                · rw [vadd_x, vmul_x]
                  omega
                · rw [vadd_y, vmul_y]
                  omega
              · exact hodd c hc
            · refine Or.inr ⟨cell, rest, dir, rfl, hmem, rfl, ?_⟩
              rw [add_mul_sub_cancel]
              simp only [CARDINALS, List.mem_cons, List.not_mem_nil, or_false]
                at hmem
              rcases hmem with rfl | rfl | rfl | rfl <;> decide
          · rw [if_neg hdir] at h
            exact absurd h (by simp)

/-- The walk state after seeding `grow_maze` at `(1, 1)` on an empty
5-by-5 grid, used as concrete witness input. -/
def c9arg : DState :=
  ((DState.new (Stage.new 5 5)).startRegion).carve ⟨1, 1⟩ Tile.Floor

/-! ## Claim C10: border cells stay `Wall` -- basic machinery -/

/-- A border cell: in bounds and on one of the four border lines. -/
def BorderCellP (s : Stage) (p : Vector) : Prop :=
  InBoundsP s p ∧
    (p.x = 0 ∨ p.x = s.width - 1 ∨ p.y = 0 ∨ p.y = s.height - 1)

instance (s : Stage) (p : Vector) : Decidable (BorderCellP s p) := by
  unfold BorderCellP InBoundsP; infer_instance

/-- All border cells hold `Wall`. -/
def BorderWall (s : Stage) : Prop :=
  ∀ p, BorderCellP s p → s.get p = some Tile.Wall

theorem flat_inj {s : Stage} (hwf : s.WF) {p q : Vector}
    (hp : InBoundsP s p) (hq : InBoundsP s q) (hne : q ≠ p) :
    s.flatIdx q ≠ s.flatIdx p := by
  obtain ⟨-, hvp0, -⟩ := flat_val_bounds hwf hp
  obtain ⟨-, hvq0, -⟩ := flat_val_bounds hwf hq
  rw [flatIdx_eq hwf hp, flatIdx_eq hwf hq]
  intro heq
  have hv : q.y * s.width + q.x = p.y * s.width + p.x := by omega
  obtain ⟨hpx0, hpx1, hpy0, hpy1⟩ := hp
  obtain ⟨hqx0, hqx1, hqy0, hqy1⟩ := hq
  have hyy : q.y = p.y := by
    rcases lt_trichotomy q.y p.y with hlt | heq' | hgt
    · have h1 : (q.y + 1) * s.width ≤ p.y * s.width :=
        mul_le_mul_of_nonneg_right (by omega) hwf.1
      have h2 : (q.y + 1) * s.width = q.y * s.width + s.width := by ring
      omega
    · exact heq'
    · have h1 : (p.y + 1) * s.width ≤ q.y * s.width :=
        mul_le_mul_of_nonneg_right (by omega) hwf.1
      have h2 : (p.y + 1) * s.width = p.y * s.width + s.width := by ring
      omega
  apply hne
  refine Vector.eq_of ?_ hyy
  rw [hyy] at hv
  omega

theorem get_set_other {s : Stage} (hwf : s.WF) {p q : Vector} (t : Tile)
    (hp : InBoundsP s p) (hq : InBoundsP s q) (hne : q ≠ p) :
    (s.set p t).get q = s.get q := by
  show (s.tiles.set (s.flatIdx p) t).get? ((s.set p t).flatIdx q) = _
  have hfi : (s.set p t).flatIdx q = s.flatIdx q := rfl
  rw [hfi]
  exact List.get?_set_ne t s.tiles (flat_inj hwf hq hp (Ne.symm hne))

theorem borderCell_set {s : Stage} {p q : Vector} {t : Tile} :
    BorderCellP (s.set p t) q ↔ BorderCellP s q := by
  unfold BorderCellP InBoundsP
  rw [set_width, set_height]

theorem borderWall_set_interior {s : Stage} (hwf : s.WF) {p : Vector}
    (hip : InteriorP s p) (t : Tile) (hbw : BorderWall s) :
    BorderWall (s.set p t) := by
  intro q hq
  rw [borderCell_set] at hq
  have hne : q ≠ p := by
    rintro rfl
    obtain ⟨-, hb⟩ := hq
    obtain ⟨h1, h2, h3, h4⟩ := hip
    omega
  rw [get_set_other hwf t (inBounds_of_interior hip) hq.1 hne]
  exact hbw q hq

theorem contains_iff {s : Stage} {p : Vector} :
    s.contains p = true ↔ InBoundsP s p := by
  unfold Stage.contains InBoundsP
  simp [Bool.and_eq_true, decide_eq_true_eq, and_assoc]

theorem canCarve_contains {d : DState} {pos dir : Vector}
    (h : d.canCarve pos dir = some true) :
    d.stage.contains (pos + dir * (3 : Int)) = true := by
  unfold DState.canCarve at h
  split at h
  · exact absurd h (by simp)
  · rename_i hc
    by_contra hcc
    exact hc (by simpa using hcc)

theorem canCarve_dest_wall {d : DState} {pos dir : Vector}
    (h : d.canCarve pos dir = some true) :
    d.getTile (pos + dir * (2 : Int)) = some Tile.Wall := by
  unfold DState.canCarve at h
  split at h
  · exact absurd h (by simp)
  · cases hg : d.getTile (pos + dir * (2 : Int)) with
    | none => rw [hg] at h; exact absurd h (by simp)
    | some t =>
      rw [hg] at h
      simp only [Option.map_some', Option.some.injEq, beq_iff_eq] at h
      rw [h]

theorem carvableDirs_sound :
    ∀ {L unmade : List Vector} {d : DState} {pos : Vector},
      carvableDirs d pos L = some unmade →
      ∀ dir ∈ unmade, d.canCarve pos dir = some true ∧ dir ∈ L := by
  intro L
  induction L with
  | nil =>
    intro unmade d pos h dir hd
    simp only [carvableDirs, Option.some.injEq] at h
    subst h
    exact absurd hd (by simp)
  | cons a L ih =>
    intro unmade d pos h dir hd
    rw [carvableDirs] at h
    cases hc : d.canCarve pos a with
    | none => rw [hc] at h; exact absurd h (by simp)
    | some b =>
      rw [hc, Option.some_bind] at h
      cases hr : carvableDirs d pos L with
      | none => rw [hr] at h; exact absurd h (by simp)
      | some l =>
        rw [hr] at h
        simp only [Option.map_some', Option.some.injEq] at h
        subst h
        cases b with
        | false =>
          simp only [if_neg (by simp : ¬ (false = true))] at hd
          obtain ⟨h1, h2⟩ := ih hr dir hd
          exact ⟨h1, List.mem_cons_of_mem _ h2⟩
        | true =>
          simp only [if_pos rfl] at hd
          rcases List.mem_cons.mp hd with rfl | hd
          · exact ⟨hc, List.mem_cons_self _ _⟩
          · obtain ⟨h1, h2⟩ := ih hr dir hd
            exact ⟨h1, List.mem_cons_of_mem _ h2⟩

theorem getD_mem {l : List Vector} {i : Nat} {dflt : Vector}
    (h : i < l.length) : l.getD i dflt ∈ l := by
  rw [List.getD_eq_getElem l dflt h]
  exact List.getElem_mem h

theorem chooseDir_mem {r : Rng} {unmade : List Vector} {lastDir dir : Vector}
    {r2 : Rng} (h : chooseDir r unmade lastDir = some (dir, r2)) :
    dir ∈ unmade := by
  unfold chooseDir at h
  split at h
  · rename_i hcont
    rw [Option.bind_eq_some] at h
    obtain ⟨⟨roll, r1⟩, -, h⟩ := h
    dsimp only at h
    split at h
    · simp only [Option.some.injEq, Prod.mk.injEq] at h
      rw [← h.1]
      exact List.mem_of_elem_eq_true hcont
    · rcases hru : randomUsize r1 with ⟨u, ru⟩
      rw [hru] at h
      dsimp only at h
      split at h
      · exact absurd h (by simp)
      · rename_i hlen
        simp only [Option.some.injEq, Prod.mk.injEq] at h
        rw [← h.1]
        exact getD_mem (Nat.mod_lt _ (by omega))
  · rcases hru : randomUsize r with ⟨u, ru⟩
    rw [hru] at h
    dsimp only at h
    split at h
    · exact absurd h (by simp)
    · rename_i hlen
      simp only [Option.some.injEq, Prod.mk.injEq] at h
      rw [← h.1]
      exact getD_mem (Nat.mod_lt _ (by omega))

theorem mem_oddCoords {limit v : Int} :
    v ∈ oddCoords limit ↔ 1 ≤ v ∧ v < limit ∧ v % 2 = 1 := by
  unfold oddCoords
  rw [List.mem_filter]
  simp only [mem_intRange, decide_eq_true_eq]
  tauto

/-- Stage evolution along one generation phase: dimensions are kept,
well-formedness is kept, and border cells keep holding `Wall`. -/
def StagePres (s s' : Stage) : Prop :=
  s'.width = s.width ∧ s'.height = s.height ∧
    (s.WF → s'.WF) ∧ (s.WF → BorderWall s → BorderWall s')

theorem StagePres.refl (s : Stage) : StagePres s s :=
  ⟨rfl, rfl, id, fun _ => id⟩

theorem StagePres.trans {s1 s2 s3 : Stage} (h1 : StagePres s1 s2)
    (h2 : StagePres s2 s3) : StagePres s1 s3 :=
  ⟨h2.1.trans h1.1, h2.2.1.trans h1.2.1, fun hwf => h2.2.2.1 (h1.2.2.1 hwf),
    fun hwf hbw => h2.2.2.2 (h1.2.2.1 hwf) (h1.2.2.2 hwf hbw)⟩

theorem interiorP_pres {s s' : Stage} (h : StagePres s s') {p : Vector} :
    InteriorP s p → InteriorP s' p := by
  unfold InteriorP
  rw [h.1, h.2.1]
  exact id

theorem stagePres_set {s : Stage} {p : Vector} (t : Tile)
    (hip : InteriorP s p) : StagePres s (s.set p t) :=
  ⟨rfl, rfl, fun hwf => WF_set hwf p t,
    fun hwf hbw => borderWall_set_interior hwf hip t hbw⟩

theorem carve_stage (d : DState) (p : Vector) (t : Tile) :
    (d.carve p t).stage = d.stage.set p t := rfl

theorem carveRow_pres :
    ∀ (L : List Int) (d : DState) (y : Int),
      (∀ x ∈ L, InteriorP d.stage ⟨x, y⟩) →
      StagePres d.stage
        ((L.foldl (fun d2 x => d2.carve ⟨x, y⟩ Tile.Floor) d).stage) := by
  intro L
  induction L with
  | nil => intro d y _; exact StagePres.refl _
  | cons a L ih =>
    intro d y hint
    rw [List.foldl_cons]
    have h1 : StagePres d.stage (d.carve ⟨a, y⟩ Tile.Floor).stage :=
      stagePres_set _ (hint a (List.mem_cons_self _ _))
    refine h1.trans (ih _ y ?_)
    intro x hx
    exact interiorP_pres h1 (hint x (List.mem_cons_of_mem _ hx))

theorem carveRows_pres :
    ∀ (Ly : List Int) (d : DState) (Lx : List Int),
      (∀ y ∈ Ly, ∀ x ∈ Lx, InteriorP d.stage ⟨x, y⟩) →
      StagePres d.stage
        ((Ly.foldl
          (fun d1 y => Lx.foldl (fun d2 x => d2.carve ⟨x, y⟩ Tile.Floor) d1)
          d).stage) := by
  intro Ly
  induction Ly with
  | nil => intro d Lx _; exact StagePres.refl _
  | cons a Ly ih =>
    intro d Lx hint
    rw [List.foldl_cons]
    have h1 := carveRow_pres Lx d a (hint a (List.mem_cons_self _ _))
    refine h1.trans (ih _ Lx ?_)
    intro y hy x hx
    exact interiorP_pres h1 (hint y (List.mem_cons_of_mem _ hy) x hx)

theorem carveRoom_pres (d : DState) (room : Rectangle)
    (hbox : 1 ≤ room.x ∧ room.x + room.w ≤ d.stage.width - 1 ∧
      1 ≤ room.y ∧ room.y + room.h ≤ d.stage.height - 1) :
    StagePres d.stage (carveRoom d room).stage := by
  unfold carveRoom
  refine carveRows_pres _ d _ ?_
  intro y hy x hx
  have hy' := mem_intRange.mp hy
  have hx' := mem_intRange.mp hx
  exact ⟨by show (1 : Int) ≤ x; omega, by show x < d.stage.width - 1; omega,
    by show (1 : Int) ≤ y; omega, by show y < d.stage.height - 1; omega⟩

theorem roomAttempt_pres {d d' : DState} {r r' : Rng}
    (h : roomAttempt d r = some (d', r')) : StagePres d.stage d'.stage := by
  unfold roomAttempt at h
  simp only [Option.bind_eq_some] at h
  obtain ⟨⟨s0, r1⟩, h1, h⟩ := h
  dsimp only at h
  obtain ⟨⟨re0, r2⟩, h2, h⟩ := h
  dsimp only at h
  rcases hgb : genBool r2 with ⟨b, r3⟩
  rw [hgb] at h
  dsimp only at h
  obtain ⟨⟨x0, r4⟩, h4, h⟩ := h
  dsimp only at h
  obtain ⟨⟨y0, r5⟩, h5, h⟩ := h
  dsimp only at h
  have hs0 := genRangeI_bounds h1
  have hre0 := genRangeI_bounds h2
  set W : Int := if b = true then s0 * 2 + 1 + re0 * 2 else s0 * 2 + 1 with hW
  set H : Int := if b = true then s0 * 2 + 1 else s0 * 2 + 1 + re0 * 2 with hH
  have hWpos : 0 < W := by rw [hW]; split <;> omega
  have hHpos : 0 < H := by rw [hH]; split <;> omega
  have hx0 := genRange_bounds h4
  have hy0 := genRange_bounds h5
  split at h
  · simp only [Option.some.injEq, Prod.mk.injEq] at h
    rw [← h.1]
    exact StagePres.refl _
  · simp only [Option.some.injEq, Prod.mk.injEq] at h
    rw [← h.1]
    exact carveRoom_pres _ _
      ⟨by show (1 : Int) ≤ x0 * 2 + 1; omega,
        by show x0 * 2 + 1 + W ≤ d.stage.width - 1; omega,
        by show (1 : Int) ≤ y0 * 2 + 1; omega,
        by show y0 * 2 + 1 + H ≤ d.stage.height - 1; omega⟩

theorem addRoomsLoop_pres :
    ∀ (n : Nat) {d d' : DState} {r r' : Rng},
      addRoomsLoop n d r = some (d', r') → StagePres d.stage d'.stage := by
  intro n
  induction n with
  | zero =>
    intro d d' r r' h
    simp only [addRoomsLoop, Option.some.injEq, Prod.mk.injEq] at h
    rw [← h.1]
    exact StagePres.refl _
  | succ m ih =>
    intro d d' r r' h
    rw [addRoomsLoop, Option.bind_eq_some] at h
    obtain ⟨⟨d1, r1⟩, hstep, h⟩ := h
    exact (roomAttempt_pres hstep).trans (ih h)

theorem interior_carve_targets {s : Stage} {cell dir : Vector}
    (hc : InteriorP s cell) (hd : dir ∈ CARDINALS)
    (h3 : InBoundsP s (cell + dir * (3 : Int))) :
    InteriorP s (cell + dir) ∧ InteriorP s (cell + dir * (2 : Int)) := by
  obtain ⟨hx1, hx2, hy1, hy2⟩ := hc
  simp only [CARDINALS, List.mem_cons, List.not_mem_nil, or_false] at hd
  obtain ⟨h31, h32, h33, h34⟩ := h3
  rcases hd with rfl | rfl | rfl | rfl <;>
    simp only [vadd_x, vadd_y, vmul_x, vmul_y] at h31 h32 h33 h34 <;>
    refine ⟨⟨?_, ?_, ?_, ?_⟩, ⟨?_, ?_, ?_, ?_⟩⟩ <;>
    simp only [vadd_x, vadd_y, vmul_x, vmul_y] <;>
    omega

theorem growStep_done_eq {d : DState} {r : Rng} {cells : List Vector}
    {lastDir : Vector} {d' : DState} {r' : Rng}
    (h : growStep d r cells lastDir = some (GrowRes.done d' r')) :
    d' = d ∧ r' = r ∧ cells = [] := by
  cases cells with
  | nil =>
    simp only [growStep, Option.some.injEq, GrowRes.done.injEq] at h
    exact ⟨h.1.symm, h.2.symm, rfl⟩
  | cons cell rest =>
    rw [growStep] at h
    cases hcd : carvableDirs d cell CARDINALS with
    | none => rw [hcd] at h; exact absurd h (by simp)
    | some unmade =>
      rw [hcd, Option.some_bind] at h
      split at h
      · exact absurd h (by simp)
      · cases hch : chooseDir r unmade lastDir with
        | none => rw [hch] at h; exact absurd h (by simp)
        | some pr =>
          obtain ⟨dir, r2⟩ := pr
          rw [hch, Option.some_bind] at h
          dsimp only at h
          split at h
          · exact absurd h (by simp)
          · exact absurd h (by simp)

theorem growStep_cont_pres {d : DState} {r : Rng} {cells : List Vector}
    {lastDir : Vector} {d' : DState} {r' : Rng} {cells' : List Vector}
    {last' : Vector}
    (hstack : ∀ c ∈ cells, InteriorP d.stage c)
    (h : growStep d r cells lastDir = some (GrowRes.cont d' r' cells' last')) :
    StagePres d.stage d'.stage ∧ ∀ c ∈ cells', InteriorP d'.stage c := by
  cases cells with
  | nil => exact absurd h (by simp [growStep])
  | cons cell rest =>
    rw [growStep] at h
    cases hcd : carvableDirs d cell CARDINALS with
    | none => rw [hcd] at h; exact absurd h (by simp)
    | some unmade =>
      rw [hcd, Option.some_bind] at h
      split at h
      · simp only [Option.some.injEq, GrowRes.cont.injEq] at h
        obtain ⟨hd, -, hc, -⟩ := h
        subst hc
        rw [← hd]
        exact ⟨StagePres.refl _,
          fun c hc => hstack c (List.mem_cons_of_mem _ hc)⟩
      · cases hch : chooseDir r unmade lastDir with
        | none => rw [hch] at h; exact absurd h (by simp)
        | some pr =>
          obtain ⟨dir, r2⟩ := pr
          rw [hch, Option.some_bind] at h
          dsimp only at h
          by_cases hdir : CARDINALS.contains dir = true
          · rw [if_pos hdir] at h
            simp only [Option.some.injEq, GrowRes.cont.injEq] at h
            obtain ⟨hd, -, hc, -⟩ := h
            subst hc
            have hmem : dir ∈ CARDINALS := List.mem_of_elem_eq_true hdir
            have hcell : InteriorP d.stage cell :=
              hstack cell (List.mem_cons_self _ _)
            have hcc : d.canCarve cell dir = some true :=
              (carvableDirs_sound hcd dir (chooseDir_mem hch)).1
            have h3 : InBoundsP d.stage (cell + dir * (3 : Int)) :=
              contains_iff.mp (canCarve_contains hcc)
            obtain ⟨hi1, hi2⟩ := interior_carve_targets hcell hmem h3
            have hp1 : StagePres d.stage
                (d.carve (cell + dir) Tile.Floor).stage :=
              stagePres_set _ hi1
            have hp2 : StagePres (d.carve (cell + dir) Tile.Floor).stage
                ((d.carve (cell + dir) Tile.Floor).carve
                  (cell + dir * (2 : Int)) Tile.Floor).stage :=
              stagePres_set _ (interiorP_pres hp1 hi2)
            have hpres := hp1.trans hp2
            rw [← hd]
            refine ⟨hpres, ?_⟩
            intro c hc
            rcases List.mem_cons.mp hc with rfl | hc
            · exact interiorP_pres hpres hi2
            · exact interiorP_pres hpres (hstack c hc)
          · rw [if_neg hdir] at h
            exact absurd h (by simp)

theorem growMazeLoop_pres :
    ∀ (fuel : Nat) {d : DState} {r : Rng} {cells : List Vector}
      {lastDir : Vector} {d' : DState} {r' : Rng},
      (∀ c ∈ cells, InteriorP d.stage c) →
      growMazeLoop fuel d r cells lastDir = some (d', r') →
      StagePres d.stage d'.stage := by
  intro fuel
  induction fuel with
  | zero => intro d r cells lastDir d' r' _ h; exact absurd h (by simp [growMazeLoop])
  | succ n ih =>
    intro d r cells lastDir d' r' hstack h
    rw [growMazeLoop] at h
    cases hs : growStep d r cells lastDir with
    | none => rw [hs] at h; exact absurd h (by simp)
    | some res =>
      rw [hs, Option.some_bind] at h
      cases res with
      | done d2 r2 =>
        simp only [Option.some.injEq, Prod.mk.injEq] at h
        obtain ⟨hd2, -, -⟩ := growStep_done_eq hs
        rw [← h.1, hd2]
        exact StagePres.refl _
      | cont d2 r2 cells2 last2 =>
        obtain ⟨hpres, hstack2⟩ := growStep_cont_pres hstack hs
        exact hpres.trans (ih hstack2 h)

theorem growMaze_pres {fuel : Nat} {d : DState} {r : Rng} {start : Vector}
    {d' : DState} {r' : Rng}
    (hseed : InteriorP d.stage start)
    (h : growMaze fuel d r start = some (d', r')) :
    StagePres d.stage d'.stage := by
  unfold growMaze at h
  have hp1 : StagePres d.stage
      ((d.startRegion.carve start Tile.Floor).stage) :=
    stagePres_set _ hseed
  refine hp1.trans (growMazeLoop_pres fuel ?_ h)
  intro c hc
  simp only [List.mem_singleton] at hc
  subst hc
  exact interiorP_pres hp1 hseed

theorem mazeFillRow_pres :
    ∀ (Lx : List Int) (fuel : Nat) (y : Int) (acc : DState × Rng)
      (out : DState × Rng),
      (∀ x ∈ Lx, InteriorP acc.1.stage ⟨x, y⟩) →
      (Lx.foldlM
        (fun acc2 x =>
          ((acc2.1.getTile ⟨x, y⟩).bind fun t =>
            if t ≠ Tile.Wall then some acc2
            else growMaze fuel acc2.1 acc2.2 ⟨x, y⟩ :
            Option (DState × Rng)))
        acc) = some out →
      StagePres acc.1.stage out.1.stage := by
  intro Lx
  induction Lx with
  | nil =>
    intro fuel y acc out _ h
    replace h : some acc = some out := h
    injection h with h
    rw [← h]
    exact StagePres.refl _
  | cons a Lx ih =>
    intro fuel y acc out hint h
    rw [List.foldlM_cons] at h
    cases hfa : ((acc.1.getTile ⟨a, y⟩).bind fun t =>
        if t ≠ Tile.Wall then some acc
        else growMaze fuel acc.1 acc.2 ⟨a, y⟩) with
    | none => rw [hfa] at h; exact absurd h (by simp)
    | some acc2 =>
      rw [hfa] at h
      replace h : List.foldlM _ acc2 Lx = some out := h
      have hp1 : StagePres acc.1.stage acc2.1.stage := by
        cases hg : acc.1.getTile ⟨a, y⟩ with
        | none => rw [hg] at hfa; exact absurd hfa (by simp)
        | some t =>
          rw [hg, Option.some_bind] at hfa
          split at hfa
          · simp only [Option.some.injEq] at hfa
            rw [← hfa]
            exact StagePres.refl _
          · rcases acc2 with ⟨d2, r2⟩
            exact growMaze_pres (hint a (List.mem_cons_self _ _)) hfa
      refine hp1.trans (ih fuel y acc2 out ?_ h)
      intro x hx
      exact interiorP_pres hp1 (hint x (List.mem_cons_of_mem _ hx))

theorem mazeFillOuter_pres :
    ∀ (Ly : List Int) (fuel : Nat) (Lx : List Int) (acc out : DState × Rng),
      (∀ y ∈ Ly, ∀ x ∈ Lx, InteriorP acc.1.stage ⟨x, y⟩) →
      (Ly.foldlM
        (fun acc1 y =>
          Lx.foldlM
            (fun acc2 x =>
              ((acc2.1.getTile ⟨x, y⟩).bind fun t =>
                if t ≠ Tile.Wall then some acc2
                else growMaze fuel acc2.1 acc2.2 ⟨x, y⟩ :
                Option (DState × Rng)))
            acc1)
        acc) = some out →
      StagePres acc.1.stage out.1.stage := by
  intro Ly
  induction Ly with
  | nil =>
    intro fuel Lx acc out _ h
    replace h : some acc = some out := h
    injection h with h
    rw [← h]
    exact StagePres.refl _
  | cons a Ly ih =>
    intro fuel Lx acc out hint h
    rw [List.foldlM_cons] at h
    cases hfa : (Lx.foldlM
        (fun acc2 x =>
          ((acc2.1.getTile ⟨x, a⟩).bind fun t =>
            if t ≠ Tile.Wall then some acc2
            else growMaze fuel acc2.1 acc2.2 ⟨x, a⟩ :
            Option (DState × Rng)))
        acc) with
    | none => rw [hfa] at h; exact absurd h (by simp)
    | some acc2 =>
      rw [hfa] at h
      replace h : List.foldlM _ acc2 Ly = some out := h
      have hp1 : StagePres acc.1.stage acc2.1.stage :=
        mazeFillRow_pres Lx fuel a acc acc2
          (hint a (List.mem_cons_self _ _)) hfa
      refine hp1.trans (ih fuel Lx acc2 out ?_ h)
      intro y hy x hx
      exact interiorP_pres hp1 (hint y (List.mem_cons_of_mem _ hy) x hx)

theorem mazeFill_pres {fuel : Nat} {d : DState} {r : Rng} {d' : DState}
    {r' : Rng} (hW : d.stage.width % 2 = 1) (hH : d.stage.height % 2 = 1)
    (h : mazeFill fuel d r = some (d', r')) :
    StagePres d.stage d'.stage := by
  refine mazeFillOuter_pres (oddCoords d.stage.height) fuel
    (oddCoords d.stage.width) (d, r) (d', r') ?_ h
  intro y hy x hx
  obtain ⟨hy1, hy2, hy3⟩ := mem_oddCoords.mp hy
  obtain ⟨hx1, hx2, hx3⟩ := mem_oddCoords.mp hx
  exact ⟨by show (1 : Int) ≤ x; omega,
    by show x < d.stage.width - 1; omega,
    by show (1 : Int) ≤ y; omega,
    by show y < d.stage.height - 1; omega⟩

theorem scanRow_acc {d : DState} :
    ∀ (Lx : List Int) (y : Int) (acc out : List (Vector × List Int)),
      (∀ x ∈ Lx, InteriorP d.stage ⟨x, y⟩) →
      (Lx.foldlM
        (fun acc2 x =>
          ((d.getTile ⟨x, y⟩).map fun t =>
            if t ≠ Tile.Wall then acc2
            else
              if (neighborRegions d ⟨x, y⟩).length < 2 then acc2
              else acc2 ++ [(⟨x, y⟩, neighborRegions d ⟨x, y⟩)] :
            Option (List (Vector × List Int))))
        acc) = some out →
      ∀ e ∈ out, e ∈ acc ∨ InteriorP d.stage e.1 := by
  intro Lx
  induction Lx with
  | nil =>
    intro y acc out _ h e he
    replace h : some acc = some out := h
    injection h with h
    rw [← h] at he
    exact Or.inl he
  | cons a Lx ih =>
    intro y acc out hint h e he
    rw [List.foldlM_cons] at h
    cases hg : d.getTile ⟨a, y⟩ with
    | none => rw [hg] at h; exact absurd h (by simp)
    | some t =>
      rw [hg] at h
      replace h : Lx.foldlM _
          (if t ≠ Tile.Wall then acc
           else
             if (neighborRegions d ⟨a, y⟩).length < 2 then acc
             else acc ++ [(⟨a, y⟩, neighborRegions d ⟨a, y⟩)]) = some out := h
      rcases ih y _ out (fun x hx => hint x (List.mem_cons_of_mem _ hx)) h e he
        with hin | hin
      · split at hin
        · exact Or.inl hin
        · split at hin
          · exact Or.inl hin
          · rcases List.mem_append.mp hin with hin | hin
            · exact Or.inl hin
            · simp only [List.mem_singleton] at hin
              subst hin
              exact Or.inr (hint a (List.mem_cons_self _ _))
      · exact Or.inr hin

theorem scanOuter_acc {d : DState} :
    ∀ (Ly Lx : List Int) (acc out : List (Vector × List Int)),
      (∀ y ∈ Ly, ∀ x ∈ Lx, InteriorP d.stage ⟨x, y⟩) →
      (Ly.foldlM
        (fun acc1 y =>
          Lx.foldlM
            (fun acc2 x =>
              ((d.getTile ⟨x, y⟩).map fun t =>
                if t ≠ Tile.Wall then acc2
                else
                  if (neighborRegions d ⟨x, y⟩).length < 2 then acc2
                  else acc2 ++ [(⟨x, y⟩, neighborRegions d ⟨x, y⟩)] :
                Option (List (Vector × List Int))))
            acc1)
        acc) = some out →
      ∀ e ∈ out, e ∈ acc ∨ InteriorP d.stage e.1 := by
  intro Ly
  induction Ly with
  | nil =>
    intro Lx acc out _ h e he
    replace h : some acc = some out := h
    injection h with h
    rw [← h] at he
    exact Or.inl he
  | cons a Ly ih =>
    intro Lx acc out hint h e he
    rw [List.foldlM_cons] at h
    cases hfa : (Lx.foldlM
        (fun acc2 x =>
          ((d.getTile ⟨x, a⟩).map fun t =>
            if t ≠ Tile.Wall then acc2
            else
              if (neighborRegions d ⟨x, a⟩).length < 2 then acc2
              else acc2 ++ [(⟨x, a⟩, neighborRegions d ⟨x, a⟩)] :
            Option (List (Vector × List Int))))
        acc) with
    | none => rw [hfa] at h; exact absurd h (by simp)
    | some acc2 =>
      rw [hfa] at h
      replace h : Ly.foldlM _ acc2 = some out := h
      rcases ih Lx acc2 out
          (fun y hy x hx => hint y (List.mem_cons_of_mem _ hy) x hx) h e he
        with hin | hin
      · rcases scanRow_acc Lx a acc acc2 (hint a (List.mem_cons_self _ _))
            hfa e hin with hin' | hin'
        · exact Or.inl hin'
        · exact Or.inr hin'
      · exact Or.inr hin

theorem scanConnectors_interior {d : DState} {cr : List (Vector × List Int)}
    (h : scanConnectors d = some cr) :
    ∀ e ∈ cr, InteriorP d.stage e.1 := by
  intro e he
  have hint : ∀ y ∈ intRange 1 (d.stage.height - 1),
      ∀ x ∈ intRange 1 (d.stage.width - 1), InteriorP d.stage ⟨x, y⟩ := by
    intro y hy x hx
    have hy' := mem_intRange.mp hy
    have hx' := mem_intRange.mp hx
    exact ⟨by show (1 : Int) ≤ x; omega, by show x < d.stage.width - 1; omega,
      by show (1 : Int) ≤ y; omega, by show y < d.stage.height - 1; omega⟩
  rcases scanOuter_acc (intRange 1 (d.stage.height - 1))
      (intRange 1 (d.stage.width - 1)) [] cr hint h e he with hin | hin
  · exact absurd hin (by simp)
  · exact hin

theorem addJunction_pres {d : DState} {r : Rng} {pos : Vector}
    (hip : InteriorP d.stage pos) :
    StagePres d.stage (addJunction d r pos).1.stage := by
  unfold addJunction
  rcases genRatio 4 r with ⟨b1, r1⟩
  dsimp only
  split
  · rcases genRatio 3 r1 with ⟨b2, r2⟩
    dsimp only
    exact stagePres_set _ hip
  · exact stagePres_set _ hip

theorem retainStep_pres {connector : Vector} {cr : List (Vector × List Int)}
    {merged : List (Int × Int)} {d : DState} {r : Rng} {pos : Vector}
    {keep : Bool} {d1 : DState} {r1 : Rng}
    (hip : InteriorP d.stage pos)
    (h : retainStep connector cr merged d r pos = some (keep, d1, r1)) :
    StagePres d.stage d1.stage := by
  unfold retainStep at h
  split at h
  · simp only [Option.some.injEq, Prod.mk.injEq] at h
    rw [← h.2.1]
    exact StagePres.refl _
  · rw [Option.bind_eq_some] at h
    obtain ⟨resolved, -, h⟩ := h
    split at h
    · simp only [Option.some.injEq, Prod.mk.injEq] at h
      rw [← h.2.1]
      exact StagePres.refl _
    · rcases hgr : genRatio EXTRA_CONNECTOR_CHANCE r with ⟨roll, r2⟩
      rw [hgr] at h
      dsimp only at h
      split at h
      · rcases haj : addJunction d r2 pos with ⟨dj, rj⟩
        rw [haj] at h
        dsimp only at h
        simp only [Option.some.injEq, Prod.mk.injEq] at h
        rw [← h.2.1]
        have := @addJunction_pres _ r2 _ hip
        rw [haj] at this
        exact this
      · simp only [Option.some.injEq, Prod.mk.injEq] at h
        rw [← h.2.1]
        exact StagePres.refl _

theorem retainConnectors_pres :
    ∀ (L : List Vector) {connector : Vector} {cr : List (Vector × List Int)}
      {merged : List (Int × Int)} {d : DState} {r : Rng} {l' : List Vector}
      {d' : DState} {r' : Rng},
      (∀ pos ∈ L, InteriorP d.stage pos) →
      retainConnectors connector cr merged L d r = some (l', d', r') →
      StagePres d.stage d'.stage ∧ ∀ pos ∈ l', pos ∈ L := by
  intro L
  induction L with
  | nil =>
    intro connector cr merged d r l' d' r' _ h
    simp only [retainConnectors, Option.some.injEq, Prod.mk.injEq] at h
    refine ⟨?_, ?_⟩
    · rw [← h.2.1]; exact StagePres.refl _
    · rw [← h.1]; exact fun pos hp => absurd hp (by simp)
  | cons a L ih =>
    intro connector cr merged d r l' d' r' hint h
    rw [retainConnectors] at h
    rw [Option.bind_eq_some] at h
    obtain ⟨⟨keep, d1, r1⟩, hstep, h⟩ := h
    dsimp only at h
    rw [Option.map_eq_some'] at h
    obtain ⟨⟨l2, d2, r2⟩, hrec, h⟩ := h
    dsimp only at h
    have hp1 : StagePres d.stage d1.stage :=
      retainStep_pres (hint a (List.mem_cons_self _ _)) hstep
    obtain ⟨hp2, hsub⟩ := ih
      (fun pos hp => interiorP_pres hp1 (hint pos (List.mem_cons_of_mem _ hp)))
      hrec
    simp only [Prod.mk.injEq] at h
    refine ⟨?_, ?_⟩
    · rw [← h.2.1]
      exact hp1.trans hp2
    · rw [← h.1]
      intro pos hp
      split at hp
      · rcases List.mem_cons.mp hp with rfl | hp
        · exact List.mem_cons_self _ _
        · exact List.mem_cons_of_mem _ (hsub pos hp)
      · exact List.mem_cons_of_mem _ (hsub pos hp)

theorem connectLoop_pres :
    ∀ (fuel : Nat) {cr : List (Vector × List Int)} {curr : Int}
      {connectors : List Vector} {merged : List (Int × Int)}
      {opens : List Int} {d : DState} {r : Rng} {d' : DState} {r' : Rng},
      (∀ pos ∈ connectors, InteriorP d.stage pos) →
      connectLoop cr curr fuel connectors merged opens d r = some (d', r') →
      StagePres d.stage d'.stage := by
  intro fuel
  induction fuel with
  | zero =>
    intro cr curr connectors merged opens d r d' r' _ h
    exact absurd h (by simp [connectLoop])
  | succ n ih =>
    intro cr curr connectors merged opens d r d' r' hconn h
    rw [connectLoop] at h
    split at h
    · simp only [Option.some.injEq, Prod.mk.injEq] at h
      rw [← h.1]
      exact StagePres.refl _
    · rcases hru : randomUsize r with ⟨u, r1⟩
      rw [hru] at h
      dsimp only at h
      split at h
      · exact absurd h (by simp)
      · rename_i hlen
        have hipc : InteriorP d.stage
            (connectors.getD (u % connectors.length) ⟨0, 0⟩) :=
          hconn _ (getD_mem (Nat.mod_lt _ (by omega)))
        rcases haj : addJunction d r1
            (connectors.getD (u % connectors.length) ⟨0, 0⟩) with ⟨d1, r2⟩
        rw [haj] at h
        dsimp only at h
        rw [Option.bind_eq_some] at h
        obtain ⟨resolved, -, h⟩ := h
        rw [Option.bind_eq_some] at h
        obtain ⟨dest, -, h⟩ := h
        rw [Option.bind_eq_some] at h
        obtain ⟨merged1, -, h⟩ := h
        rw [Option.bind_eq_some] at h
        obtain ⟨⟨connectors1, d2, r3⟩, hret, h⟩ := h
        dsimp only at h
        have hp1 : StagePres d.stage d1.stage := by
          have := @addJunction_pres _ r1 _ hipc
          rw [haj] at this
          exact this
        obtain ⟨hp2, hsub⟩ := retainConnectors_pres connectors
          (fun p hp => interiorP_pres hp1 (hconn p hp)) hret
        refine ((hp1.trans hp2).trans (ih ?_ h))
        intro pos hpos
        exact interiorP_pres (hp1.trans hp2) (hconn pos (hsub pos hpos))

theorem connectRegions_pres {fuel : Nat} {d : DState} {r : Rng}
    {d' : DState} {r' : Rng}
    (h : connectRegions fuel d r = some (d', r')) :
    StagePres d.stage d'.stage := by
  unfold connectRegions at h
  rw [Option.bind_eq_some] at h
  obtain ⟨cr, hscan, h⟩ := h
  dsimp only at h
  refine connectLoop_pres fuel ?_ h
  intro pos hpos
  rw [List.mem_map] at hpos
  obtain ⟨e, he, rfl⟩ := hpos
  exact scanConnectors_interior hscan e he

theorem passCells_pres :
    ∀ {L : List Vector} {s : Stage} {ch : Bool} {s' : Stage} {ch' : Bool},
      (∀ p ∈ L, InteriorP s p) →
      passCells L (s, ch) = some (s', ch') → StagePres s s' := by
  intro L
  induction L with
  | nil =>
    intro s ch s' ch' _ h
    simp only [passCells, Option.some.injEq, Prod.mk.injEq] at h
    rw [← h.1]
    exact StagePres.refl _
  | cons p L ih =>
    intro s ch s' ch' hint h
    rw [passCells] at h
    cases hg : s.get p with
    | none => rw [hg] at h; exact absurd h (by simp)
    | some t =>
      rw [hg, Option.some_bind] at h
      split at h
      · exact ih (fun q hq => hint q (List.mem_cons_of_mem _ hq)) h
      · cases hc : countExits s p with
        | none => rw [hc] at h; exact absurd h (by simp)
        | some e =>
          rw [hc, Option.some_bind] at h
          split at h
          · exact ih (fun q hq => hint q (List.mem_cons_of_mem _ hq)) h
          · have hp1 : StagePres s (s.set p Tile.Wall) :=
              stagePres_set _ (hint p (List.mem_cons_self _ _))
            refine hp1.trans (ih ?_ h)
            intro q hq
            exact interiorP_pres hp1 (hint q (List.mem_cons_of_mem _ hq))

theorem removeDeadEnds_pres :
    ∀ (fuel : Nat) {s s' : Stage},
      removeDeadEnds fuel s = some s' → StagePres s s' := by
  intro fuel
  induction fuel with
  | zero => intro s s' h; exact absurd h (by simp [removeDeadEnds])
  | succ n ih =>
    intro s s' h
    rw [removeDeadEnds] at h
    cases hp : deadEndPass s with
    | none => rw [hp] at h; exact absurd h (by simp)
    | some pr =>
      obtain ⟨s0, ch⟩ := pr
      rw [hp, Option.some_bind] at h
      dsimp only at h
      have hp1 : StagePres s s0 :=
        passCells_pres (fun p hp => interior_of_mem hp) hp
      split at h
      · exact hp1.trans (ih h)
      · simp only [Option.some.injEq] at h
        rw [← h]
        exact hp1

theorem generateCore_pres {fuel : Nat} {d : DState} {r : Rng}
    {d' : DState} {r' : Rng}
    (h : generateCore fuel d r = some (d', r')) :
    StagePres d.stage d'.stage := by
  unfold generateCore at h
  split at h
  · exact absurd h (by simp)
  · rename_i hguard
    have h1 := Int.emod_nonneg d.stage.width (by norm_num : (2 : Int) ≠ 0)
    have h2 := Int.emod_lt_of_pos d.stage.width (by norm_num : (0 : Int) < 2)
    have h3 := Int.emod_nonneg d.stage.height (by norm_num : (2 : Int) ≠ 0)
    have h4 := Int.emod_lt_of_pos d.stage.height (by norm_num : (0 : Int) < 2)
    simp only [Bool.or_eq_true, beq_iff_eq, not_or] at hguard
    have hW : d.stage.width % 2 = 1 := by omega
    have hH : d.stage.height % 2 = 1 := by omega
    dsimp only at h
    rw [addRooms, Option.bind_eq_some] at h
    obtain ⟨⟨d1, r1⟩, hrooms, h⟩ := h
    dsimp only at h
    rw [Option.bind_eq_some] at h
    obtain ⟨⟨d2, r2⟩, hmaze, h⟩ := h
    dsimp only at h
    have hp1 := addRoomsLoop_pres _ hrooms
    have hp2 : StagePres d1.stage d2.stage :=
      mazeFill_pres (by rw [hp1.1]; exact hW) (by rw [hp1.2.1]; exact hH) hmaze
    exact (hp1.trans hp2).trans (connectRegions_pres h)

theorem dgenerate_pres {fuel : Nat} {d : DState} {r : Rng}
    {d' : DState} {r' : Rng}
    (h : dgenerate fuel d r = some (d', r')) :
    StagePres d.stage d'.stage := by
  unfold dgenerate at h
  rw [Option.bind_eq_some] at h
  obtain ⟨⟨d3, r3⟩, hcore, h⟩ := h
  dsimp only at h
  rw [Option.map_eq_some'] at h
  obtain ⟨st, hrde, hf⟩ := h
  have hp1 := generateCore_pres hcore
  have hp2 := removeDeadEnds_pres fuel hrde
  injection hf with hf1 hf2
  rw [← hf1]
  exact hp1.trans hp2

theorem stageNew_WF {w h : Int} (hw : 0 ≤ w) (hh : 0 ≤ h)
    (hsz : w * h < 2 ^ 31) : (Stage.new w h).WF := by
  refine ⟨hw, hh, hsz, ?_⟩
  show (List.replicate (i32ToUsize (wrap32 (w * h))) Tile.Wall).length = _
  rw [List.length_replicate,
    wrap32_eq_self (mul_nonneg hw hh) hsz,
    i32ToUsize_eq_toNat (mul_nonneg hw hh) (by omega)]
  rfl

theorem stageNew_borderWall {w h : Int} (hw : 0 ≤ w) (hh : 0 ≤ h)
    (hsz : w * h < 2 ^ 31) : BorderWall (Stage.new w h) := by
  intro p hp
  have hwf := stageNew_WF hw hh hsz
  have hlt := flatIdx_lt_length hwf hp.1
  have hlen : (Stage.new w h).tiles.length = i32ToUsize (wrap32 (w * h)) :=
    List.length_replicate _ _
  show (List.replicate (i32ToUsize (wrap32 (w * h))) Tile.Wall).get?
      ((Stage.new w h).flatIdx p) = some Tile.Wall
  rw [List.get?_eq_getElem?, List.getElem?_replicate,
    if_pos (by rw [hlen] at hlt; exact hlt)]

/-- C10: for every run of `generate` on a fresh grid with in-range
dimensions, every border cell of the final grid still holds `Wall`:
rooms are placed strictly inside, the maze walk's three-step look-ahead
keeps every carve interior, junctions are carved only at interior-scanned
connectors, and pruning writes only at interior cells. -/
theorem c10_borders (w h : Int) (fuel : Nat) (r : Rng) (d' : DState)
    (r' : Rng) (hw : 0 ≤ w) (hh : 0 ≤ h) (hsz : w * h < 2 ^ 31)
    (hgen : dgenerate fuel (DState.new (Stage.new w h)) r = some (d', r'))
    (p : Vector) (hb : BorderCellP d'.stage p) :
    d'.stage.get p = some Tile.Wall := by
  have hpres : StagePres (Stage.new w h) d'.stage := dgenerate_pres hgen
  exact hpres.2.2.2 (stageNew_WF hw hh hsz) (stageNew_borderWall hw hh hsz)
    p hb

/-- The result of a full concrete generation run on a 5-by-5 grid with
an all-zero draw stream, used as concrete witness input. -/
def c10res : DState × Rng :=
  (dgenerate 100 (DState.new (Stage.new 5 5)) ⟨fun _ => 0, 0⟩).getD
    (DState.new (Stage.new 5 5), ⟨fun _ => 0, 0⟩)

/-- C10 (witness): the corner cell of the concrete run stays `Wall`. -/
theorem c10_witness : c10res.1.stage.get ⟨0, 0⟩ = some Tile.Wall :=
  c10_borders 5 5 100 ⟨fun _ => 0, 0⟩ c10res.1 c10res.2 (by decide)
    (by decide) (by decide) rfl ⟨0, 0⟩ (by decide)

/-- C9 (witness): one concrete walk step from the seed, carving right. -/
theorem c9_witness :
    (∀ c ∈ [(⟨3, 1⟩ : Vector), ⟨1, 1⟩], OddCell c) ∧
      (([(⟨3, 1⟩ : Vector), ⟨1, 1⟩] = [(⟨1, 1⟩ : Vector)].tail) ∨
        ∃ cell rest dir, [(⟨1, 1⟩ : Vector)] = cell :: rest ∧
          dir ∈ CARDINALS ∧
          [(⟨3, 1⟩ : Vector), ⟨1, 1⟩] = (cell + dir * (2 : Int)) :: [⟨1, 1⟩] ∧
          ((cell + dir * (2 : Int)) - cell).abs = 2) :=
  c9_amended c9arg ⟨fun _ => 0, 0⟩ [⟨1, 1⟩] ⟨0, 0⟩
    ((c9arg.carve ⟨2, 1⟩ Tile.Floor).carve ⟨3, 1⟩ Tile.Floor)
    ⟨fun _ => 0, 1⟩ [⟨3, 1⟩, ⟨1, 1⟩] ⟨1, 0⟩ (by decide) rfl

/-! ## Claim C1: single connected component after region connection

Connectivity notions over a stage, and the invariants of the rooms,
maze, and connection phases needed to prove that `connect_regions`
leaves all non-`Wall` cells mutually reachable. -/

/-- The cell holds a non-`Wall` tile. -/
def OpenCell (s : Stage) (p : Vector) : Prop :=
  ∃ t, s.get p = some t ∧ t ≠ Tile.Wall

/-- A passable cell: in bounds and non-`Wall`. -/
def Passable (s : Stage) (p : Vector) : Prop :=
  InBoundsP s p ∧ OpenCell s p

/-- One step of 4-directional adjacency between passable cells. -/
def Adj (s : Stage) (p q : Vector) : Prop :=
  Passable s p ∧ Passable s q ∧ (q - p).abs = 1

/-- Reachability through passable cells. -/
def Conn (s : Stage) : Vector → Vector → Prop :=
  Relation.ReflTransGen (Adj s)

theorem adj_symm {s : Stage} {p q : Vector} (h : Adj s p q) : Adj s q p := by
  obtain ⟨h1, h2, h3⟩ := h
  refine ⟨h2, h1, ?_⟩
  unfold Vector.abs at h3 ⊢
  have hx : (p - q).x = -((q - p).x) := by
    show p.x - q.x = -(q.x - p.x); ring
  have hy : (p - q).y = -((q - p).y) := by
    show p.y - q.y = -(q.y - p.y); ring
  rw [hx, hy, abs_neg, abs_neg]
  exact h3

theorem conn_symm {s : Stage} {p q : Vector} (h : Conn s p q) : Conn s q p := by
  induction h with
  | refl => exact Relation.ReflTransGen.refl
  | tail _ hab ih =>
    exact Relation.ReflTransGen.head (adj_symm hab) ih

theorem conn_adj {s : Stage} {p q : Vector} (h : Adj s p q) : Conn s p q :=
  Relation.ReflTransGen.single h

/-- Growing the open set (with unchanged dimensions) preserves openness,
passability and connectivity. -/
def OpenMono (s s' : Stage) : Prop :=
  s'.width = s.width ∧ s'.height = s.height ∧
    ∀ p, OpenCell s p → OpenCell s' p

theorem openMono_refl (s : Stage) : OpenMono s s := ⟨rfl, rfl, fun _ => id⟩

theorem openMono_trans {s1 s2 s3 : Stage} (h1 : OpenMono s1 s2)
    (h2 : OpenMono s2 s3) : OpenMono s1 s3 :=
  ⟨h2.1.trans h1.1, h2.2.1.trans h1.2.1, fun p hp => h2.2.2 p (h1.2.2 p hp)⟩

theorem passable_mono {s s' : Stage} (h : OpenMono s s') {p : Vector} :
    Passable s p → Passable s' p := by
  rintro ⟨hb, ho⟩
  refine ⟨?_, h.2.2 p ho⟩
  unfold InBoundsP at hb ⊢
  rw [h.1, h.2.1]
  exact hb

theorem conn_mono {s s' : Stage} (h : OpenMono s s') {p q : Vector} :
    Conn s p q → Conn s' p q :=
  Relation.ReflTransGen.mono fun a b hab =>
    ⟨passable_mono h hab.1, passable_mono h hab.2.1, hab.2.2⟩

/-- Setting a non-`Wall` tile anywhere grows the open set. -/
theorem openMono_set {s : Stage} (pos : Vector) {t : Tile}
    (ht : t ≠ Tile.Wall) : OpenMono s (s.set pos t) := by
  refine ⟨rfl, rfl, ?_⟩
  intro p hp
  obtain ⟨told, hg, hw⟩ := hp
  by_cases hidx : s.flatIdx pos = s.flatIdx p
  · refine ⟨t, ?_, ht⟩
    show (s.tiles.set (s.flatIdx pos) t).get? ((s.set pos t).flatIdx p) = _
    have hfi : (s.set pos t).flatIdx p = s.flatIdx p := rfl
    rw [hfi, ← hidx]
    have hlt : s.flatIdx pos < s.tiles.length := by
      have h2 : s.tiles.get? (s.flatIdx p) ≠ none := by
        show s.get p ≠ none
        rw [hg]; simp
      rw [Ne, List.get?_eq_none] at h2
      omega
    rw [List.get?_set_eq_of_lt t hlt]
  · refine ⟨told, ?_, hw⟩
    show (s.tiles.set (s.flatIdx pos) t).get? ((s.set pos t).flatIdx p) = _
    have hfi : (s.set pos t).flatIdx p = s.flatIdx p := rfl
    rw [hfi, List.get?_set_ne _ _ hidx]
    exact hg

/-- Reading back a just-written in-store cell. -/
theorem get_set_self {s : Stage} {pos : Vector} (t : Tile)
    (hlt : s.flatIdx pos < s.tiles.length) :
    (s.set pos t).get pos = some t := by
  show (s.tiles.set (s.flatIdx pos) t).get? ((s.set pos t).flatIdx pos) = _
  have hfi : (s.set pos t).flatIdx pos = s.flatIdx pos := rfl
  rw [hfi, List.get?_set_eq_of_lt t hlt]

theorem adj_of_dir {s : Stage} {p dir : Vector} (hd : dir ∈ CARDINALS)
    (hp : Passable s p) (hq : Passable s (p + dir)) : Adj s p (p + dir) := by
  refine ⟨hp, hq, ?_⟩
  have : (p + dir) - p = ⟨dir.x, dir.y⟩ :=
    Vector.eq_of (by show p.x + dir.x - p.x = _; ring)
      (by show p.y + dir.y - p.y = _; ring)
  rw [this]
  simp only [CARDINALS, List.mem_cons, List.not_mem_nil, or_false] at hd
  rcases hd with rfl | rfl | rfl | rfl <;> decide

/-! ### Association-list lemmas for the region and merge maps -/

theorem find_filter_ne {α β : Type} [BEq α] [LawfulBEq α] {q p : α}
    (hne : q ≠ p) :
    ∀ (l : List (α × β)),
      List.find? (fun e => e.1 == q) (l.filter (fun e => e.1 != p)) =
        List.find? (fun e => e.1 == q) l := by
  intro l
  induction l with
  | nil => rfl
  | cons e l ih =>
    rw [List.filter_cons]
    by_cases hp' : e.1 = p
    · rw [if_neg (by simp [hp'])]
      have h2 : (e.1 == q) = false := by
        simp only [beq_eq_false_iff_ne, Ne]
        intro hh
        exact hne (by rw [← hh, hp'])
      rw [show List.find? (fun e => e.1 == q) (e :: l) =
          List.find? (fun e => e.1 == q) l from by
        simp [List.find?_cons, h2]]
      exact ih
    · rw [if_pos (by simp [hp'])]
      by_cases hq' : e.1 = q
      · simp [List.find?_cons, hq']
      · simp only [List.find?_cons, show (e.1 == q) = false by simp [hq']]
        exact ih

theorem rlookup_rinsert_self (regions : List (Vector × Int)) (p : Vector)
    (i : Int) : rlookup (rinsert regions p i) p = some i := by
  unfold rlookup rinsert
  simp [List.find?_cons]

theorem rlookup_rinsert_ne {regions : List (Vector × Int)} {p q : Vector}
    {i : Int} (hne : q ≠ p) :
    rlookup (rinsert regions p i) q = rlookup regions q := by
  unfold rlookup rinsert
  rw [show List.find? (fun e => e.1 == q)
        ((p, i) :: List.filter (fun e => e.1 != p) regions) =
      List.find? (fun e => e.1 == q)
        (List.filter (fun e => e.1 != p) regions) from by
    simp only [List.find?_cons,
      show (((p, i) : Vector × Int).1 == q) = false from by
        simp only [beq_eq_false_iff_ne, Ne]
        exact fun h => hne h.symm]]
  rw [find_filter_ne hne]

theorem mlookup_minsert_self (merged : List (Int × Int)) (i v : Int) :
    mlookup (minsert merged i v) i = some v := by
  unfold mlookup minsert
  simp [List.find?_cons]

theorem mlookup_minsert_ne {merged : List (Int × Int)} {i j v : Int}
    (hne : j ≠ i) : mlookup (minsert merged i v) j = mlookup merged j := by
  unfold mlookup minsert
  rw [show List.find? (fun e => e.1 == j)
        ((i, v) :: List.filter (fun e => e.1 != i) merged) =
      List.find? (fun e => e.1 == j)
        (List.filter (fun e => e.1 != i) merged) from by
    simp only [List.find?_cons,
      show (((i, v) : Int × Int).1 == j) = false from by
        simp only [beq_eq_false_iff_ne, Ne]
        exact fun h => hne h.symm]]
  rw [find_filter_ne hne]

/-- The identity merge map built at the start of `connect_regions`. -/
theorem mlookup_idfold : ∀ (L : List Int) (m0 : List (Int × Int)) (j : Int),
    mlookup (L.foldl (fun m i => minsert m i i) m0) j =
      if j ∈ L then some j else mlookup m0 j := by
  intro L
  induction L with
  | nil => intro m0 j; simp
  | cons a L ih =>
    intro m0 j
    rw [List.foldl_cons, ih]
    by_cases hj : j ∈ L
    · rw [if_pos hj, if_pos (List.mem_cons_of_mem _ hj)]
    · rw [if_neg hj]
      by_cases hja : j = a
      · subst hja
        rw [if_pos (List.mem_cons_self _ _), mlookup_minsert_self]
      · rw [if_neg (by simp [hja, hj]), mlookup_minsert_ne hja]

theorem intRangeGo_nodup (lo : Int) :
    ∀ n, (intRangeGo lo n : List Int).Nodup := by
  intro n
  induction n generalizing lo with
  | zero => exact List.nodup_nil
  | succ n ih =>
    rw [intRangeGo]
    refine List.nodup_cons.mpr ⟨?_, ih (lo + 1)⟩
    intro hmem
    have := mem_intRangeGo.mp hmem
    omega

theorem intRange_nodup (lo hi : Int) : (intRange lo hi).Nodup :=
  intRangeGo_nodup lo _

/-- Pointwise description of the merge-map update loop of
`connect_regions`: over a duplicate-free key list, a key ends up mapped
to `dest` exactly when its old value is among `sources`, and is kept
otherwise. -/
theorem mergeFold_lookup :
    ∀ (L : List Int) (m m1 : List (Int × Int)) (sources : List Int)
      (dest : Int), L.Nodup →
      L.foldlM (fun m i => (mlookup m i).map fun mi =>
        if sources.contains mi then minsert m i dest else m) m = some m1 →
      ∀ j, mlookup m1 j =
        if j ∈ L ∧ ∃ v, mlookup m j = some v ∧ sources.contains v = true
        then some dest else mlookup m j := by
  intro L
  induction L with
  | nil =>
    intro m m1 sources dest _ h j
    replace h : some m = some m1 := h
    rw [if_neg (by simp)]
    cases h
    rfl
  | cons a L ih =>
    intro m m1 sources dest hnd h j
    replace h : ((mlookup m a).map fun mi =>
        if sources.contains mi then minsert m a dest else m).bind
        (fun m2 => L.foldlM (fun m i => (mlookup m i).map fun mi =>
          if sources.contains mi then minsert m i dest else m) m2) =
        some m1 := h
    rw [Option.bind_eq_some] at h
    obtain ⟨m2, hm2, hrest⟩ := h
    rw [Option.map_eq_some'] at hm2
    obtain ⟨va, hva, hm2e⟩ := hm2
    have hanl : a ∉ L := (List.nodup_cons.mp hnd).1
    have hihj := ih m2 m1 sources dest (List.nodup_cons.mp hnd).2 hrest j
    by_cases hja : j = a
    · subst hja
      rw [if_neg (by
        intro hc
        exact hanl hc.1)] at hihj
      rw [hihj, ← hm2e]
      by_cases hsv : sources.contains va
      · rw [if_pos hsv, mlookup_minsert_self]
        rw [if_pos ⟨List.mem_cons_self _ _, va, hva, hsv⟩]
      · rw [if_neg hsv]
        rw [if_neg (by
          rintro ⟨-, v, hv, hs⟩
          rw [hva] at hv
          cases hv
          exact hsv hs)]
    · have hm2j : mlookup m2 j = mlookup m j := by
        rw [← hm2e]
        by_cases hsv : sources.contains va
        · rw [if_pos hsv, mlookup_minsert_ne hja]
        · rw [if_neg hsv]
      rw [hihj, hm2j]
      by_cases hcond : j ∈ L ∧ ∃ v, mlookup m j = some v ∧
          sources.contains v = true
      · rw [if_pos hcond, if_pos ⟨List.mem_cons_of_mem _ hcond.1, hcond.2⟩]
      · rw [if_neg hcond, if_neg (by
          rintro ⟨hmem, hv⟩
          rcases List.mem_cons.mp hmem with heq | hmem
          · exact hja heq
          · exact hcond ⟨hmem, hv⟩)]

/-! ### The connector geometry: neighbor regions under the link invariants -/

theorem vadd_lit_x (p : Vector) (a b : Int) : (p + ⟨a, b⟩).x = p.x + a := rfl

theorem vadd_lit_y (p : Vector) (a b : Int) : (p + ⟨a, b⟩).y = p.y + b := rfl

theorem nrStep_none {d : DState} {pos dir : Vector} (acc : List Int)
    (h : rlookup d.regions (pos + dir) = none) :
    nrStep d pos acc dir = acc := by
  unfold nrStep
  rw [h]

theorem nrStep_some {d : DState} {pos dir : Vector} {reg : Int}
    (acc : List Int) (h : rlookup d.regions (pos + dir) = some reg) :
    nrStep d pos acc dir =
      if acc.contains reg then acc else acc ++ [reg] := by
  unfold nrStep
  rw [h]

theorem add_add_eq (p a b c : Vector) (hx : a.x + b.x = c.x)
    (hy : a.y + b.y = c.y) : p + a + b = p + c :=
  Vector.eq_of (by rw [vadd_x, vadd_x, vadd_x]; omega)
    (by rw [vadd_y, vadd_y, vadd_y]; omega)

theorem add_add_cancel (p a b : Vector) (hx : a.x + b.x = 0)
    (hy : a.y + b.y = 0) : p + a + b = p :=
  Vector.eq_of (by rw [vadd_x, vadd_x]; omega)
    (by rw [vadd_y, vadd_y]; omega)

theorem nrFold_nodup (d : DState) (pos : Vector) :
    ∀ (L : List Vector) (acc : List Int), acc.Nodup →
      (L.foldl (nrStep d pos) acc).Nodup := by
  intro L
  induction L with
  | nil => intro acc h; exact h
  | cons a L ih =>
    intro acc h
    rw [List.foldl_cons]
    apply ih
    cases hr : rlookup d.regions (pos + a) with
    | none => rw [nrStep_none acc hr]; exact h
    | some reg =>
      rw [nrStep_some acc hr]
      by_cases hc : acc.contains reg
      · rw [if_pos hc]; exact h
      · rw [if_neg hc]
        rw [List.nodup_append]
        refine ⟨h, List.nodup_singleton reg, ?_⟩
        intro v hv
        simp only [List.mem_singleton]
        intro heq
        subst heq
        exact hc (List.elem_eq_true_of_mem hv)

theorem neighborRegions_nodup (d : DState) (pos : Vector) :
    (neighborRegions d pos).Nodup :=
  nrFold_nodup d pos CARDINALS [] List.nodup_nil

theorem nrFold_mem (d : DState) (pos : Vector) :
    ∀ (L : List Vector) (acc : List Int) (reg : Int),
      reg ∈ L.foldl (nrStep d pos) acc →
      reg ∈ acc ∨ ∃ dir, dir ∈ L ∧ rlookup d.regions (pos + dir) = some reg := by
  intro L
  induction L with
  | nil => intro acc reg h; exact Or.inl h
  | cons a L ih =>
    intro acc reg h
    rw [List.foldl_cons] at h
    rcases hr : rlookup d.regions (pos + a) with - | v
    · rw [nrStep_none acc hr] at h
      rcases ih _ reg h with h1 | ⟨dir, h1, h2⟩
      · exact Or.inl h1
      · exact Or.inr ⟨dir, List.mem_cons_of_mem _ h1, h2⟩
    · rw [nrStep_some acc hr] at h
      rcases ih _ reg h with h1 | ⟨dir, h1, h2⟩
      · by_cases hc : acc.contains v
        · rw [if_pos hc] at h1
          exact Or.inl h1
        · rw [if_neg hc] at h1
          rcases List.mem_append.mp h1 with h1 | h1
          · exact Or.inl h1
          · rw [List.mem_singleton] at h1
            subst h1
            exact Or.inr ⟨a, List.mem_cons_self _ _, hr⟩
      · exact Or.inr ⟨dir, List.mem_cons_of_mem _ h1, h2⟩

theorem neighborRegions_mem {d : DState} {pos : Vector} {reg : Int}
    (h : reg ∈ neighborRegions d pos) :
    ∃ dir, dir ∈ CARDINALS ∧ rlookup d.regions (pos + dir) = some reg := by
  rcases nrFold_mem d pos CARDINALS [] reg h with h1 | h1
  · exact absurd h1 (by simp)
  · exact h1

theorem length_le_two_of_mem : ∀ {l : List Int}, l.Nodup → ∀ a b : Int,
    (∀ v ∈ l, v = a ∨ v = b) → l.length ≤ 2 := by
  intro l hn a b hv
  match l, hn with
  | [], _ => simp
  | [x], _ => simp
  | [x, y], _ => simp
  | x :: y :: z :: rest, hn =>
    exfalso
    have hxy : x ≠ y := by
      intro h; rw [h] at hn; simp at hn
    have hxz : x ≠ z := by
      intro h; rw [h] at hn; simp at hn
    have hyz : y ≠ z := by
      intro h; rw [h] at hn; simp at hn
    rcases hv x (by simp) with hx | hx <;>
      rcases hv y (by simp) with hy | hy <;>
        rcases hv z (by simp) with hz | hz <;>
          first
            | exact hxy (hx.trans hy.symm)
            | exact hxz (hx.trans hz.symm)
            | exact hyz (hy.trans hz.symm)

def RegL (R : List (Vector × Int)) : Prop :=
  ∀ p i, p.x % 2 = 0 → p.y % 2 = 1 → rlookup R p = some i →
    rlookup R (p + ⟨-1, 0⟩) = some i ∧ rlookup R (p + ⟨1, 0⟩) = some i

def RegV (R : List (Vector × Int)) : Prop :=
  ∀ p i, p.x % 2 = 1 → p.y % 2 = 0 → rlookup R p = some i →
    rlookup R (p + ⟨0, -1⟩) = some i ∧ rlookup R (p + ⟨0, 1⟩) = some i

def RegE (R : List (Vector × Int)) : Prop :=
  ∀ p i, p.x % 2 = 0 → p.y % 2 = 0 → rlookup R p = some i →
    ∀ dir, dir ∈ CARDINALS → rlookup R (p + dir) = some i

theorem neighborRegions_le_two {d : DState} {pos : Vector}
    (hl : RegL d.regions) (hv : RegV d.regions) (he : RegE d.regions)
    (hp : rlookup d.regions pos = none) :
    (neighborRegions d pos).length ≤ 2 := by
  have hnd := neighborRegions_nodup d pos
  have hx2 : pos.x % 2 = 0 ∨ pos.x % 2 = 1 := by omega
  have hy2 : pos.y % 2 = 0 ∨ pos.y % 2 = 1 := by omega
  rcases hx2 with hx | hx <;> rcases hy2 with hy | hy
  · -- even x, even y
    rcases husc : rlookup d.regions (pos + ⟨0, -1⟩) with - | u
    · rcases hdsc : rlookup d.regions (pos + ⟨0, 1⟩) with - | dd
      · -- only the horizontal neighbours can contribute
        refine length_le_two_of_mem hnd
          ((rlookup d.regions (pos + ⟨-1, 0⟩)).getD 0)
          ((rlookup d.regions (pos + ⟨1, 0⟩)).getD 0) ?_
        intro reg hreg
        obtain ⟨dir, hdir, hlook⟩ := neighborRegions_mem hreg
        simp only [CARDINALS, List.mem_cons, List.not_mem_nil, or_false]
          at hdir
        rcases hdir with rfl | rfl | rfl | rfl
        · rw [husc] at hlook; cases hlook
        · right; rw [hlook]; rfl
        · rw [hdsc] at hlook; cases hlook
        · left; rw [hlook]; rfl
      · -- the down neighbour fixes every other present value
        refine length_le_two_of_mem hnd dd dd ?_
        intro reg hreg
        obtain ⟨dir, hdir, hlook⟩ := neighborRegions_mem hreg
        simp only [CARDINALS, List.mem_cons, List.not_mem_nil, or_false]
          at hdir
        rcases hdir with rfl | rfl | rfl | rfl
        · rw [husc] at hlook; cases hlook
        · -- corner pos + (1, 1) links right and down
          left
          have h1 := (hv (pos + ⟨1, 0⟩) reg (by rw [vadd_lit_x]; omega)
            (by rw [vadd_lit_y]; omega) hlook).2
          have h2 := (hl (pos + ⟨0, 1⟩) dd (by rw [vadd_lit_x]; omega)
            (by rw [vadd_lit_y]; omega) hdsc).2
          rw [add_add_eq pos ⟨1, 0⟩ ⟨0, 1⟩ ⟨1, 1⟩ (by decide) (by decide)]
            at h1
          rw [add_add_eq pos ⟨0, 1⟩ ⟨1, 0⟩ ⟨1, 1⟩ (by decide) (by decide)]
            at h2
          rw [h1] at h2
          cases h2
          rfl
        · left
          rw [hdsc] at hlook
          cases hlook
          rfl
        · -- corner pos + (-1, 1) links left and down
          left
          have h1 := (hv (pos + ⟨-1, 0⟩) reg (by rw [vadd_lit_x]; omega)
            (by rw [vadd_lit_y]; omega) hlook).2
          have h2 := (hl (pos + ⟨0, 1⟩) dd (by rw [vadd_lit_x]; omega)
            (by rw [vadd_lit_y]; omega) hdsc).1
          rw [add_add_eq pos ⟨-1, 0⟩ ⟨0, 1⟩ ⟨-1, 1⟩ (by decide)
            (by decide)] at h1
          rw [add_add_eq pos ⟨0, 1⟩ ⟨-1, 0⟩ ⟨-1, 1⟩ (by decide)
            (by decide)] at h2
          rw [h1] at h2
          cases h2
          rfl
    · -- the up neighbour fixes left and right through the top corners
      refine length_le_two_of_mem hnd u
        ((rlookup d.regions (pos + ⟨0, 1⟩)).getD 0) ?_
      intro reg hreg
      obtain ⟨dir, hdir, hlook⟩ := neighborRegions_mem hreg
      simp only [CARDINALS, List.mem_cons, List.not_mem_nil, or_false]
        at hdir
      rcases hdir with rfl | rfl | rfl | rfl
      · left; rw [husc] at hlook; cases hlook; rfl
      · -- corner pos + (1, -1)
        left
        have h1 := (hv (pos + ⟨1, 0⟩) reg (by rw [vadd_lit_x]; omega)
          (by rw [vadd_lit_y]; omega) hlook).1
        have h2 := (hl (pos + ⟨0, -1⟩) u (by rw [vadd_lit_x]; omega)
          (by rw [vadd_lit_y]; omega) husc).2
        rw [add_add_eq pos ⟨1, 0⟩ ⟨0, -1⟩ ⟨1, -1⟩ (by decide)
          (by decide)] at h1
        rw [add_add_eq pos ⟨0, -1⟩ ⟨1, 0⟩ ⟨1, -1⟩ (by decide)
          (by decide)] at h2
        rw [h1] at h2
        cases h2
        rfl
      · right; rw [hlook]; rfl
      · -- corner pos + (-1, -1)
        left
        have h1 := (hv (pos + ⟨-1, 0⟩) reg (by rw [vadd_lit_x]; omega)
          (by rw [vadd_lit_y]; omega) hlook).1
        have h2 := (hl (pos + ⟨0, -1⟩) u (by rw [vadd_lit_x]; omega)
          (by rw [vadd_lit_y]; omega) husc).1
        rw [add_add_eq pos ⟨-1, 0⟩ ⟨0, -1⟩ ⟨-1, -1⟩ (by decide)
          (by decide)] at h1
        rw [add_add_eq pos ⟨0, -1⟩ ⟨-1, 0⟩ ⟨-1, -1⟩ (by decide)
          (by decide)] at h2
        rw [h1] at h2
        cases h2
        rfl
  · -- even x, odd y: vertical neighbours are even-even, hence absent
    have hU : rlookup d.regions (pos + ⟨0, -1⟩) = none := by
      rcases hu : rlookup d.regions (pos + ⟨0, -1⟩) with _ | u
      · exact hu
      · exfalso
        have h1 := he (pos + ⟨0, -1⟩) u (by rw [vadd_lit_x]; omega)
          (by rw [vadd_lit_y]; omega) hu ⟨0, 1⟩ (by decide)
        rw [add_add_cancel pos ⟨0, -1⟩ ⟨0, 1⟩ (by decide) (by decide)]
          at h1
        rw [hp] at h1
        cases h1
    have hD : rlookup d.regions (pos + ⟨0, 1⟩) = none := by
      rcases hu : rlookup d.regions (pos + ⟨0, 1⟩) with _ | u
      · exact hu
      · exfalso
        have h1 := he (pos + ⟨0, 1⟩) u (by rw [vadd_lit_x]; omega)
          (by rw [vadd_lit_y]; omega) hu ⟨0, -1⟩ (by decide)
        rw [add_add_cancel pos ⟨0, 1⟩ ⟨0, -1⟩ (by decide) (by decide)]
          at h1
        rw [hp] at h1
        cases h1
    refine length_le_two_of_mem hnd
      ((rlookup d.regions (pos + ⟨-1, 0⟩)).getD 0)
      ((rlookup d.regions (pos + ⟨1, 0⟩)).getD 0) ?_
    intro reg hreg
    obtain ⟨dir, hdir, hlook⟩ := neighborRegions_mem hreg
    simp only [CARDINALS, List.mem_cons, List.not_mem_nil, or_false] at hdir
    rcases hdir with rfl | rfl | rfl | rfl
    · rw [hU] at hlook; cases hlook
    · right; rw [hlook]; rfl
    · rw [hD] at hlook; cases hlook
    · left; rw [hlook]; rfl
  · -- odd x, even y: horizontal neighbours are even-even, hence absent
    have hL : rlookup d.regions (pos + ⟨-1, 0⟩) = none := by
      rcases hu : rlookup d.regions (pos + ⟨-1, 0⟩) with _ | u
      · exact hu
      · exfalso
        have h1 := he (pos + ⟨-1, 0⟩) u (by rw [vadd_lit_x]; omega)
          (by rw [vadd_lit_y]; omega) hu ⟨1, 0⟩ (by decide)
        rw [add_add_cancel pos ⟨-1, 0⟩ ⟨1, 0⟩ (by decide) (by decide)]
          at h1
        rw [hp] at h1
        cases h1
    have hR : rlookup d.regions (pos + ⟨1, 0⟩) = none := by
      rcases hu : rlookup d.regions (pos + ⟨1, 0⟩) with _ | u
      · exact hu
      · exfalso
        have h1 := he (pos + ⟨1, 0⟩) u (by rw [vadd_lit_x]; omega)
          (by rw [vadd_lit_y]; omega) hu ⟨-1, 0⟩ (by decide)
        rw [add_add_cancel pos ⟨1, 0⟩ ⟨-1, 0⟩ (by decide) (by decide)]
          at h1
        rw [hp] at h1
        cases h1
    refine length_le_two_of_mem hnd
      ((rlookup d.regions (pos + ⟨0, -1⟩)).getD 0)
      ((rlookup d.regions (pos + ⟨0, 1⟩)).getD 0) ?_
    intro reg hreg
    obtain ⟨dir, hdir, hlook⟩ := neighborRegions_mem hreg
    simp only [CARDINALS, List.mem_cons, List.not_mem_nil, or_false] at hdir
    rcases hdir with rfl | rfl | rfl | rfl
    · left; rw [hlook]; rfl
    · rw [hR] at hlook; cases hlook
    · right; rw [hlook]; rfl
    · rw [hL] at hlook; cases hlook
  · -- odd x, odd y: every neighbour would force a region at `pos`
    refine length_le_two_of_mem hnd 0 0 ?_
    intro reg hreg
    exfalso
    obtain ⟨dir, hdir, hlook⟩ := neighborRegions_mem hreg
    simp only [CARDINALS, List.mem_cons, List.not_mem_nil, or_false] at hdir
    rcases hdir with rfl | rfl | rfl | rfl
    · have h1 := (hv (pos + ⟨0, -1⟩) reg (by rw [vadd_lit_x]; omega)
        (by rw [vadd_lit_y]; omega) hlook).2
      rw [add_add_cancel pos ⟨0, -1⟩ ⟨0, 1⟩ (by decide) (by decide)]
        at h1
      rw [hp] at h1
      cases h1
    · have h1 := (hl (pos + ⟨1, 0⟩) reg (by rw [vadd_lit_x]; omega)
        (by rw [vadd_lit_y]; omega) hlook).1
      rw [add_add_cancel pos ⟨1, 0⟩ ⟨-1, 0⟩ (by decide) (by decide)]
        at h1
      rw [hp] at h1
      cases h1
    · have h1 := (hv (pos + ⟨0, 1⟩) reg (by rw [vadd_lit_x]; omega)
        (by rw [vadd_lit_y]; omega) hlook).1
      rw [add_add_cancel pos ⟨0, 1⟩ ⟨0, -1⟩ (by decide) (by decide)]
        at h1
      rw [hp] at h1
      cases h1
    · have h1 := (hl (pos + ⟨-1, 0⟩) reg (by rw [vadd_lit_x]; omega)
        (by rw [vadd_lit_y]; omega) hlook).2
      rw [add_add_cancel pos ⟨-1, 0⟩ ⟨1, 0⟩ (by decide) (by decide)]
        at h1
      rw [hp] at h1
      cases h1

/-! ### The rooms phase: carved footprints and the region map -/

/-- Membership in a room's footprint. -/
def RBox (rm : Rectangle) (p : Vector) : Prop :=
  rm.x ≤ p.x ∧ p.x < rm.x + rm.w ∧ rm.y ≤ p.y ∧ p.y < rm.y + rm.h

instance (rm : Rectangle) (p : Vector) : Decidable (RBox rm p) := by
  unfold RBox; infer_instance

theorem carve_rooms (d : DState) (p : Vector) (t : Tile) :
    (d.carve p t).rooms = d.rooms := rfl

theorem carve_curr (d : DState) (p : Vector) (t : Tile) :
    (d.carve p t).curr_region = d.curr_region := rfl

theorem carve_regions (d : DState) (p : Vector) (t : Tile) :
    (d.carve p t).regions = rinsert d.regions p d.curr_region := rfl

/-- Strictly separated rooms have disjoint footprints. -/
theorem not_overlap_of_distance_pos {a b : Rectangle}
    (h : 0 < a.distance_to b) {p : Vector} (hpa : RBox a p)
    (hpb : RBox b p) : False := by
  obtain ⟨ha1, ha2, ha3, ha4⟩ := hpa
  obtain ⟨hb1, hb2, hb3, hb4⟩ := hpb
  have hv : a.vdist b = -1 := by
    unfold Rectangle.vdist Rectangle.top Rectangle.bottom
    rw [if_neg (by omega), if_neg (by omega)]
  have hh : a.hdist b = -1 := by
    unfold Rectangle.hdist Rectangle.left Rectangle.right
    rw [if_neg (by omega), if_neg (by omega)]
  unfold Rectangle.distance_to at h
  rw [if_pos ⟨hv, hh⟩] at h
  omega

theorem inBounds_openMono {s s' : Stage} (h : OpenMono s s') {p : Vector} :
    InBoundsP s p → InBoundsP s' p := by
  unfold InBoundsP
  rw [h.1, h.2.1]
  exact id

theorem carveRow_openMono :
    ∀ (L : List Int) (d : DState) (y : Int),
      OpenMono d.stage
        ((L.foldl (fun d2 x => d2.carve ⟨x, y⟩ Tile.Floor) d).stage) := by
  intro L
  induction L with
  | nil => intro d y; exact openMono_refl _
  | cons a L ih =>
    intro d y
    rw [List.foldl_cons]
    exact openMono_trans (openMono_set ⟨a, y⟩ (by decide)) (ih _ y)

theorem carveRoom_openMono (d : DState) (rm : Rectangle) :
    OpenMono d.stage (carveRoom d rm).stage := by
  unfold carveRoom
  generalize intRange rm.y (rm.y + rm.h) = Ly
  induction Ly generalizing d with
  | nil => exact openMono_refl _
  | cons a L ih =>
    rw [List.foldl_cons]
    exact openMono_trans (carveRow_openMono _ _ _) (ih _)

theorem carveRow_WF :
    ∀ (L : List Int) (d : DState) (y : Int), d.stage.WF →
      ((L.foldl (fun d2 x => d2.carve ⟨x, y⟩ Tile.Floor) d).stage).WF := by
  intro L
  induction L with
  | nil => intro d y h; exact h
  | cons a L ih =>
    intro d y h
    rw [List.foldl_cons]
    exact ih _ y (WF_set h _ _)

theorem carveRoom_WF {d : DState} {rm : Rectangle} (h : d.stage.WF) :
    ((carveRoom d rm).stage).WF := by
  unfold carveRoom
  generalize intRange rm.y (rm.y + rm.h) = Ly
  induction Ly generalizing d with
  | nil => exact h
  | cons a L ih =>
    rw [List.foldl_cons]
    exact ih (carveRow_WF _ _ _ h)

theorem carveRow_curr :
    ∀ (L : List Int) (d : DState) (y : Int),
      (L.foldl (fun d2 x => d2.carve ⟨x, y⟩ Tile.Floor) d).curr_region =
        d.curr_region := by
  intro L
  induction L with
  | nil => intros; rfl
  | cons a L ih => intro d y; rw [List.foldl_cons, ih]; rfl

theorem carveRoom_curr (d : DState) (rm : Rectangle) :
    (carveRoom d rm).curr_region = d.curr_region := by
  unfold carveRoom
  generalize intRange rm.y (rm.y + rm.h) = Ly
  induction Ly generalizing d with
  | nil => rfl
  | cons a L ih => rw [List.foldl_cons, ih, carveRow_curr]

theorem carveRow_regions :
    ∀ (L : List Int) (d : DState) (y : Int) (q : Vector),
      rlookup ((L.foldl (fun d2 x => d2.carve ⟨x, y⟩ Tile.Floor) d).regions)
          q =
        if q.y = y ∧ q.x ∈ L then some d.curr_region
        else rlookup d.regions q := by
  intro L
  induction L with
  | nil =>
    intro d y q
    rw [if_neg (by simp)]
    rfl
  | cons a L ih =>
    intro d y q
    rw [List.foldl_cons, ih]
    by_cases hin : q.y = y ∧ q.x ∈ L
    · rw [if_pos hin, if_pos ⟨hin.1, List.mem_cons_of_mem _ hin.2⟩]
      rfl
    · rw [if_neg hin, carve_regions]
      by_cases hqa : q = ⟨a, y⟩
      · subst hqa
        rw [rlookup_rinsert_self, if_pos ⟨rfl, List.mem_cons_self _ _⟩]
      · rw [rlookup_rinsert_ne hqa, if_neg ?hc]
        case hc =>
          rintro ⟨hy, hx⟩
          rcases List.mem_cons.mp hx with hx | hx
          · exact hqa (Vector.eq_of hx hy)
          · exact hin ⟨hy, hx⟩

theorem carveRows_regions :
    ∀ (Ly : List Int) (d : DState) (Lx : List Int) (q : Vector),
      rlookup ((Ly.foldl
          (fun d1 y => Lx.foldl (fun d2 x => d2.carve ⟨x, y⟩ Tile.Floor) d1)
          d).regions) q =
        if q.y ∈ Ly ∧ q.x ∈ Lx then some d.curr_region
        else rlookup d.regions q := by
  intro Ly
  induction Ly with
  | nil =>
    intro d Lx q
    rw [if_neg (by simp)]
    rfl
  | cons a Ly ih =>
    intro d Lx q
    rw [List.foldl_cons, ih, carveRow_curr]
    by_cases hin : q.y ∈ Ly ∧ q.x ∈ Lx
    · rw [if_pos hin, if_pos ⟨List.mem_cons_of_mem _ hin.1, hin.2⟩]
    · rw [if_neg hin, carveRow_regions]
      by_cases hrow : q.y = a ∧ q.x ∈ Lx
      · rw [if_pos hrow, if_pos ⟨by rw [hrow.1]; exact List.mem_cons_self _ _,
          hrow.2⟩]
      · rw [if_neg hrow, if_neg ?hc]
        case hc =>
          rintro ⟨hy, hx⟩
          rcases List.mem_cons.mp hy with hy | hy
          · exact hrow ⟨hy, hx⟩
          · exact hin ⟨hy, hx⟩

theorem carveRoom_regions (d : DState) (rm : Rectangle) (q : Vector) :
    rlookup (carveRoom d rm).regions q =
      if RBox rm q then some d.curr_region else rlookup d.regions q := by
  unfold carveRoom
  rw [carveRows_regions]
  by_cases hrb : RBox rm q
  · rw [if_pos hrb, if_pos ?hc]
    case hc =>
      obtain ⟨h1, h2, h3, h4⟩ := hrb
      exact ⟨mem_intRange.mpr ⟨h3, h4⟩, mem_intRange.mpr ⟨h1, h2⟩⟩
  · rw [if_neg hrb, if_neg ?hc]
    case hc =>
      rintro ⟨hy, hx⟩
      have hy' := mem_intRange.mp hy
      have hx' := mem_intRange.mp hx
      exact hrb ⟨hx'.1, hx'.2, hy'.1, hy'.2⟩

theorem carveRow_get :
    ∀ (L : List Int) (d : DState) (y : Int) (q : Vector), d.stage.WF →
      (∀ x ∈ L, InBoundsP d.stage ⟨x, y⟩) → InBoundsP d.stage q →
      ((L.foldl (fun d2 x => d2.carve ⟨x, y⟩ Tile.Floor) d).stage).get q =
        if q.y = y ∧ q.x ∈ L then some Tile.Floor
        else d.stage.get q := by
  intro L
  induction L with
  | nil =>
    intro d y q _ _ _
    rw [if_neg (by simp)]
    rfl
  | cons a L ih =>
    intro d y q hwf hin hq
    rw [List.foldl_cons,
      ih (d.carve ⟨a, y⟩ Tile.Floor) y q (WF_set hwf _ _)
        (fun x hx => hin x (List.mem_cons_of_mem _ hx)) hq]
    by_cases hmem : q.y = y ∧ q.x ∈ L
    · rw [if_pos hmem, if_pos ⟨hmem.1, List.mem_cons_of_mem _ hmem.2⟩]
    · rw [if_neg hmem]
      by_cases hqa : q = (⟨a, y⟩ : Vector)
      · subst hqa
        rw [carve_stage, get_set_self Tile.Floor
          (flatIdx_lt_length hwf (hin a (List.mem_cons_self _ _))),
          if_pos ⟨rfl, List.mem_cons_self _ _⟩]
      · rw [carve_stage,
          get_set_other hwf Tile.Floor (hin a (List.mem_cons_self _ _)) hq
            hqa,
          if_neg ?hc]
        case hc =>
          rintro ⟨hy, hx⟩
          rcases List.mem_cons.mp hx with hx | hx
          · exact hqa (Vector.eq_of hx hy)
          · exact hmem ⟨hy, hx⟩

theorem carveRows_get :
    ∀ (Ly : List Int) (d : DState) (Lx : List Int) (q : Vector), d.stage.WF →
      (∀ y ∈ Ly, ∀ x ∈ Lx, InBoundsP d.stage ⟨x, y⟩) →
      InBoundsP d.stage q →
      ((Ly.foldl
          (fun d1 y => Lx.foldl (fun d2 x => d2.carve ⟨x, y⟩ Tile.Floor) d1)
          d).stage).get q =
        if q.y ∈ Ly ∧ q.x ∈ Lx then some Tile.Floor
        else d.stage.get q := by
  intro Ly
  induction Ly with
  | nil =>
    intro d Lx q _ _ _
    rw [if_neg (by simp)]
    rfl
  | cons a Ly ih =>
    intro d Lx q hwf hin hq
    have hmono := carveRow_openMono Lx d a
    rw [List.foldl_cons,
      ih _ Lx q (carveRow_WF Lx d a hwf)
        (fun y hy x hx => inBounds_openMono hmono
          (hin y (List.mem_cons_of_mem _ hy) x hx))
        (inBounds_openMono hmono hq)]
    by_cases hmem : q.y ∈ Ly ∧ q.x ∈ Lx
    · rw [if_pos hmem, if_pos ⟨List.mem_cons_of_mem _ hmem.1, hmem.2⟩]
    · rw [if_neg hmem,
        carveRow_get Lx d a q hwf (hin a (List.mem_cons_self _ _)) hq]
      by_cases hrow : q.y = a ∧ q.x ∈ Lx
      · rw [if_pos hrow, if_pos ⟨by rw [hrow.1]; exact List.mem_cons_self _ _,
          hrow.2⟩]
      · rw [if_neg hrow, if_neg ?hc]
        case hc =>
          rintro ⟨hy, hx⟩
          rcases List.mem_cons.mp hy with hy | hy
          · exact hrow ⟨hy, hx⟩
          · exact hmem ⟨hy, hx⟩

theorem carveRoom_get {d : DState} {rm : Rectangle} (hwf : d.stage.WF)
    (hbox : ∀ p, RBox rm p → InBoundsP d.stage p) {q : Vector}
    (hq : InBoundsP d.stage q) :
    (carveRoom d rm).stage.get q =
      if RBox rm q then some Tile.Floor else d.stage.get q := by
  unfold carveRoom
  rw [carveRows_get _ _ _ _ hwf ?hall hq]
  case hall =>
    intro y hy x hx
    have hy' := mem_intRange.mp hy
    have hx' := mem_intRange.mp hx
    exact hbox ⟨x, y⟩ ⟨hx'.1, hx'.2, hy'.1, hy'.2⟩
  by_cases hrb : RBox rm q
  · rw [if_pos hrb, if_pos ?hc]
    case hc =>
      obtain ⟨h1, h2, h3, h4⟩ := hrb
      exact ⟨mem_intRange.mpr ⟨h3, h4⟩, mem_intRange.mpr ⟨h1, h2⟩⟩
  · rw [if_neg hrb, if_neg ?hc]
    case hc =>
      rintro ⟨hy, hx⟩
      have hy' := mem_intRange.mp hy
      have hx' := mem_intRange.mp hx
      exact hrb ⟨hx'.1, hx'.2, hy'.1, hy'.2⟩

/-- A freshly built stage holds `Wall` wherever a tile exists at all. -/
theorem stageNew_all_wall {w h : Int} {p : Vector} {t : Tile}
    (hg : (Stage.new w h).get p = some t) : t = Tile.Wall := by
  unfold Stage.new Stage.get at hg
  have := List.get?_mem hg
  exact (List.eq_of_mem_replicate this)

/-! ### Segment and box connectivity -/

theorem conn_right {s : Stage} :
    ∀ (n : Nat) (p : Vector),
      (∀ k : Nat, k ≤ n → Passable s ⟨p.x + k, p.y⟩) →
      Conn s p ⟨p.x + n, p.y⟩ := by
  intro n
  induction n with
  | zero =>
    intro p h
    rw [show (⟨p.x + ((0 : Nat) : Int), p.y⟩ : Vector) = p from
      Vector.eq_of (by push_cast; ring) rfl]
    exact Relation.ReflTransGen.refl
  | succ n ih =>
    intro p h
    refine Relation.ReflTransGen.tail (ih p fun k hk => h k (by omega)) ?_
    have hstep : Adj s ⟨p.x + n, p.y⟩ ((⟨p.x + n, p.y⟩ : Vector) + ⟨1, 0⟩) :=
      adj_of_dir (by decide) (h n (by omega)) (by
        rw [show (⟨p.x + (n : Int), p.y⟩ : Vector) + ⟨1, 0⟩ =
            ⟨p.x + ((n + 1 : Nat) : Int), p.y⟩ from
          Vector.eq_of (by rw [vadd_lit_x]; push_cast; ring)
            (by rw [vadd_lit_y]; ring)]
        exact h (n + 1) le_rfl)
    rw [show (⟨p.x + (n : Int), p.y⟩ : Vector) + ⟨1, 0⟩ =
        ⟨p.x + ((n + 1 : Nat) : Int), p.y⟩ from
      Vector.eq_of (by rw [vadd_lit_x]; push_cast; ring)
        (by rw [vadd_lit_y]; ring)] at hstep
    exact hstep

theorem conn_down {s : Stage} :
    ∀ (n : Nat) (p : Vector),
      (∀ k : Nat, k ≤ n → Passable s ⟨p.x, p.y + k⟩) →
      Conn s p ⟨p.x, p.y + n⟩ := by
  intro n
  induction n with
  | zero =>
    intro p h
    rw [show (⟨p.x, p.y + ((0 : Nat) : Int)⟩ : Vector) = p from
      Vector.eq_of rfl (by push_cast; ring)]
    exact Relation.ReflTransGen.refl
  | succ n ih =>
    intro p h
    refine Relation.ReflTransGen.tail (ih p fun k hk => h k (by omega)) ?_
    have hstep : Adj s ⟨p.x, p.y + n⟩ ((⟨p.x, p.y + n⟩ : Vector) + ⟨0, 1⟩) :=
      adj_of_dir (by decide) (h n (by omega)) (by
        rw [show (⟨p.x, p.y + (n : Int)⟩ : Vector) + ⟨0, 1⟩ =
            ⟨p.x, p.y + ((n + 1 : Nat) : Int)⟩ from
          Vector.eq_of (by rw [vadd_lit_x]; ring)
            (by rw [vadd_lit_y]; push_cast; ring)]
        exact h (n + 1) le_rfl)
    rw [show (⟨p.x, p.y + (n : Int)⟩ : Vector) + ⟨0, 1⟩ =
        ⟨p.x, p.y + ((n + 1 : Nat) : Int)⟩ from
      Vector.eq_of (by rw [vadd_lit_x]; ring)
        (by rw [vadd_lit_y]; push_cast; ring)] at hstep
    exact hstep

theorem conn_horiz {s : Stage} {y x1 x2 : Int}
    (h : ∀ t, min x1 x2 ≤ t → t ≤ max x1 x2 → Passable s ⟨t, y⟩) :
    Conn s ⟨x1, y⟩ ⟨x2, y⟩ := by
  rcases le_total x1 x2 with hle | hle
  · have hc := conn_right ((x2 - x1).toNat) ⟨x1, y⟩ (fun k hk => by
      have hb : min x1 x2 ≤ x1 + (k : Int) ∧ x1 + (k : Int) ≤ max x1 x2 := by
        constructor
        · rw [min_eq_left hle]; omega
        · rw [max_eq_right hle]; omega
      exact h (x1 + (k : Int)) hb.1 hb.2)
    rw [show (⟨(⟨x1, y⟩ : Vector).x + ((x2 - x1).toNat : Int),
        (⟨x1, y⟩ : Vector).y⟩ : Vector) = (⟨x2, y⟩ : Vector) from
      Vector.eq_of (by show x1 + _ = x2; omega) rfl] at hc
    exact hc
  · have hc := conn_right ((x1 - x2).toNat) ⟨x2, y⟩ (fun k hk => by
      have hb : min x1 x2 ≤ x2 + (k : Int) ∧ x2 + (k : Int) ≤ max x1 x2 := by
        constructor
        · rw [min_eq_right hle]; omega
        · rw [max_eq_left hle]; omega
      exact h (x2 + (k : Int)) hb.1 hb.2)
    rw [show (⟨(⟨x2, y⟩ : Vector).x + ((x1 - x2).toNat : Int),
        (⟨x2, y⟩ : Vector).y⟩ : Vector) = (⟨x1, y⟩ : Vector) from
      Vector.eq_of (by show x2 + _ = x1; omega) rfl] at hc
    exact conn_symm hc

theorem conn_vert {s : Stage} {x y1 y2 : Int}
    (h : ∀ t, min y1 y2 ≤ t → t ≤ max y1 y2 → Passable s ⟨x, t⟩) :
    Conn s ⟨x, y1⟩ ⟨x, y2⟩ := by
  rcases le_total y1 y2 with hle | hle
  · have hc := conn_down ((y2 - y1).toNat) ⟨x, y1⟩ (fun k hk => by
      have hb : min y1 y2 ≤ y1 + (k : Int) ∧ y1 + (k : Int) ≤ max y1 y2 := by
        constructor
        · rw [min_eq_left hle]; omega
        · rw [max_eq_right hle]; omega
      exact h (y1 + (k : Int)) hb.1 hb.2)
    rw [show (⟨(⟨x, y1⟩ : Vector).x,
        (⟨x, y1⟩ : Vector).y + ((y2 - y1).toNat : Int)⟩ : Vector) =
        (⟨x, y2⟩ : Vector) from
      Vector.eq_of rfl (by show y1 + _ = y2; omega)] at hc
    exact hc
  · have hc := conn_down ((y1 - y2).toNat) ⟨x, y2⟩ (fun k hk => by
      have hb : min y1 y2 ≤ y2 + (k : Int) ∧ y2 + (k : Int) ≤ max y1 y2 := by
        constructor
        · rw [min_eq_right hle]; omega
        · rw [max_eq_left hle]; omega
      exact h (y2 + (k : Int)) hb.1 hb.2)
    rw [show (⟨(⟨x, y2⟩ : Vector).x,
        (⟨x, y2⟩ : Vector).y + ((y1 - y2).toNat : Int)⟩ : Vector) =
        (⟨x, y1⟩ : Vector) from
      Vector.eq_of rfl (by show y2 + _ = y1; omega)] at hc
    exact conn_symm hc

/-- Any two cells of an all-passable box are connected (go horizontally,
then vertically). -/
theorem conn_box {s : Stage} {rm : Rectangle}
    (hpass : ∀ p, RBox rm p → Passable s p) {p q : Vector}
    (hp : RBox rm p) (hq : RBox rm q) : Conn s p q := by
  obtain ⟨hp1, hp2, hp3, hp4⟩ := hp
  obtain ⟨hq1, hq2, hq3, hq4⟩ := hq
  have hmid : Conn s ⟨p.x, p.y⟩ ⟨q.x, p.y⟩ :=
    conn_horiz (fun t h1 h2 => hpass ⟨t, p.y⟩
      ⟨by show rm.x ≤ t; omega, by show t < rm.x + rm.w; omega, hp3, hp4⟩)
  have hvert : Conn s ⟨q.x, p.y⟩ ⟨q.x, q.y⟩ :=
    conn_vert (fun t h1 h2 => hpass ⟨q.x, t⟩
      ⟨hq1, hq2, by show rm.y ≤ t; omega,
        by show t < rm.y + rm.h; omega⟩)
  have hps : (⟨p.x, p.y⟩ : Vector) = p := Vector.eq_of rfl rfl
  have hqs : (⟨q.x, q.y⟩ : Vector) = q := Vector.eq_of rfl rfl
  rw [hps, hqs] at *
  exact hmid.trans hvert

/-! ### The cross-phase region-map invariant -/

/-- The state invariant maintained by the rooms and maze phases: a
well-formed bordered stage, a region map marking exactly the open
in-bounds cells, the local link invariants, interior region cells with
values in `[0, curr_region]`, and every region's cells connected. -/
structure MazeInv (d : DState) : Prop where
  wf : d.stage.WF
  border : BorderWall d.stage
  currGe : -1 ≤ d.curr_region
  openReg : ∀ p, InBoundsP d.stage p →
    (OpenCell d.stage p ↔ ∃ i, rlookup d.regions p = some i)
  regL : RegL d.regions
  regV : RegV d.regions
  regE : RegE d.regions
  regWF : ∀ p i, rlookup d.regions p = some i →
    InteriorP d.stage p ∧ 0 ≤ i ∧ i ≤ d.curr_region
  regConn : ∀ p q i, rlookup d.regions p = some i →
    rlookup d.regions q = some i → Conn d.stage p q

/-- The rooms-phase strengthening: open cells lie in accepted rooms. -/
structure RPhaseInv (d : DState) : Prop where
  minv : MazeInv d
  cover : ∀ p, InBoundsP d.stage p → OpenCell d.stage p →
    ∃ rm, rm ∈ d.rooms ∧ RBox rm p
  roomsOK : ∀ rm, rm ∈ d.rooms → RoomOK rm

/-- Cells of a candidate room separated from every accepted room are
`Wall` and carry no region. -/
theorem accept_box_wall {d : DState} {cand : Rectangle} (hi : RPhaseInv d)
    (hsep : ∀ other ∈ d.rooms, 0 < cand.distance_to other) {p : Vector}
    (hbp : RBox cand p) (hpin : InBoundsP d.stage p) :
    d.stage.get p = some Tile.Wall ∧ rlookup d.regions p = none := by
  have hnopen : ¬ OpenCell d.stage p := by
    intro hop
    obtain ⟨rm, hrm, hrb⟩ := hi.cover p hpin hop
    exact not_overlap_of_distance_pos (hsep rm hrm) hbp hrb
  obtain ⟨t, hg⟩ := get_some_of_inBounds hi.minv.wf hpin
  have ht : t = Tile.Wall := by
    by_contra hne
    exact hnopen ⟨t, hg, hne⟩
  subst ht
  refine ⟨hg, ?_⟩
  cases hl : rlookup d.regions p with
  | none => rfl
  | some i =>
    exact absurd ((hi.minv.openReg p hpin).mpr ⟨i, hl⟩) hnopen

/-- Accepting and carving a separated odd-aligned candidate room
preserves the rooms-phase invariant. -/
theorem carve_accept_inv {d : DState} {cand : Rectangle} (hi : RPhaseInv d)
    (hxodd : cand.x % 2 = 1) (hyodd : cand.y % 2 = 1)
    (hwodd : cand.w % 2 = 1) (hhodd : cand.h % 2 = 1)
    (hw1 : 0 < cand.w) (hh1 : 0 < cand.h)
    (hbx : 1 ≤ cand.x) (hbx2 : cand.x + cand.w ≤ d.stage.width - 1)
    (hby : 1 ≤ cand.y) (hby2 : cand.y + cand.h ≤ d.stage.height - 1)
    (hsep : ∀ other ∈ d.rooms, 0 < cand.distance_to other) :
    RPhaseInv (carveRoom ({ d with rooms := d.rooms ++ [cand] }).startRegion
      cand) := by
  set d1 : DState := ({ d with rooms := d.rooms ++ [cand] }).startRegion
    with hd1
  have hd1stage : d1.stage = d.stage := rfl
  have hd1regions : d1.regions = d.regions := rfl
  have hd1curr : d1.curr_region = d.curr_region + 1 := rfl
  have hd1rooms : d1.rooms = d.rooms ++ [cand] := rfl
  set d2 : DState := carveRoom d1 cand with hd2
  have hboxin : ∀ p, RBox cand p → InteriorP d.stage p := by
    rintro p ⟨h1, h2, h3, h4⟩
    exact ⟨by omega, by omega, by omega, by omega⟩
  have hboxinb : ∀ p, RBox cand p → InBoundsP d1.stage p := by
    intro p hp
    rw [hd1stage]
    exact inBounds_of_interior (hboxin p hp)
  have hpres : StagePres d.stage d2.stage := by
    rw [hd2, ← hd1stage]
    exact carveRoom_pres d1 cand ⟨hbx, hbx2, hby, hby2⟩
  have hwf2 : d2.stage.WF := hpres.2.2.1 hi.minv.wf
  have hkey1 : ∀ q, rlookup d2.regions q =
      if RBox cand q then some (d.curr_region + 1)
      else rlookup d.regions q := by
    intro q
    rw [hd2, carveRoom_regions, hd1curr, hd1regions]
  have hkey2 : ∀ q, InBoundsP d.stage q → d2.stage.get q =
      if RBox cand q then some Tile.Floor else d.stage.get q := by
    intro q hq
    rw [hd2, carveRoom_get (by rw [hd1stage]; exact hi.minv.wf) hboxinb
      (by rw [hd1stage]; exact hq)]
    rw [hd1stage]
  have hinb2 : ∀ q, InBoundsP d2.stage q ↔ InBoundsP d.stage q := by
    intro q
    unfold InBoundsP
    rw [hpres.1, hpres.2.1]
  have hint2 : ∀ q, InteriorP d2.stage q ↔ InteriorP d.stage q := by
    intro q
    unfold InteriorP
    rw [hpres.1, hpres.2.1]
  have hwall : ∀ p, RBox cand p → InBoundsP d.stage p →
      d.stage.get p = some Tile.Wall ∧ rlookup d.regions p = none :=
    fun p hbp hpin => accept_box_wall hi hsep hbp hpin
  have hcurr2 : d2.curr_region = d.curr_region + 1 := by
    rw [hd2, carveRoom_curr, hd1curr]
  have hrooms2 : d2.rooms = d.rooms ++ [cand] := by
    rw [hd2, carveRoom_rooms, hd1rooms]
  -- entries outside the box are identical to the old entries, and
  -- box entries hold the fresh region
  have hleft : ∀ {q i}, rlookup d2.regions q = some i → ¬ RBox cand q →
      rlookup d.regions q = some i := by
    intro q i hq hnb
    rw [hkey1 q, if_neg hnb] at hq
    exact hq
  have hnotbox_of_old : ∀ {q i}, rlookup d.regions q = some i →
      ¬ RBox cand q := by
    intro q i hq hnb
    have hqin := inBounds_of_interior (hi.minv.regWF q i hq).1
    rw [(hwall q hnb hqin).2] at hq
    cases hq
  have hold_pres : ∀ {q i}, rlookup d.regions q = some i →
      rlookup d2.regions q = some i := by
    intro q i hq
    rw [hkey1 q, if_neg (hnotbox_of_old hq)]
    exact hq
  have hOM : OpenMono d.stage d2.stage := by
    rw [hd2, ← hd1stage]
    exact carveRoom_openMono d1 cand
  refine ⟨⟨hwf2, hpres.2.2.2 hi.minv.wf hi.minv.border, ?_, ?_, ?_, ?_, ?_,
    ?_, ?_⟩, ?_, ?_⟩
  · rw [hcurr2]
    have := hi.minv.currGe
    omega
  · -- openReg
    intro p hpin
    rw [hinb2] at hpin
    rw [hkey1 p]
    constructor
    · intro hop
      by_cases hb : RBox cand p
      · exact ⟨d.curr_region + 1, by rw [if_pos hb]⟩
      · rw [if_neg hb]
        obtain ⟨t, hg, ht⟩ := hop
        rw [hkey2 p hpin, if_neg hb] at hg
        exact (hi.minv.openReg p hpin).mp ⟨t, hg, ht⟩
    · rintro ⟨i, hii⟩
      by_cases hb : RBox cand p
      · refine ⟨Tile.Floor, ?_, by decide⟩
        rw [hkey2 p hpin, if_pos hb]
      · rw [if_neg hb] at hii
        obtain ⟨t, hg, ht⟩ := (hi.minv.openReg p hpin).mpr ⟨i, hii⟩
        refine ⟨t, ?_, ht⟩
        rw [hkey2 p hpin, if_neg hb]
        exact hg
  · -- regL
    intro p i hpx hpy hp
    by_cases hb : RBox cand p
    · have hbl : RBox cand (p + ⟨-1, 0⟩) := by
        obtain ⟨h1, h2, h3, h4⟩ := hb
        unfold RBox
        rw [vadd_lit_x, vadd_lit_y]
        omega
      have hbr : RBox cand (p + ⟨1, 0⟩) := by
        obtain ⟨h1, h2, h3, h4⟩ := hb
        unfold RBox
        rw [vadd_lit_x, vadd_lit_y]
        omega
      have hival : i = d.curr_region + 1 := by
        rw [hkey1 p, if_pos hb] at hp
        cases hp
        rfl
      subst hival
      constructor
      · rw [hkey1 _, if_pos hbl]
      · rw [hkey1 _, if_pos hbr]
    · have hpold := hleft hp hb
      obtain ⟨hl1, hl2⟩ := hi.minv.regL p i hpx hpy hpold
      exact ⟨hold_pres hl1, hold_pres hl2⟩
  · -- regV
    intro p i hpx hpy hp
    by_cases hb : RBox cand p
    · have hbu : RBox cand (p + ⟨0, -1⟩) := by
        obtain ⟨h1, h2, h3, h4⟩ := hb
        unfold RBox
        rw [vadd_lit_x, vadd_lit_y]
        omega
      have hbd : RBox cand (p + ⟨0, 1⟩) := by
        obtain ⟨h1, h2, h3, h4⟩ := hb
        unfold RBox
        rw [vadd_lit_x, vadd_lit_y]
        omega
      have hival : i = d.curr_region + 1 := by
        rw [hkey1 p, if_pos hb] at hp
        cases hp
        rfl
      subst hival
      constructor
      · rw [hkey1 _, if_pos hbu]
      · rw [hkey1 _, if_pos hbd]
    · have hpold := hleft hp hb
      obtain ⟨hl1, hl2⟩ := hi.minv.regV p i hpx hpy hpold
      exact ⟨hold_pres hl1, hold_pres hl2⟩
  · -- regE
    intro p i hpx hpy hp dir hdir
    by_cases hb : RBox cand p
    · have hival : i = d.curr_region + 1 := by
        rw [hkey1 p, if_pos hb] at hp
        cases hp
        rfl
      subst hival
      obtain ⟨h1, h2, h3, h4⟩ := hb
      have hbd : RBox cand (p + dir) := by
        simp only [CARDINALS, List.mem_cons, List.not_mem_nil, or_false]
          at hdir
        rcases hdir with rfl | rfl | rfl | rfl <;>
          · unfold RBox
            rw [vadd_lit_x, vadd_lit_y]
            omega
      rw [hkey1 _, if_pos hbd]
    · have hpold := hleft hp hb
      exact hold_pres (hi.minv.regE p i hpx hpy hpold dir hdir)
  · -- regWF
    intro p i hp
    by_cases hb : RBox cand p
    · have hival : i = d.curr_region + 1 := by
        rw [hkey1 p, if_pos hb] at hp
        cases hp
        rfl
      subst hival
      refine ⟨(hint2 p).mpr (hboxin p hb), ?_, ?_⟩
      · have := hi.minv.currGe; omega
      · rw [hcurr2]
    · have hpold := hleft hp hb
      obtain ⟨h1, h2, h3⟩ := hi.minv.regWF p i hpold
      exact ⟨(hint2 p).mpr h1, h2, by rw [hcurr2]; omega⟩
  · -- regConn
    intro p q i hp hq
    by_cases hbp : RBox cand p <;> by_cases hbq : RBox cand q
    · -- both in the fresh box
      refine conn_box ?_ hbp hbq
      intro c hc
      refine ⟨(hinb2 c).mpr (inBounds_of_interior (hboxin c hc)),
        Tile.Floor, ?_, by decide⟩
      rw [hkey2 c (inBounds_of_interior (hboxin c hc)), if_pos hc]
    · -- p fresh, q old: impossible, the fresh id is new
      exfalso
      have hival : i = d.curr_region + 1 := by
        rw [hkey1 p, if_pos hbp] at hp
        cases hp
        rfl
      have hqold := hleft hq hbq
      have := (hi.minv.regWF q i hqold).2.2
      omega
    · exfalso
      have hival : i = d.curr_region + 1 := by
        rw [hkey1 q, if_pos hbq] at hq
        cases hq
        rfl
      have hpold := hleft hp hbp
      have := (hi.minv.regWF p i hpold).2.2
      omega
    · exact conn_mono hOM
        (hi.minv.regConn p q i (hleft hp hbp) (hleft hq hbq))
  · -- cover
    intro p hpin hop
    rw [hinb2] at hpin
    by_cases hb : RBox cand p
    · exact ⟨cand, by rw [hrooms2]; simp, hb⟩
    · obtain ⟨t, hg, ht⟩ := hop
      rw [hkey2 p hpin, if_neg hb] at hg
      obtain ⟨rm, hrm, hrb⟩ := hi.cover p hpin ⟨t, hg, ht⟩
      exact ⟨rm, by rw [hrooms2]; exact List.mem_append_left _ hrm, hrb⟩
  · -- roomsOK
    intro rm hrm
    rw [hrooms2] at hrm
    rcases List.mem_append.mp hrm with hrm | hrm
    · exact hi.roomsOK rm hrm
    · rw [List.mem_singleton] at hrm
      subst hrm
      exact ⟨hw1, hh1⟩

/-- One `add_rooms` attempt preserves the rooms-phase invariant: a
rejected candidate leaves the state unchanged, an accepted one carves an
odd-aligned, strictly interior, separated room under a fresh region. -/
theorem roomAttempt_rinv {d d' : DState} {r r' : Rng}
    (h : roomAttempt d r = some (d', r')) (hi : RPhaseInv d) :
    RPhaseInv d' := by
  unfold roomAttempt at h
  simp only [Option.bind_eq_some] at h
  obtain ⟨⟨s0, r1⟩, h1, h⟩ := h
  dsimp only at h
  obtain ⟨⟨re0, r2⟩, h2, h⟩ := h
  dsimp only at h
  rcases hgb : genBool r2 with ⟨b, r3⟩
  rw [hgb] at h
  dsimp only at h
  obtain ⟨⟨x0, r4⟩, h4, h⟩ := h
  dsimp only at h
  obtain ⟨⟨y0, r5⟩, h5, h⟩ := h
  dsimp only at h
  have hs0 := genRangeI_bounds h1
  have hre0 := genRangeI_bounds h2
  have hx0 := genRange_bounds h4
  have hy0 := genRange_bounds h5
  set W : Int := if b = true then s0 * 2 + 1 + re0 * 2 else s0 * 2 + 1
    with hW
  set H : Int := if b = true then s0 * 2 + 1 else s0 * 2 + 1 + re0 * 2
    with hH
  have hWodd : W % 2 = 1 := by rw [hW]; split <;> omega
  have hHodd : H % 2 = 1 := by rw [hH]; split <;> omega
  have hWpos : 0 < W := by rw [hW]; split <;> omega
  have hHpos : 0 < H := by rw [hH]; split <;> omega
  split at h
  · simp only [Option.some.injEq, Prod.mk.injEq] at h
    rw [← h.1]
    exact hi
  · rename_i hno
    simp only [Option.some.injEq, Prod.mk.injEq] at h
    rw [← h.1]
    set cand : Rectangle := ⟨x0 * 2 + 1, y0 * 2 + 1, W, H⟩ with hcand
    have hall : ∀ other ∈ d.rooms, 0 < cand.distance_to other := by
      intro other ho
      by_contra hle
      exact hno (List.any_eq_true.mpr ⟨other, ho, decide_eq_true (by omega)⟩)
    exact carve_accept_inv hi (by show (x0 * 2 + 1) % 2 = 1; omega)
      (by show (y0 * 2 + 1) % 2 = 1; omega) hWodd hHodd hWpos hHpos
      (by show (1 : Int) ≤ x0 * 2 + 1; omega)
      (by show x0 * 2 + 1 + W ≤ d.stage.width - 1; omega)
      (by show (1 : Int) ≤ y0 * 2 + 1; omega)
      (by show y0 * 2 + 1 + H ≤ d.stage.height - 1; omega) hall

theorem addRoomsLoop_rinv :
    ∀ (n : Nat) {d d' : DState} {r r' : Rng},
      addRoomsLoop n d r = some (d', r') → RPhaseInv d → RPhaseInv d' := by
  intro n
  induction n with
  | zero =>
    intro d d' r r' h hp
    simp only [addRoomsLoop, Option.some.injEq, Prod.mk.injEq] at h
    rw [← h.1]
    exact hp
  | succ m ih =>
    intro d d' r r' h hp
    rw [addRoomsLoop] at h
    rw [Option.bind_eq_some] at h
    obtain ⟨⟨d1, r1⟩, hstep, h⟩ := h
    exact ih h (roomAttempt_rinv hstep hp)

/-- The invariant at the start of generation: an all-`Wall` stage, no
rooms, an empty region map. -/
theorem rphase_new {w h : Int} (hw : 0 ≤ w) (hh : 0 ≤ h)
    (hsz : w * h < 2 ^ 31) {d0 : DState} (hst : d0.stage = Stage.new w h)
    (hrm : d0.rooms = []) (hrg : d0.regions = [])
    (hcr : d0.curr_region = -1) : RPhaseInv d0 := by
  have hnone : ∀ p, rlookup d0.regions p = none := by
    intro p
    rw [hrg]
    rfl
  have hnoopen : ∀ p, ¬ OpenCell d0.stage p := by
    rintro p ⟨t, hg, ht⟩
    rw [hst] at hg
    exact ht (stageNew_all_wall hg)
  refine ⟨⟨?_, ?_, by rw [hcr], ?_, ?_, ?_, ?_, ?_, ?_⟩, ?_, ?_⟩
  · rw [hst]; exact stageNew_WF hw hh hsz
  · rw [hst]; exact stageNew_borderWall hw hh hsz
  · intro p hp
    constructor
    · intro hop
      exact absurd hop (hnoopen p)
    · rintro ⟨i, hii⟩
      rw [hnone p] at hii
      cases hii
  · intro p i _ _ hp
    rw [hnone p] at hp
    cases hp
  · intro p i _ _ hp
    rw [hnone p] at hp
    cases hp
  · intro p i _ _ hp
    rw [hnone p] at hp
    cases hp
  · intro p i hp
    rw [hnone p] at hp
    cases hp
  · intro p q i hp
    rw [hnone p] at hp
    cases hp
  · intro p hp hop
    exact absurd hop (hnoopen p)
  · intro rm hrm2
    rw [hrm] at hrm2
    cases hrm2

/-! ### The maze phase and the invariant -/

/-- The `grow_maze` stack invariant: every stacked cell is odd-aligned
and carries the current region. -/
def StackInv (d : DState) (cells : List Vector) : Prop :=
  ∀ c ∈ cells, rlookup d.regions c = some d.curr_region ∧ OddCell c

/-- Seeding a maze: a fresh region on an odd-aligned interior `Wall`
cell preserves the invariant. -/
theorem carve_seed_minv {d : DState} {start : Vector} (hm : MazeInv d)
    (hodd : OddCell start) (hint : InteriorP d.stage start)
    (hwall : d.stage.get start = some Tile.Wall) :
    MazeInv (d.startRegion.carve start Tile.Floor) ∧
      rlookup (d.startRegion.carve start Tile.Floor).regions start =
        some (d.curr_region + 1) := by
  have hsin : InBoundsP d.stage start := inBounds_of_interior hint
  have hstartnone : rlookup d.regions start = none := by
    cases hl : rlookup d.regions start with
    | none => rfl
    | some i =>
      obtain ⟨t, hg, ht⟩ := (hm.openReg start hsin).mpr ⟨i, hl⟩
      rw [hwall] at hg
      cases hg
      exact absurd rfl ht
  set d1 : DState := d.startRegion.carve start Tile.Floor with hd1
  have hkeyreg : ∀ q, rlookup d1.regions q =
      if q = start then some (d.curr_region + 1)
      else rlookup d.regions q := by
    intro q
    by_cases hq : q = start
    · subst hq
      rw [if_pos rfl]
      exact rlookup_rinsert_self _ _ _
    · rw [if_neg hq]
      exact rlookup_rinsert_ne hq
  have hd1stage : d1.stage = d.stage.set start Tile.Floor := rfl
  have hkeyget : ∀ q, InBoundsP d.stage q → d1.stage.get q =
      if q = start then some Tile.Floor else d.stage.get q := by
    intro q hq
    rw [hd1stage]
    by_cases hqs : q = start
    · subst hqs
      rw [if_pos rfl]
      exact get_set_self _ (flatIdx_lt_length hm.wf hq)
    · rw [if_neg hqs]
      exact get_set_other hm.wf _ hsin hq hqs
  have hOM : OpenMono d.stage d1.stage := openMono_set start (by decide)
  have hnbr_not_start : ∀ {q i}, rlookup d.regions q = some i →
      q ≠ start := by
    intro q i hq heq
    rw [heq, hstartnone] at hq
    cases hq
  have hold : ∀ {q i}, rlookup d.regions q = some i →
      rlookup d1.regions q = some i := by
    intro q i hq
    rw [hkeyreg q, if_neg (hnbr_not_start hq)]
    exact hq
  have hd1curr : d1.curr_region = d.curr_region + 1 := rfl
  refine ⟨⟨WF_set hm.wf _ _, borderWall_set_interior hm.wf hint _ hm.border,
    by rw [hd1curr]; have := hm.currGe; omega, ?_, ?_, ?_, ?_, ?_, ?_⟩,
    by rw [hkeyreg, if_pos rfl]⟩
  · -- openReg
    intro p hpin
    have hpin' : InBoundsP d.stage p := hpin
    rw [hkeyreg p]
    constructor
    · intro hop
      by_cases hps : p = start
      · exact ⟨d.curr_region + 1, by rw [if_pos hps]⟩
      · rw [if_neg hps]
        obtain ⟨t, hg, ht⟩ := hop
        rw [hkeyget p hpin', if_neg hps] at hg
        exact (hm.openReg p hpin').mp ⟨t, hg, ht⟩
    · rintro ⟨i, hii⟩
      by_cases hps : p = start
      · refine ⟨Tile.Floor, ?_, by decide⟩
        rw [hkeyget p hpin', if_pos hps]
      · rw [if_neg hps] at hii
        obtain ⟨t, hg, ht⟩ := (hm.openReg p hpin').mpr ⟨i, hii⟩
        refine ⟨t, ?_, ht⟩
        rw [hkeyget p hpin', if_neg hps]
        exact hg
  · -- regL
    intro p i hpx hpy hp
    have hps : p ≠ start := by
      intro heq
      subst heq
      obtain ⟨h1, -⟩ := hodd
      omega
    rw [hkeyreg p, if_neg hps] at hp
    obtain ⟨hL1, hL2⟩ := hm.regL p i hpx hpy hp
    exact ⟨hold hL1, hold hL2⟩
  · -- regV
    intro p i hpx hpy hp
    have hps : p ≠ start := by
      intro heq
      subst heq
      obtain ⟨-, h1⟩ := hodd
      omega
    rw [hkeyreg p, if_neg hps] at hp
    obtain ⟨hL1, hL2⟩ := hm.regV p i hpx hpy hp
    exact ⟨hold hL1, hold hL2⟩
  · -- regE
    intro p i hpx hpy hp dir hdir
    have hps : p ≠ start := by
      intro heq
      subst heq
      obtain ⟨h1, -⟩ := hodd
      omega
    rw [hkeyreg p, if_neg hps] at hp
    exact hold (hm.regE p i hpx hpy hp dir hdir)
  · -- regWF
    intro p i hp
    rw [hkeyreg p] at hp
    by_cases hps : p = start
    · rw [if_pos hps] at hp
      cases hp
      subst hps
      refine ⟨hint, ?_, by rw [hd1curr]⟩
      have := hm.currGe
      omega
    · rw [if_neg hps] at hp
      obtain ⟨h1, h2, h3⟩ := hm.regWF p i hp
      exact ⟨h1, h2, by rw [hd1curr]; omega⟩
  · -- regConn
    intro p q i hp hq
    rw [hkeyreg p] at hp
    rw [hkeyreg q] at hq
    by_cases hps : p = start <;> by_cases hqs : q = start
    · subst hps
      subst hqs
      exact Relation.ReflTransGen.refl
    · exfalso
      rw [if_pos hps] at hp
      cases hp
      rw [if_neg hqs] at hq
      have := (hm.regWF q _ hq).2.2
      omega
    · exfalso
      rw [if_pos hqs] at hq
      cases hq
      rw [if_neg hps] at hp
      have := (hm.regWF p _ hp).2.2
      omega
    · rw [if_neg hps] at hp
      rw [if_neg hqs] at hq
      exact conn_mono hOM (hm.regConn p q i hp hq)

/-- Carving one maze link (the intermediate cell and the destination,
both under the current region) preserves the invariant. -/
theorem carve2_minv {d : DState} {cell dir : Vector}
    (hm : MazeInv d)
    (hcellreg : rlookup d.regions cell = some d.curr_region)
    (hcodd : OddCell cell) (hmem : dir ∈ CARDINALS)
    (hwall : d.getTile (cell + dir * (2 : Int)) = some Tile.Wall)
    (h3 : InBoundsP d.stage (cell + dir * (3 : Int))) :
    MazeInv ((d.carve (cell + dir) Tile.Floor).carve
      (cell + dir * (2 : Int)) Tile.Floor) ∧
      (∀ q, rlookup ((d.carve (cell + dir) Tile.Floor).carve
          (cell + dir * (2 : Int)) Tile.Floor).regions q =
        if q = cell + dir * (2 : Int) then some d.curr_region
        else if q = cell + dir then some d.curr_region
        else rlookup d.regions q) := by
  obtain ⟨hcx, hcy⟩ := hcodd
  have hdc : (dir.x = 0 ∧ dir.y = -1) ∨ (dir.x = 1 ∧ dir.y = 0) ∨
      (dir.x = 0 ∧ dir.y = 1) ∨ (dir.x = -1 ∧ dir.y = 0) := by
    simp only [CARDINALS, List.mem_cons, List.not_mem_nil, or_false] at hmem
    rcases hmem with rfl | rfl | rfl | rfl
    · exact Or.inl ⟨rfl, rfl⟩
    · exact Or.inr (Or.inl ⟨rfl, rfl⟩)
    · exact Or.inr (Or.inr (Or.inl ⟨rfl, rfl⟩))
    · exact Or.inr (Or.inr (Or.inr ⟨rfl, rfl⟩))
  have hcellint : InteriorP d.stage cell := (hm.regWF cell _ hcellreg).1
  have hcurr0 : 0 ≤ d.curr_region := (hm.regWF cell _ hcellreg).2.1
  set mid : Vector := cell + dir with hmiddef
  set dest : Vector := cell + dir * (2 : Int) with hdestdef
  have hmidx : mid.x = cell.x + dir.x := vadd_x cell dir
  have hmidy : mid.y = cell.y + dir.y := vadd_y cell dir
  have hdestx : dest.x = cell.x + dir.x * 2 := by
    rw [hdestdef, vadd_x, vmul_x]
  have hdesty : dest.y = cell.y + dir.y * 2 := by
    rw [hdestdef, vadd_y, vmul_y]
  obtain ⟨hmidint, hdestint⟩ := interior_carve_targets hcellint hmem h3
  have hmidin : InBoundsP d.stage mid := inBounds_of_interior hmidint
  have hdestin : InBoundsP d.stage dest := inBounds_of_interior hdestint
  have hne_md : mid ≠ dest := by
    intro heq
    have hx := congrArg Vector.x heq
    have hy := congrArg Vector.y heq
    rw [hmidx, hdestx] at hx
    rw [hmidy, hdesty] at hy
    rcases hdc with ⟨h1, h2⟩ | ⟨h1, h2⟩ | ⟨h1, h2⟩ | ⟨h1, h2⟩ <;> omega
  have hne_cm : cell ≠ mid := by
    intro heq
    have hx := congrArg Vector.x heq
    have hy := congrArg Vector.y heq
    rw [hmidx] at hx
    rw [hmidy] at hy
    rcases hdc with ⟨h1, h2⟩ | ⟨h1, h2⟩ | ⟨h1, h2⟩ | ⟨h1, h2⟩ <;> omega
  have hne_cd : cell ≠ dest := by
    intro heq
    have hx := congrArg Vector.x heq
    have hy := congrArg Vector.y heq
    rw [hdestx] at hx
    rw [hdesty] at hy
    rcases hdc with ⟨h1, h2⟩ | ⟨h1, h2⟩ | ⟨h1, h2⟩ | ⟨h1, h2⟩ <;> omega
  have hdestodd : OddCell dest := by
    refine ⟨?_, ?_⟩
    · rw [hdestx]; omega
    · rw [hdesty]; omega
  have hdestnone : rlookup d.regions dest = none := by
    cases hl : rlookup d.regions dest with
    | none => rfl
    | some i =>
      obtain ⟨t, hg, ht⟩ := (hm.openReg dest hdestin).mpr ⟨i, hl⟩
      rw [show d.stage.get dest = some Tile.Wall from hwall] at hg
      cases hg
      exact absurd rfl ht
  have hmid_east : dir.x = 1 → mid + ⟨1, 0⟩ = dest := by
    intro h1
    refine Vector.eq_of ?_ ?_
    · rw [vadd_lit_x, hmidx, hdestx]; omega
    · rw [vadd_lit_y, hmidy, hdesty]; omega
  have hmid_west : dir.x = -1 → mid + ⟨-1, 0⟩ = dest := by
    intro h1
    refine Vector.eq_of ?_ ?_
    · rw [vadd_lit_x, hmidx, hdestx]; omega
    · rw [vadd_lit_y, hmidy, hdesty]; omega
  have hmid_south : dir.y = 1 → mid + ⟨0, 1⟩ = dest := by
    intro h1
    refine Vector.eq_of ?_ ?_
    · rw [vadd_lit_x, hmidx, hdestx]; omega
    · rw [vadd_lit_y, hmidy, hdesty]; omega
  have hmid_north : dir.y = -1 → mid + ⟨0, -1⟩ = dest := by
    intro h1
    refine Vector.eq_of ?_ ?_
    · rw [vadd_lit_x, hmidx, hdestx]; omega
    · rw [vadd_lit_y, hmidy, hdesty]; omega
  have hmid_back_east : dir.x = 1 → mid + ⟨-1, 0⟩ = cell := by
    intro h1
    refine Vector.eq_of ?_ ?_
    · rw [vadd_lit_x, hmidx]; omega
    · rw [vadd_lit_y, hmidy]; omega
  have hmid_back_west : dir.x = -1 → mid + ⟨1, 0⟩ = cell := by
    intro h1
    refine Vector.eq_of ?_ ?_
    · rw [vadd_lit_x, hmidx]; omega
    · rw [vadd_lit_y, hmidy]; omega
  have hmid_back_south : dir.y = 1 → mid + ⟨0, -1⟩ = cell := by
    intro h1
    refine Vector.eq_of ?_ ?_
    · rw [vadd_lit_x, hmidx]; omega
    · rw [vadd_lit_y, hmidy]; omega
  have hmid_back_north : dir.y = -1 → mid + ⟨0, 1⟩ = cell := by
    intro h1
    refine Vector.eq_of ?_ ?_
    · rw [vadd_lit_x, hmidx]; omega
    · rw [vadd_lit_y, hmidy]; omega
  have hmidnone : rlookup d.regions mid = none := by
    cases hl : rlookup d.regions mid with
    | none => rfl
    | some j =>
      exfalso
      rcases hdc with ⟨h1, h2⟩ | ⟨h1, h2⟩ | ⟨h1, h2⟩ | ⟨h1, h2⟩
      · have := (hm.regV mid j (by rw [hmidx]; omega)
          (by rw [hmidy]; omega) hl).1
        rw [hmid_north h2, hdestnone] at this
        cases this
      · have := (hm.regL mid j (by rw [hmidx]; omega)
          (by rw [hmidy]; omega) hl).2
        rw [hmid_east h1, hdestnone] at this
        cases this
      · have := (hm.regV mid j (by rw [hmidx]; omega)
          (by rw [hmidy]; omega) hl).2
        rw [hmid_south h2, hdestnone] at this
        cases this
      · have := (hm.regL mid j (by rw [hmidx]; omega)
          (by rw [hmidy]; omega) hl).1
        rw [hmid_west h1, hdestnone] at this
        cases this
  set d2 : DState := (d.carve mid Tile.Floor).carve dest Tile.Floor
    with hd2
  have hd2curr : d2.curr_region = d.curr_region := rfl
  have hkeyreg : ∀ q, rlookup d2.regions q =
      if q = dest then some d.curr_region
      else if q = mid then some d.curr_region
      else rlookup d.regions q := by
    intro q
    by_cases hqd : q = dest
    · subst hqd
      rw [if_pos rfl]
      exact rlookup_rinsert_self _ _ _
    · rw [if_neg hqd]
      have h1 : rlookup d2.regions q =
          rlookup (d.carve mid Tile.Floor).regions q :=
        rlookup_rinsert_ne hqd
      rw [h1]
      by_cases hqm : q = mid
      · subst hqm
        rw [if_pos rfl]
        exact rlookup_rinsert_self _ _ _
      · rw [if_neg hqm]
        exact rlookup_rinsert_ne hqm
  have hstage1 : (d.carve mid Tile.Floor).stage = d.stage.set mid Tile.Floor :=
    rfl
  have hd2stage : d2.stage = (d.stage.set mid Tile.Floor).set dest Tile.Floor :=
    rfl
  have hwf1 : (d.stage.set mid Tile.Floor).WF := WF_set hm.wf _ _
  have hwf2 : d2.stage.WF := by
    rw [hd2stage]
    exact WF_set hwf1 _ _
  have hkeyget : ∀ q, InBoundsP d.stage q → d2.stage.get q =
      if q = dest then some Tile.Floor
      else if q = mid then some Tile.Floor
      else d.stage.get q := by
    intro q hq
    rw [hd2stage]
    by_cases hqd : q = dest
    · subst hqd
      rw [if_pos rfl]
      exact get_set_self _ (flatIdx_lt_length hwf1 hdestin)
    · rw [if_neg hqd, get_set_other hwf1 _ hdestin hq hqd]
      by_cases hqm : q = mid
      · subst hqm
        rw [if_pos rfl]
        exact get_set_self _ (flatIdx_lt_length hm.wf hmidin)
      · rw [if_neg hqm]
        exact get_set_other hm.wf _ hmidin hq hqm
  have hOM : OpenMono d.stage d2.stage := by
    rw [hd2stage]
    exact openMono_trans (openMono_set mid (by decide)) (openMono_set dest (by decide))
  have hnot_md : ∀ {q i}, rlookup d.regions q = some i →
      q ≠ mid ∧ q ≠ dest := by
    intro q i hq
    constructor
    · intro heq
      rw [heq, hmidnone] at hq
      cases hq
    · intro heq
      rw [heq, hdestnone] at hq
      cases hq
  have hold : ∀ {q i}, rlookup d.regions q = some i →
      rlookup d2.regions q = some i := by
    intro q i hq
    obtain ⟨h1, h2⟩ := hnot_md hq
    rw [hkeyreg q, if_neg h2, if_neg h1]
    exact hq
  have hmidreg : rlookup d2.regions mid = some d.curr_region := by
    rw [hkeyreg mid, if_neg hne_md, if_pos rfl]
  have hdestreg : rlookup d2.regions dest = some d.curr_region := by
    rw [hkeyreg dest, if_pos rfl]
  have hcellreg2 : rlookup d2.regions cell = some d.curr_region := hold
    hcellreg
  have hcellpass : Passable d2.stage cell := by
    refine ⟨inBounds_of_interior hcellint, ?_⟩
    refine hOM.2.2 cell ?_
    exact (hm.openReg cell (inBounds_of_interior hcellint)).mpr
      ⟨_, hcellreg⟩
  have hmidpass : Passable d2.stage mid := by
    refine ⟨hmidin, Tile.Floor, ?_, by decide⟩
    rw [hkeyget mid hmidin, if_neg hne_md, if_pos rfl]
  have hdestpass : Passable d2.stage dest := by
    refine ⟨hdestin, Tile.Floor, ?_, by decide⟩
    rw [hkeyget dest hdestin, if_pos rfl]
  have hadj_cm : Adj d2.stage cell mid := adj_of_dir hmem hcellpass hmidpass
  have hadj_md : Adj d2.stage mid dest := by
    have hmd : mid + dir = dest := by
      refine Vector.eq_of ?_ ?_
      · rw [vadd_x, hmidx, hdestx]; ring
      · rw [vadd_y, hmidy, hdesty]; ring
    have := adj_of_dir hmem hmidpass (by rw [hmd]; exact hdestpass)
    rw [hmd] at this
    exact this
  have hconn_to_cell : ∀ a, rlookup d2.regions a = some d.curr_region →
      Conn d2.stage a cell := by
    intro a ha
    by_cases had : a = dest
    · subst had
      exact conn_symm
        (Relation.ReflTransGen.tail (conn_adj hadj_cm) hadj_md)
    · by_cases ham : a = mid
      · subst ham
        exact conn_symm (conn_adj hadj_cm)
      · rw [hkeyreg a, if_neg had, if_neg ham] at ha
        exact conn_mono hOM (hm.regConn a cell _ ha hcellreg)
  have hmid_parity : (mid.x % 2 = 0 ∧ mid.y % 2 = 1) ∨
      (mid.x % 2 = 1 ∧ mid.y % 2 = 0) := by
    rcases hdc with ⟨h1, h2⟩ | ⟨h1, h2⟩ | ⟨h1, h2⟩ | ⟨h1, h2⟩
    · exact Or.inr ⟨by rw [hmidx]; omega, by rw [hmidy]; omega⟩
    · exact Or.inl ⟨by rw [hmidx]; omega, by rw [hmidy]; omega⟩
    · exact Or.inr ⟨by rw [hmidx]; omega, by rw [hmidy]; omega⟩
    · exact Or.inl ⟨by rw [hmidx]; omega, by rw [hmidy]; omega⟩
  refine ⟨⟨hwf2, ?_, by rw [hd2curr]; exact hm.currGe, ?_, ?_, ?_, ?_, ?_,
    ?_⟩, hkeyreg⟩
  · -- border
    rw [hd2stage]
    exact borderWall_set_interior hwf1 hdestint _
      (borderWall_set_interior hm.wf hmidint _ hm.border)
  · -- openReg
    intro p hpin
    have hpin' : InBoundsP d.stage p := hpin
    rw [hkeyreg p]
    constructor
    · intro hop
      by_cases hpd : p = dest
      · exact ⟨d.curr_region, by rw [if_pos hpd]⟩
      · by_cases hpm : p = mid
        · exact ⟨d.curr_region, by rw [if_neg hpd, if_pos hpm]⟩
        · rw [if_neg hpd, if_neg hpm]
          obtain ⟨t, hg, ht⟩ := hop
          rw [hkeyget p hpin', if_neg hpd, if_neg hpm] at hg
          exact (hm.openReg p hpin').mp ⟨t, hg, ht⟩
    · rintro ⟨i, hii⟩
      by_cases hpd : p = dest
      · refine ⟨Tile.Floor, ?_, by decide⟩
        rw [hkeyget p hpin', if_pos hpd]
      · by_cases hpm : p = mid
        · refine ⟨Tile.Floor, ?_, by decide⟩
          rw [hkeyget p hpin', if_neg hpd, if_pos hpm]
        · rw [if_neg hpd, if_neg hpm] at hii
          obtain ⟨t, hg, ht⟩ := (hm.openReg p hpin').mpr ⟨i, hii⟩
          refine ⟨t, ?_, ht⟩
          rw [hkeyget p hpin', if_neg hpd, if_neg hpm]
          exact hg
  · -- regL
    intro p i hpx hpy hp
    rw [hkeyreg p] at hp
    by_cases hpd : p = dest
    · exfalso
      subst hpd
      obtain ⟨h1, -⟩ := hdestodd
      omega
    · by_cases hpm : p = mid
      · subst hpm
        rw [if_neg hpd, if_pos rfl] at hp
        cases hp
        rcases hdc with ⟨h1, h2⟩ | ⟨h1, h2⟩ | ⟨h1, h2⟩ | ⟨h1, h2⟩
        · exfalso
          rw [hmidx] at hpx
          omega
        · rw [hmid_east h1, hmid_back_east h1]
          exact ⟨hcellreg2, hdestreg⟩
        · exfalso
          rw [hmidx] at hpx
          omega
        · rw [hmid_west h1, hmid_back_west h1]
          exact ⟨hdestreg, hcellreg2⟩
      · rw [if_neg hpd, if_neg hpm] at hp
        obtain ⟨hL1, hL2⟩ := hm.regL p i hpx hpy hp
        exact ⟨hold hL1, hold hL2⟩
  · -- regV
    intro p i hpx hpy hp
    rw [hkeyreg p] at hp
    by_cases hpd : p = dest
    · exfalso
      subst hpd
      obtain ⟨h1, -⟩ := hdestodd
      omega
    · by_cases hpm : p = mid
      · subst hpm
        rw [if_neg hpd, if_pos rfl] at hp
        cases hp
        rcases hdc with ⟨h1, h2⟩ | ⟨h1, h2⟩ | ⟨h1, h2⟩ | ⟨h1, h2⟩
        · rw [hmid_north h2, hmid_back_north h2]
          exact ⟨hdestreg, hcellreg2⟩
        · exfalso
          rw [hmidx] at hpx
          omega
        · rw [hmid_south h2, hmid_back_south h2]
          exact ⟨hcellreg2, hdestreg⟩
        · exfalso
          rw [hmidx] at hpx
          omega
      · rw [if_neg hpd, if_neg hpm] at hp
        obtain ⟨hL1, hL2⟩ := hm.regV p i hpx hpy hp
        exact ⟨hold hL1, hold hL2⟩
  · -- regE
    intro p i hpx hpy hp dir' hdir'
    rw [hkeyreg p] at hp
    by_cases hpd : p = dest
    · exfalso
      subst hpd
      obtain ⟨h1, -⟩ := hdestodd
      omega
    · by_cases hpm : p = mid
      · exfalso
        subst hpm
        rcases hmid_parity with ⟨h1, h2⟩ | ⟨h1, h2⟩ <;> omega
      · rw [if_neg hpd, if_neg hpm] at hp
        exact hold (hm.regE p i hpx hpy hp dir' hdir')
  · -- regWF
    intro p i hp
    rw [hkeyreg p] at hp
    by_cases hpd : p = dest
    · rw [if_pos hpd] at hp
      cases hp
      subst hpd
      exact ⟨hdestint, hcurr0, by rw [hd2curr]⟩
    · by_cases hpm : p = mid
      · rw [if_neg hpd, if_pos hpm] at hp
        cases hp
        subst hpm
        exact ⟨hmidint, hcurr0, by rw [hd2curr]⟩
      · rw [if_neg hpd, if_neg hpm] at hp
        obtain ⟨h1, h2, h3⟩ := hm.regWF p i hp
        exact ⟨h1, h2, by rw [hd2curr]; omega⟩
  · -- regConn
    intro p q i hp hq
    by_cases hic : i = d.curr_region
    · subst hic
      exact (hconn_to_cell p hp).trans (conn_symm (hconn_to_cell q hq))
    · have hpo : rlookup d.regions p = some i := by
        rw [hkeyreg p] at hp
        by_cases hpd : p = dest
        · rw [if_pos hpd] at hp
          cases hp
          exact absurd rfl hic
        · by_cases hpm : p = mid
          · rw [if_neg hpd, if_pos hpm] at hp
            cases hp
            exact absurd rfl hic
          · rw [if_neg hpd, if_neg hpm] at hp
            exact hp
      have hqo : rlookup d.regions q = some i := by
        rw [hkeyreg q] at hq
        by_cases hqd : q = dest
        · rw [if_pos hqd] at hq
          cases hq
          exact absurd rfl hic
        · by_cases hqm : q = mid
          · rw [if_neg hqd, if_pos hqm] at hq
            cases hq
            exact absurd rfl hic
          · rw [if_neg hqd, if_neg hqm] at hq
            exact hq
      exact conn_mono hOM (hm.regConn p q i hpo hqo)

theorem growStep_minv {d : DState} {r : Rng} {cells : List Vector}
    {lastDir : Vector} {d' : DState} {r' : Rng} {cells' : List Vector}
    {last' : Vector} (hm : MazeInv d) (hst : StackInv d cells)
    (h : growStep d r cells lastDir = some (GrowRes.cont d' r' cells' last')) :
    MazeInv d' ∧ StackInv d' cells' := by
  cases cells with
  | nil => exact absurd h (by simp [growStep])
  | cons cell rest =>
    rw [growStep] at h
    cases hcd : carvableDirs d cell CARDINALS with
    | none => rw [hcd] at h; exact absurd h (by simp)
    | some unmade =>
      rw [hcd, Option.some_bind] at h
      split at h
      · simp only [Option.some.injEq, GrowRes.cont.injEq] at h
        obtain ⟨hd, -, hc, -⟩ := h
        subst hc
        rw [← hd]
        exact ⟨hm, fun c hc => hst c (List.mem_cons_of_mem _ hc)⟩
      · cases hch : chooseDir r unmade lastDir with
        | none => rw [hch] at h; exact absurd h (by simp)
        | some pr =>
          obtain ⟨dir, r2⟩ := pr
          rw [hch, Option.some_bind] at h
          dsimp only at h
          by_cases hdir : CARDINALS.contains dir = true
          · rw [if_pos hdir] at h
            simp only [Option.some.injEq, GrowRes.cont.injEq] at h
            obtain ⟨hd, -, hc, -⟩ := h
            subst hc
            have hmem : dir ∈ CARDINALS := List.mem_of_elem_eq_true hdir
            obtain ⟨hcreg, hcodd⟩ := hst cell (List.mem_cons_self _ _)
            have hcc : d.canCarve cell dir = some true :=
              (carvableDirs_sound hcd dir (chooseDir_mem hch)).1
            have h3 : InBoundsP d.stage (cell + dir * (3 : Int)) :=
              contains_iff.mp (canCarve_contains hcc)
            obtain ⟨hm2, hchar⟩ := carve2_minv hm hcreg hcodd hmem
              (canCarve_dest_wall hcc) h3
            rw [← hd]
            refine ⟨hm2, ?_⟩
            have hsame : ∀ c, c ∈ cell :: rest →
                rlookup ((d.carve (cell + dir) Tile.Floor).carve
                  (cell + dir * (2 : Int)) Tile.Floor).regions c =
                some d.curr_region := by
              intro c hc
              rw [hchar c]
              by_cases h1 : c = cell + dir * (2 : Int)
              · rw [if_pos h1]
              · rw [if_neg h1]
                by_cases h2 : c = cell + dir
                · rw [if_pos h2]
                · rw [if_neg h2]
                  exact (hst c hc).1
            intro c hc
            rcases List.mem_cons.mp hc with rfl | hc
            · refine ⟨by rw [hchar, if_pos rfl]; rfl, ?_, ?_⟩
              · rw [vadd_x, vmul_x]
                have := hcodd.1
                omega
              · rw [vadd_y, vmul_y]
                have := hcodd.2
                omega
            · exact ⟨hsame c hc, (hst c hc).2⟩
          · rw [if_neg hdir] at h
            exact absurd h (by simp)

theorem growMazeLoop_minv :
    ∀ (fuel : Nat) {d : DState} {r : Rng} {cells : List Vector}
      {lastDir : Vector} {d' : DState} {r' : Rng},
      MazeInv d → StackInv d cells →
      growMazeLoop fuel d r cells lastDir = some (d', r') →
      MazeInv d' := by
  intro fuel
  induction fuel with
  | zero =>
    intro d r cells lastDir d' r' _ _ h
    exact absurd h (by simp [growMazeLoop])
  | succ n ih =>
    intro d r cells lastDir d' r' hm hst h
    rw [growMazeLoop] at h
    cases hs : growStep d r cells lastDir with
    | none => rw [hs] at h; exact absurd h (by simp)
    | some res =>
      rw [hs, Option.some_bind] at h
      cases res with
      | done d2 r2 =>
        simp only [Option.some.injEq, Prod.mk.injEq] at h
        obtain ⟨hd2, -, -⟩ := growStep_done_eq hs
        rw [← h.1, hd2]
        exact hm
      | cont d2 r2 cells2 last2 =>
        obtain ⟨hm2, hst2⟩ := growStep_minv hm hst hs
        exact ih hm2 hst2 h

theorem growMaze_minv {fuel : Nat} {d : DState} {r : Rng} {start : Vector}
    {d' : DState} {r' : Rng} (hm : MazeInv d) (hodd : OddCell start)
    (hint : InteriorP d.stage start)
    (hwall : d.stage.get start = some Tile.Wall)
    (h : growMaze fuel d r start = some (d', r')) : MazeInv d' := by
  unfold growMaze at h
  obtain ⟨hm1, hreg1⟩ := carve_seed_minv hm hodd hint hwall
  refine growMazeLoop_minv fuel hm1 ?_ h
  intro c hc
  simp only [List.mem_singleton] at hc
  subst hc
  exact ⟨hreg1, hodd⟩

theorem mazeFillRow_minv :
    ∀ (Lx : List Int) (fuel : Nat) (y : Int) (acc out : DState × Rng),
      MazeInv acc.1 →
      (∀ x ∈ Lx, InteriorP acc.1.stage ⟨x, y⟩ ∧ x % 2 = 1) →
      y % 2 = 1 →
      (Lx.foldlM
        (fun acc2 x =>
          ((acc2.1.getTile ⟨x, y⟩).bind fun t =>
            if t ≠ Tile.Wall then some acc2
            else growMaze fuel acc2.1 acc2.2 ⟨x, y⟩ :
            Option (DState × Rng)))
        acc) = some out →
      MazeInv out.1 ∧ StagePres acc.1.stage out.1.stage := by
  intro Lx
  induction Lx with
  | nil =>
    intro fuel y acc out hm _ _ h
    replace h : some acc = some out := h
    injection h with h
    rw [← h]
    exact ⟨hm, StagePres.refl _⟩
  | cons a Lx ih =>
    intro fuel y acc out hm hint hy h
    rw [List.foldlM_cons] at h
    cases hfa : ((acc.1.getTile ⟨a, y⟩).bind fun t =>
        if t ≠ Tile.Wall then some acc
        else growMaze fuel acc.1 acc.2 ⟨a, y⟩) with
    | none => rw [hfa] at h; exact absurd h (by simp)
    | some acc2 =>
      rw [hfa] at h
      replace h : List.foldlM _ acc2 Lx = some out := h
      have hstep : MazeInv acc2.1 ∧ StagePres acc.1.stage acc2.1.stage := by
        cases hg : acc.1.getTile ⟨a, y⟩ with
        | none => rw [hg] at hfa; exact absurd hfa (by simp)
        | some t =>
          rw [hg, Option.some_bind] at hfa
          split at hfa
          · simp only [Option.some.injEq] at hfa
            rw [← hfa]
            exact ⟨hm, StagePres.refl _⟩
          · rename_i hnw
            have ht : t = Tile.Wall := by
              by_contra hne
              exact hnw hne
            subst ht
            rcases acc2 with ⟨d2, r2⟩
            refine ⟨growMaze_minv hm
              ⟨(hint a (List.mem_cons_self _ _)).2, hy⟩
              (hint a (List.mem_cons_self _ _)).1 hg hfa, ?_⟩
            exact growMaze_pres (hint a (List.mem_cons_self _ _)).1 hfa
      obtain ⟨hm2, hp1⟩ := hstep
      obtain ⟨hmo, hpo⟩ := ih fuel y acc2 out hm2
        (fun x hx => ⟨interiorP_pres hp1
          (hint x (List.mem_cons_of_mem _ hx)).1,
          (hint x (List.mem_cons_of_mem _ hx)).2⟩) hy h
      exact ⟨hmo, hp1.trans hpo⟩

theorem mazeFillOuter_minv :
    ∀ (Ly : List Int) (fuel : Nat) (Lx : List Int) (acc out : DState × Rng),
      MazeInv acc.1 →
      (∀ y ∈ Ly, ∀ x ∈ Lx, InteriorP acc.1.stage ⟨x, y⟩) →
      (∀ y ∈ Ly, y % 2 = 1) → (∀ x ∈ Lx, x % 2 = 1) →
      (Ly.foldlM
        (fun acc1 y =>
          Lx.foldlM
            (fun acc2 x =>
              ((acc2.1.getTile ⟨x, y⟩).bind fun t =>
                if t ≠ Tile.Wall then some acc2
                else growMaze fuel acc2.1 acc2.2 ⟨x, y⟩ :
                Option (DState × Rng)))
            acc1)
        acc) = some out →
      MazeInv out.1 ∧ StagePres acc.1.stage out.1.stage := by
  intro Ly
  induction Ly with
  | nil =>
    intro fuel Lx acc out hm _ _ _ h
    replace h : some acc = some out := h
    injection h with h
    rw [← h]
    exact ⟨hm, StagePres.refl _⟩
  | cons a Ly ih =>
    intro fuel Lx acc out hm hint hyodd hxodd h
    rw [List.foldlM_cons] at h
    cases hfa : (Lx.foldlM
        (fun acc2 x =>
          ((acc2.1.getTile ⟨x, a⟩).bind fun t =>
            if t ≠ Tile.Wall then some acc2
            else growMaze fuel acc2.1 acc2.2 ⟨x, a⟩ :
            Option (DState × Rng)))
        acc) with
    | none => rw [hfa] at h; exact absurd h (by simp)
    | some acc2 =>
      rw [hfa] at h
      replace h : List.foldlM _ acc2 Ly = some out := h
      obtain ⟨hm2, hp1⟩ := mazeFillRow_minv Lx fuel a acc acc2 hm
        (fun x hx => ⟨hint a (List.mem_cons_self _ _) x hx, hxodd x hx⟩)
        (hyodd a (List.mem_cons_self _ _)) hfa
      obtain ⟨hmo, hpo⟩ := ih fuel Lx acc2 out hm2
        (fun y hy x hx => interiorP_pres hp1
          (hint y (List.mem_cons_of_mem _ hy) x hx))
        (fun y hy => hyodd y (List.mem_cons_of_mem _ hy)) hxodd h
      exact ⟨hmo, hp1.trans hpo⟩

theorem mazeFill_minv {fuel : Nat} {d : DState} {r : Rng} {d' : DState}
    {r' : Rng} (hm : MazeInv d) (hW : d.stage.width % 2 = 1)
    (hH : d.stage.height % 2 = 1) (h : mazeFill fuel d r = some (d', r')) :
    MazeInv d' := by
  refine (mazeFillOuter_minv (oddCoords d.stage.height) fuel
    (oddCoords d.stage.width) (d, r) (d', r') hm ?_ ?_ ?_ h).1
  · intro y hy x hx
    obtain ⟨hy1, hy2, hy3⟩ := mem_oddCoords.mp hy
    obtain ⟨hx1, hx2, hx3⟩ := mem_oddCoords.mp hx
    exact ⟨by show (1 : Int) ≤ x; omega,
      by show x < d.stage.width - 1; omega,
      by show (1 : Int) ≤ y; omega,
      by show y < d.stage.height - 1; omega⟩
  · intro y hy
    exact (mem_oddCoords.mp hy).2.2
  · intro x hx
    exact (mem_oddCoords.mp hx).2.2

/-! ### The connector scan: full characterization of scanned entries -/

/-- What `connect_regions` records for every scanned connector. -/
def CProp (d : DState) (e : Vector × List Int) : Prop :=
  InteriorP d.stage e.1 ∧ d.getTile e.1 = some Tile.Wall ∧
    e.2 = neighborRegions d e.1 ∧ 2 ≤ e.2.length

theorem scanRow_mem {d : DState} :
    ∀ (Lx : List Int) (y : Int) (acc out : List (Vector × List Int)),
      (∀ x ∈ Lx, InteriorP d.stage ⟨x, y⟩) →
      (∀ e ∈ acc, CProp d e) →
      (Lx.foldlM
        (fun acc2 x =>
          ((d.getTile ⟨x, y⟩).map fun t =>
            if t ≠ Tile.Wall then acc2
            else
              if (neighborRegions d ⟨x, y⟩).length < 2 then acc2
              else acc2 ++ [(⟨x, y⟩, neighborRegions d ⟨x, y⟩)] :
            Option (List (Vector × List Int))))
        acc) = some out →
      ∀ e ∈ out, CProp d e := by
  intro Lx
  induction Lx with
  | nil =>
    intro y acc out _ hacc h
    replace h : some acc = some out := h
    injection h with h
    rw [← h]
    exact hacc
  | cons a Lx ih =>
    intro y acc out hint hacc h
    rw [List.foldlM_cons] at h
    cases hg : d.getTile ⟨a, y⟩ with
    | none => rw [hg] at h; exact absurd h (by simp)
    | some t =>
      rw [hg] at h
      replace h : Lx.foldlM _
          (if t ≠ Tile.Wall then acc
           else
             if (neighborRegions d ⟨a, y⟩).length < 2 then acc
             else acc ++ [(⟨a, y⟩, neighborRegions d ⟨a, y⟩)]) = some out := h
      refine ih y _ out (fun x hx => hint x (List.mem_cons_of_mem _ hx)) ?_ h
      split
      · exact hacc
      · rename_i hnw
        split
        · exact hacc
        · rename_i hlen
          intro e he
          rcases List.mem_append.mp he with he | he
          · exact hacc e he
          · simp only [List.mem_singleton] at he
            subst he
            have ht : t = Tile.Wall := by
              by_contra hne
              exact hnw hne
            subst ht
            exact ⟨hint a (List.mem_cons_self _ _), hg, rfl,
              by show 2 ≤ (neighborRegions d ⟨a, y⟩).length; omega⟩

theorem scanOuter_mem {d : DState} :
    ∀ (Ly Lx : List Int) (acc out : List (Vector × List Int)),
      (∀ y ∈ Ly, ∀ x ∈ Lx, InteriorP d.stage ⟨x, y⟩) →
      (∀ e ∈ acc, CProp d e) →
      (Ly.foldlM
        (fun acc1 y =>
          Lx.foldlM
            (fun acc2 x =>
              ((d.getTile ⟨x, y⟩).map fun t =>
                if t ≠ Tile.Wall then acc2
                else
                  if (neighborRegions d ⟨x, y⟩).length < 2 then acc2
                  else acc2 ++ [(⟨x, y⟩, neighborRegions d ⟨x, y⟩)] :
                Option (List (Vector × List Int))))
            acc1)
        acc) = some out →
      ∀ e ∈ out, CProp d e := by
  intro Ly
  induction Ly with
  | nil =>
    intro Lx acc out _ hacc h
    replace h : some acc = some out := h
    injection h with h
    rw [← h]
    exact hacc
  | cons a Ly ih =>
    intro Lx acc out hint hacc h
    rw [List.foldlM_cons] at h
    cases hfa : (Lx.foldlM
        (fun acc2 x =>
          ((d.getTile ⟨x, a⟩).map fun t =>
            if t ≠ Tile.Wall then acc2
            else
              if (neighborRegions d ⟨x, a⟩).length < 2 then acc2
              else acc2 ++ [(⟨x, a⟩, neighborRegions d ⟨x, a⟩)] :
            Option (List (Vector × List Int))))
        acc) with
    | none => rw [hfa] at h; exact absurd h (by simp)
    | some acc2 =>
      rw [hfa] at h
      replace h : Ly.foldlM _ acc2 = some out := h
      exact ih Lx acc2 out
        (fun y hy x hx => hint y (List.mem_cons_of_mem _ hy) x hx)
        (scanRow_mem Lx a acc acc2 (hint a (List.mem_cons_self _ _)) hacc
          hfa) h

theorem scanConnectors_mem {d : DState} {cr : List (Vector × List Int)}
    (h : scanConnectors d = some cr) : ∀ e ∈ cr, CProp d e := by
  refine scanOuter_mem (intRange 1 (d.stage.height - 1))
    (intRange 1 (d.stage.width - 1)) [] cr ?_ (by simp) h
  intro y hy x hx
  have hy' := mem_intRange.mp hy
  have hx' := mem_intRange.mp hx
  exact ⟨by show (1 : Int) ≤ x; omega, by show x < d.stage.width - 1; omega,
    by show (1 : Int) ≤ y; omega, by show y < d.stage.height - 1; omega⟩

/-! ### Junction writes and the retain pass -/

theorem addJunction_char (d : DState) (r : Rng) (pos : Vector) :
    ∃ t r2, addJunction d r pos = (d.setTile pos t, r2) ∧ t ≠ Tile.Wall := by
  unfold addJunction
  rcases genRatio 4 r with ⟨b1, r1⟩
  dsimp only
  split
  · rcases genRatio 3 r1 with ⟨b2, r2⟩
    dsimp only
    by_cases hb2 : b2 = true
    · rw [if_pos hb2]
      exact ⟨Tile.OpenDoor, r2, rfl, by decide⟩
    · rw [if_neg hb2]
      exact ⟨Tile.Floor, r2, rfl, by decide⟩
  · exact ⟨Tile.ClosedDoor, r1, rfl, by decide⟩

/-- Setting a tile at an in-bounds cell of a well-formed stage creates
open cells only at the written position. -/
theorem openCell_set_rev {s : Stage} (hwf : s.WF) {pos q : Vector}
    (hpos : InBoundsP s pos) (hq : InBoundsP s q) {t : Tile}
    (h : OpenCell (s.set pos t) q) : q = pos ∨ OpenCell s q := by
  by_cases hqp : q = pos
  · exact Or.inl hqp
  · right
    obtain ⟨t2, hg, ht2⟩ := h
    rw [get_set_other hwf t hpos hq hqp] at hg
    exact ⟨t2, hg, ht2⟩

theorem setTile_regions (d : DState) (pos : Vector) (t : Tile) :
    (d.setTile pos t).regions = d.regions := rfl

theorem setTile_stage (d : DState) (pos : Vector) (t : Tile) :
    (d.setTile pos t).stage = d.stage.set pos t := rfl

/-- Everything the merge loop needs from one retain-pass step: regions
untouched, the open set only grows, new open cells appear only at the
inspected connector, and kept connectors pass the distinct-class
check. -/
theorem retainStep_facts {connector : Vector} {cr : List (Vector × List Int)}
    {merged : List (Int × Int)} {d : DState} {r : Rng} {pos : Vector}
    {keep : Bool} {d1 : DState} {r1 : Rng}
    (hwf : d.stage.WF) (hip : InteriorP d.stage pos)
    (h : retainStep connector cr merged d r pos = some (keep, d1, r1)) :
    d1.regions = d.regions ∧ OpenMono d.stage d1.stage ∧
      d1.stage.WF ∧
      (∀ q, InBoundsP d.stage q → OpenCell d1.stage q →
        OpenCell d.stage q ∨ q = pos) ∧
      (keep = true → ∃ entry resolved,
        cr.find? (fun e => e.1 == pos) = some entry ∧
        List.mapM (fun reg => mlookup merged reg) entry.2 = some resolved ∧
        1 < resolved.dedup.length) := by
  unfold retainStep at h
  split at h
  · simp only [Option.some.injEq, Prod.mk.injEq] at h
    obtain ⟨hk, hd, -⟩ := h
    rw [← hd]
    exact ⟨rfl, openMono_refl _, hwf, fun q _ hq => Or.inl hq,
      by rw [← hk]; intro hcontra; cases hcontra⟩
  · rw [Option.bind_eq_some] at h
    obtain ⟨resolved, hres, h⟩ := h
    cases hfind : cr.find? (fun e => e.1 == pos) with
    | none => rw [hfind] at hres; exact absurd hres (by simp)
    | some entry =>
      rw [hfind, Option.some_bind] at hres
      split at h
      · rename_i hded
        simp only [Option.some.injEq, Prod.mk.injEq] at h
        obtain ⟨hk, hd, -⟩ := h
        rw [← hd]
        exact ⟨rfl, openMono_refl _, hwf, fun q _ hq => Or.inl hq,
          fun _ => ⟨entry, resolved, rfl, hres, hded⟩⟩
      · rcases hgr : genRatio EXTRA_CONNECTOR_CHANCE r with ⟨roll, r2⟩
        rw [hgr] at h
        dsimp only at h
        split at h
        · rcases haj : addJunction d r2 pos with ⟨dj, rj⟩
          rw [haj] at h
          dsimp only at h
          simp only [Option.some.injEq, Prod.mk.injEq] at h
          obtain ⟨hk, hd, -⟩ := h
          obtain ⟨t, r3, hadj, ht⟩ := addJunction_char d r2 pos
          rw [hadj] at haj
          injection haj with haj1 haj2
          rw [← hd, ← haj1]
          refine ⟨rfl, ?_, ?_, ?_, by rw [← hk]; intro hcontra; cases hcontra⟩
          · rw [setTile_stage]
            exact openMono_set pos ht
          · rw [setTile_stage]
            exact WF_set hwf _ _
          · intro q hq hop
            rw [setTile_stage] at hop
            rcases openCell_set_rev hwf (inBounds_of_interior hip) hq hop
              with h1 | h1
            · exact Or.inr h1
            · exact Or.inl h1
        · simp only [Option.some.injEq, Prod.mk.injEq] at h
          obtain ⟨hk, hd, -⟩ := h
          rw [← hd]
          exact ⟨rfl, openMono_refl _, hwf, fun q _ hq => Or.inl hq,
            by rw [← hk]; intro hcontra; cases hcontra⟩

/-- The retain pass, cumulatively: regions untouched, open set grows,
new open cells only at inspected connectors, kept connectors are a
sub-list passing the distinct-class check, and the stage stays
well-formed with unchanged dimensions. -/
theorem retainConnectors_facts {connector : Vector}
    {cr : List (Vector × List Int)} {merged : List (Int × Int)} :
    ∀ (lst : List Vector) (d : DState) (r : Rng)
      (out : List Vector × DState × Rng),
      d.stage.WF → (∀ pos ∈ lst, InteriorP d.stage pos) →
      retainConnectors connector cr merged lst d r = some out →
      out.2.1.regions = d.regions ∧ OpenMono d.stage out.2.1.stage ∧
        out.2.1.stage.WF ∧
        (∀ q, InBoundsP d.stage q → OpenCell out.2.1.stage q →
          OpenCell d.stage q ∨ q ∈ lst) ∧
        (∀ pos ∈ out.1, pos ∈ lst ∧ ∃ entry resolved,
          cr.find? (fun e => e.1 == pos) = some entry ∧
          List.mapM (fun reg => mlookup merged reg) entry.2 = some resolved ∧
          1 < resolved.dedup.length) := by
  intro lst
  induction lst with
  | nil =>
    intro d r out hwf _ h
    replace h : some ([], d, r) = some out := h
    injection h with h
    rw [← h]
    exact ⟨rfl, openMono_refl _, hwf, fun q _ hq => Or.inl hq,
      fun pos hpos => absurd hpos (by simp)⟩
  | cons a lst ih =>
    intro d r out hwf hint h
    rw [retainConnectors] at h
    rw [Option.bind_eq_some] at h
    obtain ⟨⟨keep, d1, r1⟩, hstep, h⟩ := h
    rw [Option.map_eq_some'] at h
    obtain ⟨⟨l2, d2, r2⟩, hrest, hout⟩ := h
    obtain ⟨hreg1, hom1, hwf1, hnew1, hkeep1⟩ :=
      retainStep_facts hwf (hint a (List.mem_cons_self _ _)) hstep
    have hint1 : ∀ pos ∈ lst, InteriorP d1.stage pos := by
      intro pos hpos
      unfold InteriorP
      rw [hom1.1, hom1.2.1]
      exact hint pos (List.mem_cons_of_mem _ hpos)
    obtain ⟨hreg2, hom2, hwf2, hnew2, hkeep2⟩ := ih d1 r1 (l2, d2, r2) hwf1
      hint1 hrest
    rw [← hout]
    dsimp only
    refine ⟨hreg2.trans hreg1, openMono_trans hom1 hom2, hwf2, ?_, ?_⟩
    · intro q hq hop
      have hq1 : InBoundsP d1.stage q := by
        unfold InBoundsP
        rw [hom1.1, hom1.2.1]
        exact hq
      rcases hnew2 q hq1 hop with h1 | h1
      · rcases hnew1 q hq h1 with h2 | h2
        · exact Or.inl h2
        · exact Or.inr (by rw [h2]; exact List.mem_cons_self _ _)
      · exact Or.inr (List.mem_cons_of_mem _ h1)
    · intro pos hpos
      by_cases hkeepb : keep = true
      · rw [if_pos hkeepb] at hpos
        rcases List.mem_cons.mp hpos with rfl | hpos
        · exact ⟨List.mem_cons_self _ _, hkeep1 hkeepb⟩
        · obtain ⟨h1, h2⟩ := hkeep2 pos hpos
          exact ⟨List.mem_cons_of_mem _ h1, h2⟩
      · rw [if_neg hkeepb] at hpos
        obtain ⟨h1, h2⟩ := hkeep2 pos hpos
        exact ⟨List.mem_cons_of_mem _ h1, h2⟩

/-! ### Small list utilities for the merge loop -/

theorem exists_pair_of_length_two {l : List Int} (h : l.length = 2) :
    ∃ a b, l = [a, b] := by
  match l, h with
  | [a, b], _ => exact ⟨a, b, rfl⟩

theorem dedup_pair_ne {a b : Int} (h : 1 < ([a, b] : List Int).dedup.length) :
    a ≠ b := by
  intro heq
  subst heq
  rw [List.dedup_cons_of_mem (by simp)] at h
  simp at h

theorem mapM_pair {f : Int → Option Int} {a b : Int} {res : List Int}
    (h : List.mapM f [a, b] = some res) :
    ∃ ma mb, f a = some ma ∧ f b = some mb ∧ res = [ma, mb] := by
  cases hfa : f a with
  | none => rw [List.mapM_cons, hfa] at h; exact absurd h (by simp)
  | some ma =>
    cases hfb : f b with
    | none =>
      rw [List.mapM_cons, hfa, List.mapM_cons, hfb] at h
      exact absurd h (by simp)
    | some mb =>
      rw [List.mapM_cons, hfa, List.mapM_cons, hfb, List.mapM_nil] at h
      simp only [Option.pure_def, Option.bind_eq_bind, Option.some_bind,
        Option.some.injEq] at h
      exact ⟨ma, mb, rfl, rfl, h.symm⟩

theorem mem_eq_of_length_le_one {l : List Int} (h : l.length ≤ 1)
    {a b : Int} (ha : a ∈ l) (hb : b ∈ l) : a = b := by
  match l, h with
  | [], _ => exact absurd ha (by simp)
  | [x], _ =>
    rw [List.mem_singleton] at ha hb
    rw [ha, hb]

theorem contains_singleton_iff {a v : Int} :
    (([a] : List Int).contains v = true) ↔ v = a := by
  constructor
  · intro h
    have := List.mem_of_elem_eq_true h
    simpa using this
  · intro h
    subst h
    exact List.elem_eq_true_of_mem (by simp)

theorem dedup_pair_ne_gt {a b : Int} (h : a ≠ b) :
    1 < ([a, b] : List Int).dedup.length := by
  rw [show ([a, b] : List Int).dedup = [a, b] from by
    rw [List.dedup_cons_of_not_mem (by simp [h]),
      List.dedup_cons_of_not_mem (by simp), List.dedup_nil]]
  simp

/-! ### The merge loop invariant of `connect_regions` -/

/-- The state of the merging while loop: the region map `R` is frozen,
every region value resolves through `merged` into the open list, cells
whose regions resolve alike are connected, every open cell is a region
cell or touches one, and every candidate connector is a scanned
connector whose regions resolve to at least two distinct classes. -/
structure CInv (cr : List (Vector × List Int)) (curr : Int)
    (R : List (Vector × Int)) (W H : Int) (connectors : List Vector)
    (merged : List (Int × Int)) (opens : List Int) (d : DState) : Prop where
  wf : d.stage.WF
  hreg : d.regions = R
  hW : d.stage.width = W
  hH : d.stage.height = H
  regInt : ∀ p i, rlookup R p = some i → InteriorP d.stage p
  regRange : ∀ p i, rlookup R p = some i → 0 ≤ i ∧ i ≤ curr
  regOpen : ∀ p i, rlookup R p = some i → OpenCell d.stage p
  res : ∀ p i, rlookup R p = some i →
    ∃ v, mlookup merged i = some v ∧ v ∈ opens
  conn : ∀ p q i j v, rlookup R p = some i → rlookup R q = some j →
    mlookup merged i = some v → mlookup merged j = some v →
    Conn d.stage p q
  junc : ∀ p, InBoundsP d.stage p → OpenCell d.stage p →
    (∃ i, rlookup R p = some i) ∨
      ∃ dir, dir ∈ CARDINALS ∧ ∃ i, rlookup R (p + dir) = some i
  cand : ∀ pos ∈ connectors, ∃ regs, (pos, regs) ∈ cr
  candRes : ∀ pos ∈ connectors, ∀ entry,
    cr.find? (fun e => e.1 == pos) = some entry →
    ∀ resolved,
      List.mapM (fun reg => mlookup merged reg) entry.2 = some resolved →
      1 < resolved.dedup.length

/-- At loop exit (at most one open class) all passable cells are
mutually connected. -/
theorem cinv_exit {cr : List (Vector × List Int)} {curr : Int}
    {R : List (Vector × Int)} {W H : Int} {connectors : List Vector}
    {merged : List (Int × Int)} {opens : List Int} {d : DState}
    (hinv : CInv cr curr R W H connectors merged opens d)
    (hlen : opens.length ≤ 1) :
    ∀ p q, Passable d.stage p → Passable d.stage q → Conn d.stage p q := by
  have haux : ∀ p, Passable d.stage p →
      ∃ a i, rlookup R a = some i ∧ Conn d.stage p a := by
    intro p hp
    rcases hinv.junc p hp.1 hp.2 with ⟨i, hi⟩ | ⟨dir, hdir, i, hi⟩
    · exact ⟨p, i, hi, Relation.ReflTransGen.refl⟩
    · refine ⟨p + dir, i, hi, conn_adj (adj_of_dir hdir hp ?_)⟩
      exact ⟨inBounds_of_interior (hinv.regInt _ i hi), hinv.regOpen _ i hi⟩
  intro p q hp hq
  obtain ⟨a, i, hai, hpa⟩ := haux p hp
  obtain ⟨b, j, hbj, hqb⟩ := haux q hq
  obtain ⟨vi, hvi, hvio⟩ := hinv.res a i hai
  obtain ⟨vj, hvj, hvjo⟩ := hinv.res b j hbj
  have hv : vi = vj := mem_eq_of_length_le_one hlen hvio hvjo
  have hab : Conn d.stage a b :=
    hinv.conn a b i j vi hai hbj hvi (by rw [hv]; exact hvj)
  exact (hpa.trans hab).trans (conn_symm hqb)

/-- The merging while loop of `connect_regions` ends (when it ends) with
all passable cells of the stage mutually connected. -/
theorem connectLoop_conn {cr : List (Vector × List Int)} {curr : Int}
    {R : List (Vector × Int)} {W H : Int}
    (hcrOK : ∀ e ∈ cr, e.2.Nodup ∧ 2 ≤ e.2.length ∧ e.2.length ≤ 2 ∧
      ∀ reg ∈ e.2, ∃ dir, dir ∈ CARDINALS ∧
        rlookup R (e.1 + dir) = some reg)
    (hcrInt : ∀ e ∈ cr, 1 ≤ e.1.x ∧ e.1.x < W - 1 ∧ 1 ≤ e.1.y ∧
      e.1.y < H - 1) :
    ∀ (fuel : Nat) {connectors : List Vector} {merged : List (Int × Int)}
      {opens : List Int} {d : DState} {r : Rng} {d' : DState} {r' : Rng},
      connectLoop cr curr fuel connectors merged opens d r =
        some (d', r') →
      CInv cr curr R W H connectors merged opens d →
      ∀ p q, Passable d'.stage p → Passable d'.stage q →
        Conn d'.stage p q := by
  intro fuel
  induction fuel with
  | zero =>
    intro connectors merged opens d r d' r' h _
    exact absurd h (by simp [connectLoop])
  | succ n ih =>
    intro connectors merged opens d r d' r' h hinv
    rw [connectLoop] at h
    by_cases hop : opens.length ≤ 1
    · rw [if_pos hop] at h
      simp only [Option.some.injEq, Prod.mk.injEq] at h
      obtain ⟨hd, -⟩ := h
      rw [← hd]
      exact cinv_exit hinv hop
    · rw [if_neg hop] at h
      rcases hru : randomUsize r with ⟨u, r1⟩
      rw [hru] at h
      dsimp only at h
      by_cases hlen0 : connectors.length = 0
      · rw [if_pos hlen0] at h
        exact absurd h (by simp)
      rw [if_neg hlen0] at h
      set connector : Vector := connectors.getD (u % connectors.length) ⟨0, 0⟩
        with hconndef
      have hconnmem : connector ∈ connectors :=
        getD_mem (Nat.mod_lt _ (by omega))
      rcases haj : addJunction d r1 connector with ⟨d1, r2⟩
      rw [haj] at h
      dsimp only at h
      rw [Option.bind_eq_some] at h
      obtain ⟨resolved, hres, h⟩ := h
      rw [Option.bind_eq_some] at h
      obtain ⟨dest, hdest, h⟩ := h
      rw [Option.bind_eq_some] at h
      obtain ⟨merged1, hmerge, h⟩ := h
      rw [Option.bind_eq_some] at h
      obtain ⟨⟨connectors1, d2, r3⟩, hretain, h⟩ := h
      dsimp only at h
      -- the connector is a scanned entry with exactly two regions
      cases hfind : cr.find? (fun e => e.1 == connector) with
      | none =>
        rw [hfind] at hres
        exact absurd hres (by simp)
      | some entry =>
      rw [hfind, Option.some_bind] at hres
      have hentrymem : entry ∈ cr := List.mem_of_find?_eq_some hfind
      have hentrypos : entry.1 = connector := by
        have := List.find?_some hfind
        simpa using this
      obtain ⟨hnodup, hlen2a, hlen2b, hwit⟩ := hcrOK entry hentrymem
      obtain ⟨ra, rb, hpair⟩ :=
        exists_pair_of_length_two (le_antisymm hlen2b hlen2a)
      rw [hpair] at hres
      obtain ⟨ma, mb, hma, hmb, hresolved⟩ := mapM_pair hres
      subst hresolved
      simp only [List.head?_cons, Option.some.injEq] at hdest
      subst hdest
      have hmamb : ma ≠ mb := by
        refine dedup_pair_ne (hinv.candRes connector hconnmem entry hfind
          [ma, mb] ?_)
        rw [hpair]
        exact hres
      have hrab : ra ≠ rb := by
        have := List.nodup_cons.mp (by rw [← hpair]; exact hnodup)
        intro heq
        exact this.1 (by rw [heq]; exact List.mem_cons_self _ _)
      -- region witnesses next to the connector
      obtain ⟨dira, hdira, hna⟩ := hwit ra (by rw [hpair]; simp)
      obtain ⟨dirb, hdirb, hnb⟩ := hwit rb (by rw [hpair]; simp)
      rw [hentrypos] at hna hnb
      -- resolutions of the two witness regions
      obtain ⟨va, hva, hmao⟩ := hinv.res _ ra hna
      rw [hma] at hva
      injection hva with hva
      subst hva
      obtain ⟨vb, hvb, hmbo⟩ := hinv.res _ rb hnb
      rw [hmb] at hvb
      injection hvb with hvb
      subst hvb
      -- the junction write
      obtain ⟨tj, rj, hadj, htj⟩ := addJunction_char d r1 connector
      rw [hadj] at haj
      injection haj with haj1 haj2
      have hconnint : InteriorP d.stage connector := by
        obtain ⟨c1, c2, c3, c4⟩ := hcrInt entry hentrymem
        rw [hentrypos] at c1 c2 c3 c4
        unfold InteriorP
        rw [hinv.hW, hinv.hH]
        exact ⟨c1, c2, c3, c4⟩
      have hconninb : InBoundsP d.stage connector :=
        inBounds_of_interior hconnint
      have hd1stage : d1.stage = d.stage.set connector tj := by
        rw [← haj1, setTile_stage]
      have hom1 : OpenMono d.stage d1.stage := by
        rw [hd1stage]
        exact openMono_set connector htj
      have hwf1 : d1.stage.WF := by
        rw [hd1stage]
        exact WF_set hinv.wf _ _
      have hd1reg : d1.regions = d.regions := by
        rw [← haj1, setTile_regions]
      have hconnopen1 : OpenCell d1.stage connector := by
        refine ⟨tj, ?_, htj⟩
        rw [hd1stage]
        exact get_set_self _ (flatIdx_lt_length hinv.wf hconninb)
      -- the retain pass
      have hint1 : ∀ pos ∈ connectors, InteriorP d1.stage pos := by
        intro pos hpos
        obtain ⟨regs, hpr⟩ := hinv.cand pos hpos
        obtain ⟨c1, c2, c3, c4⟩ := hcrInt _ hpr
        unfold InteriorP
        rw [hom1.1, hom1.2.1, hinv.hW, hinv.hH]
        exact ⟨c1, c2, c3, c4⟩
      obtain ⟨hreg2, hom2, hwf2, hnew2, hkeep2⟩ :=
        retainConnectors_facts connectors d1 r2 (connectors1, d2, r3) hwf1
          hint1 hretain
      have hom12 : OpenMono d.stage d2.stage := openMono_trans hom1 hom2
      have hinb12 : ∀ q, InBoundsP d2.stage q ↔ InBoundsP d.stage q := by
        intro q
        unfold InBoundsP
        rw [hom12.1, hom12.2.1]
      -- merged1 pointwise
      replace hmerge : (intRange 0 (curr + 1)).foldlM
          (fun m i => (mlookup m i).map fun mi =>
            if ([mb] : List Int).contains mi then minsert m i ma else m)
          merged = some merged1 := hmerge
      have hml := mergeFold_lookup (intRange 0 (curr + 1)) merged merged1
        [mb] ma (intRange_nodup _ _) hmerge
      have hmlval : ∀ i v, mlookup merged i = some v → 0 ≤ i → i ≤ curr →
          mlookup merged1 i = some (if v = mb then ma else v) := by
        intro i v hv h0 h1
        rw [hml i]
        by_cases hvmb : v = mb
        · rw [if_pos ⟨mem_intRange.mpr ⟨h0, by omega⟩,
            v, hv, contains_singleton_iff.mpr hvmb⟩, if_pos hvmb]
        · rw [if_neg ?hc, if_neg hvmb]
          · exact hv
          case hc =>
            rintro ⟨-, v2, hv2, hc2⟩
            rw [hv] at hv2
            injection hv2 with hv2
            subst hv2
            exact hvmb (contains_singleton_iff.mp hc2)
      -- the new invariant bundle
      refine ih h ⟨hwf2, hreg2.trans (hd1reg.trans hinv.hreg),
        hom12.1.trans hinv.hW, hom12.2.1.trans hinv.hH, ?_, hinv.regRange,
        ?_, ?_, ?_, ?_, ?_, ?_⟩
      · -- regInt
        intro p i hp
        have := hinv.regInt p i hp
        unfold InteriorP at this ⊢
        rw [hom12.1, hom12.2.1]
        exact this
      · -- regOpen
        intro p i hp
        exact hom12.2.2 p (hinv.regOpen p i hp)
      · -- res
        intro p i hp
        obtain ⟨v, hv, hvo⟩ := hinv.res p i hp
        obtain ⟨h0, h1⟩ := hinv.regRange p i hp
        refine ⟨if v = mb then ma else v, hmlval i v hv h0 h1, ?_⟩
        show _ ∈ opens.erase mb
        by_cases hvmb : v = mb
        · rw [if_pos hvmb]
          exact (List.mem_erase_of_ne hmamb).mpr hmao
        · rw [if_neg hvmb]
          exact (List.mem_erase_of_ne hvmb).mpr hvo
      · -- conn
        intro p q i j v hp hq hvi hvj
        obtain ⟨vi, hvi0, -⟩ := hinv.res p i hp
        obtain ⟨vj, hvj0, -⟩ := hinv.res q j hq
        obtain ⟨hi0, hi1⟩ := hinv.regRange p i hp
        obtain ⟨hj0, hj1⟩ := hinv.regRange q j hq
        have hvi1 := hmlval i vi hvi0 hi0 hi1
        have hvj1 := hmlval j vj hvj0 hj0 hj1
        rw [hvi] at hvi1
        rw [hvj] at hvj1
        injection hvi1 with hvi1
        injection hvj1 with hvj1
        by_cases hvij : vi = vj
        · exact conn_mono hom12
            (hinv.conn p q i j vi hp hq hvi0 (by rw [hvij]; exact hvj0))
        · -- the two old classes are exactly the merged pair
          have hcases : (vi = mb ∧ vj = ma) ∨ (vj = mb ∧ vi = ma) := by
            by_cases hvimb : vi = mb <;> by_cases hvjmb : vj = mb
            · exact absurd (hvimb.trans hvjmb.symm) hvij
            · rw [if_pos hvimb] at hvi1
              rw [if_neg hvjmb] at hvj1
              exact Or.inl ⟨hvimb, by omega⟩
            · rw [if_neg hvimb] at hvi1
              rw [if_pos hvjmb] at hvj1
              exact Or.inr ⟨hvjmb, by omega⟩
            · rw [if_neg hvimb] at hvi1
              rw [if_neg hvjmb] at hvj1
              exact absurd (by omega : vi = vj) hvij
          -- junction adjacencies
          have hpassconn : Passable d2.stage connector :=
            ⟨(hinb12 connector).mpr hconninb, hom2.2.2 _ hconnopen1⟩
          have hpassna : Passable d2.stage (connector + dira) := by
            refine ⟨(hinb12 _).mpr
              (inBounds_of_interior (hinv.regInt _ ra hna)), ?_⟩
            exact hom12.2.2 _ (hinv.regOpen _ ra hna)
          have hpassnb : Passable d2.stage (connector + dirb) := by
            refine ⟨(hinb12 _).mpr
              (inBounds_of_interior (hinv.regInt _ rb hnb)), ?_⟩
            exact hom12.2.2 _ (hinv.regOpen _ rb hnb)
          have hadja : Adj d2.stage connector (connector + dira) :=
            adj_of_dir hdira hpassconn hpassna
          have hadjb : Adj d2.stage connector (connector + dirb) :=
            adj_of_dir hdirb hpassconn hpassnb
          have hchain : ∀ p2 q2 i2 j2, rlookup R p2 = some i2 →
              rlookup R q2 = some j2 → mlookup merged i2 = some mb →
              mlookup merged j2 = some ma → Conn d2.stage p2 q2 := by
            intro p2 q2 i2 j2 hp2 hq2 hmi2 hmj2
            have h1 : Conn d2.stage p2 (connector + dirb) :=
              conn_mono hom12 (hinv.conn p2 _ i2 rb mb hp2 hnb hmi2 hmb)
            have h2 : Conn d2.stage (connector + dira) q2 :=
              conn_mono hom12 (hinv.conn _ q2 ra j2 ma hna hq2 hma hmj2)
            exact ((h1.trans (conn_symm (conn_adj hadjb))).trans
              (conn_adj hadja)).trans h2
          rcases hcases with ⟨h1, h2⟩ | ⟨h1, h2⟩
          · exact hchain p q i j hp hq (by rw [← h1]; exact hvi0)
              (by rw [← h2]; exact hvj0)
          · exact conn_symm (hchain q p j i hq hp
              (by rw [← h1]; exact hvj0) (by rw [← h2]; exact hvi0))
      · -- junc
        intro p hpin hpop
        have hpin0 : InBoundsP d.stage p := (hinb12 p).mp hpin
        have hpin1 : InBoundsP d1.stage p := by
          unfold InBoundsP
          rw [hom1.1, hom1.2.1]
          exact hpin0
        have hfromcr : ∀ pos, pos ∈ connectors →
            ∃ dir, dir ∈ CARDINALS ∧ ∃ i, rlookup R (pos + dir) = some i := by
          intro pos hpos
          obtain ⟨regs, hpr⟩ := hinv.cand pos hpos
          obtain ⟨hnd2, hl2a, hl2b, hwit2⟩ := hcrOK _ hpr
          obtain ⟨a2, b2, hpair2⟩ :=
            exists_pair_of_length_two (le_antisymm hl2b hl2a)
          obtain ⟨dir2, hdir2, hv2⟩ := hwit2 a2 (by rw [hpair2]; simp)
          exact ⟨dir2, hdir2, a2, hv2⟩
        rcases hnew2 p hpin1 hpop with h1 | h1
        · rw [hd1stage] at h1
          rcases openCell_set_rev hinv.wf hconninb hpin0 h1 with h2 | h2
          · rw [h2]
            exact Or.inr (hfromcr connector hconnmem)
          · exact hinv.junc p hpin0 h2
        · exact Or.inr (hfromcr p h1)
      · -- cand
        intro pos hpos
        exact hinv.cand pos ((hkeep2 pos hpos).1)
      · -- candRes
        intro pos hpos entry2 hfind2 resolved2 hmapM2
        obtain ⟨-, entry3, resolved3, hfind3, hmapM3, hded3⟩ :=
          hkeep2 pos hpos
        rw [hfind2] at hfind3
        injection hfind3 with hfind3
        subst hfind3
        rw [hmapM2] at hmapM3
        injection hmapM3 with hmapM3
        subst hmapM3
        exact hded3

/-- `connect_regions`, started from a state satisfying the cross-phase
invariant, leaves all passable cells mutually connected. -/
theorem connectRegions_conn {fuel : Nat} {d : DState} {r : Rng}
    {d' : DState} {r' : Rng} (hm : MazeInv d)
    (h : connectRegions fuel d r = some (d', r')) :
    ∀ p q, Passable d'.stage p → Passable d'.stage q →
      Conn d'.stage p q := by
  unfold connectRegions at h
  rw [Option.bind_eq_some] at h
  obtain ⟨cr, hscan, h⟩ := h
  dsimp only at h
  have hcprop := scanConnectors_mem hscan
  have hwallnone : ∀ e ∈ cr, rlookup d.regions e.1 = none := by
    intro e he
    obtain ⟨hint, hwall, -, -⟩ := hcprop e he
    cases hl : rlookup d.regions e.1 with
    | none => rfl
    | some i =>
      obtain ⟨t, hg, ht⟩ := (hm.openReg e.1
        (inBounds_of_interior hint)).mpr ⟨i, hl⟩
      rw [show d.stage.get e.1 = some Tile.Wall from hwall] at hg
      cases hg
      exact absurd rfl ht
  have hcrOK : ∀ e ∈ cr, e.2.Nodup ∧ 2 ≤ e.2.length ∧ e.2.length ≤ 2 ∧
      ∀ reg ∈ e.2, ∃ dir, dir ∈ CARDINALS ∧
        rlookup d.regions (e.1 + dir) = some reg := by
    intro e he
    obtain ⟨hint, hwall, hregs, hlen⟩ := hcprop e he
    refine ⟨by rw [hregs]; exact neighborRegions_nodup d e.1, hlen, ?_, ?_⟩
    · rw [hregs]
      exact neighborRegions_le_two hm.regL hm.regV hm.regE
        (hwallnone e he)
    · intro reg hreg
      rw [hregs] at hreg
      exact neighborRegions_mem hreg
  have hcrInt : ∀ e ∈ cr, 1 ≤ e.1.x ∧ e.1.x < d.stage.width - 1 ∧
      1 ≤ e.1.y ∧ e.1.y < d.stage.height - 1 := by
    intro e he
    exact (hcprop e he).1
  refine connectLoop_conn hcrOK hcrInt fuel h
    ⟨hm.wf, rfl, rfl, rfl, fun p i hp => (hm.regWF p i hp).1,
      fun p i hp => (hm.regWF p i hp).2, ?_, ?_, ?_, ?_, ?_, ?_⟩
  · -- regOpen
    intro p i hp
    exact (hm.openReg p
      (inBounds_of_interior (hm.regWF p i hp).1)).mpr ⟨i, hp⟩
  · -- res: the identity merge map
    intro p i hp
    obtain ⟨-, h0, h1⟩ := hm.regWF p i hp
    have hmem : i ∈ intRange 0 (d.curr_region + 1) :=
      mem_intRange.mpr ⟨h0, by omega⟩
    exact ⟨i, by rw [mlookup_idfold, if_pos hmem], hmem⟩
  · -- conn: identical resolutions mean identical regions
    intro p q i j v hp hq hvi hvj
    obtain ⟨-, hi0, hi1⟩ := hm.regWF p i hp
    obtain ⟨-, hj0, hj1⟩ := hm.regWF q j hq
    rw [mlookup_idfold,
      if_pos (mem_intRange.mpr ⟨hi0, by omega⟩)] at hvi
    rw [mlookup_idfold,
      if_pos (mem_intRange.mpr ⟨hj0, by omega⟩)] at hvj
    injection hvi with hvi
    injection hvj with hvj
    have hji : j = i := by omega
    rw [hji] at hq
    exact hm.regConn p q i hp hq
  · -- junc: before any junction, open cells are region cells
    intro p hpin hpop
    exact Or.inl ((hm.openReg p hpin).mp hpop)
  · -- cand
    intro pos hpos
    obtain ⟨e, he, heq⟩ := List.mem_map.mp hpos
    refine ⟨e.2, ?_⟩
    rw [← heq]
    exact he
  · -- candRes: distinct regions resolve distinctly through the identity
    intro pos hpos entry hfind resolved hmapM
    have hentrymem : entry ∈ cr := List.mem_of_find?_eq_some hfind
    obtain ⟨hnodup, hl2a, hl2b, hwit⟩ := hcrOK entry hentrymem
    obtain ⟨a, b, hpair⟩ :=
      exists_pair_of_length_two (le_antisymm hl2b hl2a)
    rw [hpair] at hmapM
    obtain ⟨ma, mb, hma, hmb, hres⟩ := mapM_pair hmapM
    subst hres
    have hab : a ≠ b := by
      have := List.nodup_cons.mp (by rw [← hpair]; exact hnodup)
      intro heq
      exact this.1 (by rw [heq]; exact List.mem_cons_self _ _)
    have hmaa : ma = a := by
      rw [mlookup_idfold] at hma
      split at hma
      · injection hma with hma
        exact hma.symm
      · exact absurd hma (by simp [mlookup])
    have hmbb : mb = b := by
      rw [mlookup_idfold] at hmb
      split at hmb
      · injection hmb with hmb
        exact hmb.symm
      · exact absurd hmb (by simp [mlookup])
    rw [hmaa, hmbb]
    exact dedup_pair_ne_gt hab

/-- Every successful run of `generate` up to the end of
`connect_regions`, on a fresh grid, leaves all passable cells mutually
connected. -/
theorem generateCore_conn {w h : Int} {fuel : Nat} {r : Rng} {d' : DState}
    {r' : Rng} (hw : 0 ≤ w) (hh : 0 ≤ h) (hsz : w * h < 2 ^ 31)
    (hgen : generateCore fuel (DState.new (Stage.new w h)) r =
      some (d', r')) :
    ∀ p q, Passable d'.stage p → Passable d'.stage q →
      Conn d'.stage p q := by
  unfold generateCore at hgen
  split at hgen
  · exact absurd hgen (by simp)
  · rename_i hguard
    have h1 := Int.emod_nonneg (DState.new (Stage.new w h)).stage.width
      (by norm_num : (2 : Int) ≠ 0)
    have h2 := Int.emod_lt_of_pos (DState.new (Stage.new w h)).stage.width
      (by norm_num : (0 : Int) < 2)
    have h3 := Int.emod_nonneg (DState.new (Stage.new w h)).stage.height
      (by norm_num : (2 : Int) ≠ 0)
    have h4 := Int.emod_lt_of_pos (DState.new (Stage.new w h)).stage.height
      (by norm_num : (0 : Int) < 2)
    simp only [Bool.or_eq_true, beq_iff_eq, not_or] at hguard
    have hWodd : (DState.new (Stage.new w h)).stage.width % 2 = 1 := by
      omega
    have hHodd : (DState.new (Stage.new w h)).stage.height % 2 = 1 := by
      omega
    dsimp only at hgen
    rw [addRooms, Option.bind_eq_some] at hgen
    obtain ⟨⟨d1, r1⟩, hrooms, hgen⟩ := hgen
    dsimp only at hgen
    rw [Option.bind_eq_some] at hgen
    obtain ⟨⟨d2, r2⟩, hmaze, hgen⟩ := hgen
    dsimp only at hgen
    have hrp0 : RPhaseInv { DState.new (Stage.new w h) with
        regions := ([] : List (Vector × Int)) } :=
      rphase_new hw hh hsz rfl rfl rfl rfl
    have hrp1 := addRoomsLoop_rinv _ hrooms hrp0
    have hp1 := addRoomsLoop_pres _ hrooms
    have hm2 : MazeInv d2 :=
      mazeFill_minv hrp1.minv (by rw [hp1.1]; exact hWodd)
        (by rw [hp1.2.1]; exact hHodd) hmaze
    exact connectRegions_conn hm2 hgen

instance (s : Stage) (p : Vector) : Decidable (InBoundsP s p) := by
  unfold InBoundsP; infer_instance

/-- C1: for every run (every oracle of random draws) of the pipeline on
a fresh grid — generation succeeding up to and including
`connect_regions`, which in particular requires odd width and height —
the passable cells (in-bounds cells holding `Floor`, `OpenDoor` or
`ClosedDoor`, with `ClosedDoor` treated as passable) form a single
connected component under 4-directional adjacency: every passable cell
is reachable from every other passable cell. -/
theorem c1_connected (w h : Int) (fuel : Nat) (r : Rng) (d' : DState)
    (r' : Rng) (hw : 0 ≤ w) (hh : 0 ≤ h) (hsz : w * h < 2 ^ 31)
    (hgen : generateCore fuel (DState.new (Stage.new w h)) r =
      some (d', r'))
    (p q : Vector) (hp : Passable d'.stage p)
    (hq : Passable d'.stage q) : Conn d'.stage p q :=
  generateCore_conn hw hh hsz hgen p q hp hq

/-- The state after `connect_regions` of a concrete successful run on a
fresh 5-by-5 grid under the all-zeros oracle, used as witness input. -/
def c1res : DState × Rng :=
  (generateCore 100 (DState.new (Stage.new 5 5)) ⟨fun _ => 0, 0⟩).getD
    (DState.new (Stage.new 5 5), ⟨fun _ => 0, 0⟩)

/-- C1 (witness): in the concrete run, the passable cells `(1, 1)` and
`(3, 3)` are connected. -/
theorem c1_witness : Conn c1res.1.stage ⟨1, 1⟩ ⟨3, 3⟩ :=
  c1_connected 5 5 100 ⟨fun _ => 0, 0⟩ c1res.1 c1res.2 (by decide)
    (by decide) (by decide) rfl ⟨1, 1⟩ ⟨3, 3⟩
    ⟨by decide, Tile.Floor, rfl, by decide⟩
    ⟨by decide, Tile.Floor, rfl, by decide⟩

end Dungeon
